import Mathlib

set_option maxRecDepth 8192
set_option maxHeartbeats 1000000

/-!
Shallow embedding of hajimehoshi/uwagaki (uwagaki.go).

The program builds a temporary Go workspace in which files of dependency
modules are overridden.  We model:
  * Go's `path/filepath` string functions for the Unix separator '/',
    and `modfile.IsDirectoryPath`, faithfully at the level of characters;
  * the filesystem as a map from absolute paths (segment lists) to storage
    cells, so that hard-link sharing and truncation-in-place are expressible;
  * the parts of `golang.org/x/mod/modfile` the code uses (module statement,
    require list, replace list with AddReplace semantics, which `go mod edit
    -replace` also goes through);
  * the external `go` tool invocations as an oracle environment `Env`
    (probe results, failure flags, module source locations).

`createEnvironment` below mirrors `CreateEnvironment` of uwagaki.go
step by step, and `replaceFn` mirrors the `replace` helper.
-/

namespace Uwagaki

/-! ### Character-level string splitting (Go `strings.Split` on "/") -/

/-- Prepend a character onto the first chunk. -/
def consHead (c : Char) : List (List Char) → List (List Char)
  | [] => [[c]]
  | h :: t => (c :: h) :: t

/-- Split a character list on '/'; `strings.Split` semantics
    (`splitChars [] = [[]]`, separators delimit possibly-empty chunks). -/
def splitChars : List Char → List (List Char)
  | [] => [[]]
  | c :: r => if c = '/' then [] :: splitChars r else consHead c (splitChars r)

/-- Join chunks with '/' between them (`strings.Join(l, "/")`). -/
def joinChars : List (List Char) → List Char
  | [] => []
  | [x] => x
  | x :: y :: xs => x ++ '/' :: joinChars (y :: xs)

/-- Go `strings.Split(s, "/")`. -/
def rawSegs (s : String) : List String := (splitChars s.data).map (fun l => ⟨l⟩)

/-- Join string segments with "/" (`strings.Join`). -/
def segsToString (l : List String) : String := ⟨joinChars (l.map String.data)⟩

/-- Go `strings.HasPrefix(s, pre)`. -/
def strHasPrefix (s pre : String) : Bool := pre.data.isPrefixOf s.data

/-- Unix `filepath.IsAbs` / `path.IsAbs`: the path starts with '/'. -/
def isRooted (s : String) : Bool := s.data.head? = some '/'

/-! ### Go `filepath.Clean` (Unix) -/

/-- One step of the lexical cleaning algorithm: skip empty and "."
    segments, resolve ".." against the (reversed) accumulator. -/
def cleanStep (rooted : Bool) (acc : List String) (s : String) : List String :=
  if s = "" ∨ s = "." then acc
  else if s = ".." then
    match acc with
    | [] => if rooted then [] else [".."]
    | a :: rest => if a = ".." then ".." :: a :: rest else rest
  else s :: acc

/-- Cleaned segment list of a path given as raw segments. -/
def cleanSegs (rooted : Bool) (l : List String) : List String :=
  (l.foldl (cleanStep rooted) []).reverse

/-- Go `filepath.Clean` for Unix paths. -/
def filepathClean (p : String) : String :=
  let r := isRooted p
  let out := cleanSegs r (rawSegs p)
  if r then ⟨'/' :: (segsToString out).data⟩
  else if out.isEmpty then "." else segsToString out

/-- Go `filepath.Join` (Unix): drop empty elements, join with "/", Clean.
    `path.Join` coincides with this on slash-separated paths. -/
def filepathJoin (elems : List String) : String :=
  let es := elems.filter (fun e => !(e == ""))
  if es.isEmpty then "" else filepathClean (segsToString es)

/-- Go `path.Join`; on the Unix model identical to `filepath.Join`. -/
def pathJoin (elems : List String) : String := filepathJoin elems

/-- Go `filepath.Dir` (Unix): everything up to the final separator, Cleaned;
    "." when there is no separator. -/
def filepathDir (s : String) : String :=
  let parts := rawSegs s
  if parts.length ≤ 1 then "."
  else filepathClean (segsToString parts.dropLast ++ "/")

def isAsciiLetter (c : Char) : Bool :=
  (decide ('A' ≤ c) && decide (c ≤ 'Z')) || (decide ('a' ≤ c) && decide (c ≤ 'z'))

/-- `modfile.IsDirectoryPath`: syntactic test for a local (directory) path,
    checking Unix, Windows and drive-letter shapes. -/
def isDirectoryPath (ns : String) : Bool :=
  ns == "." || strHasPrefix ns "./" || strHasPrefix ns ".\\" ||
  ns == ".." || strHasPrefix ns "../" || strHasPrefix ns "..\\" ||
  strHasPrefix ns "/" || strHasPrefix ns "\\" ||
  (match ns.data with
   | a :: b :: _ => isAsciiLetter a && b = ':'
   | _ => false)

/-- Go `filepath.Abs` against working directory `wd` (Unix): `Clean(p)` when
    absolute, else `Join(wd, p)`. -/
def filepathAbs (wd p : String) : String :=
  if isRooted p then filepathClean p else filepathJoin [wd, p]

/-- Segments of a path, dropping empty and "." components.  On a cleaned
    absolute path this is exactly the component list. -/
def pathSegs (s : String) : List String :=
  (rawSegs s).filter (fun x => !(x == "" || x == "."))

/-- Length of the common segment prefix. -/
def commonPrefixLen : List String → List String → Nat
  | a :: as, b :: bs => if a = b then commonPrefixLen as bs + 1 else 0
  | _, _ => 0

/-- Go `filepath.Rel` (Unix), on cleaned paths; `none` where Go errors. -/
def filepathRel (base targ : String) : Option String :=
  let b := filepathClean base
  let t := filepathClean targ
  if b = t then some "."
  else if isRooted b ≠ isRooted t then none
  else
    let bs := pathSegs b
    let ts := pathSegs t
    let n := commonPrefixLen bs ts
    if (bs.drop n).contains ".." then none
    else
      let segs := (bs.drop n).map (fun _ => "..") ++ ts.drop n
      if segs.isEmpty then some "." else some (segsToString segs)

/-- A string path that is absolute and already in cleaned form. -/
def CleanAbs (s : String) : Prop := isRooted s = true ∧ filepathClean s = s

instance (s : String) : Decidable (CleanAbs s) := by
  unfold CleanAbs
  infer_instance

/-- Filesystem key of an absolute path string: its segment list. -/
def strToPath (s : String) : List String := pathSegs s

-- Sanity checks of the path model against Go behaviour.
example : filepathClean "/a/b/../c" = "/a/c" := by decide
example : filepathClean "/../a" = "/a" := by decide
example : filepathClean "a//b/./c/" = "a/b/c" := by decide
example : filepathClean "" = "." := by decide
example : filepathClean "/" = "/" := by decide
example : filepathJoin ["/w", "mod"] = "/w/mod" := by decide
example : filepathJoin ["/w/mod", "example.com/m", "../../x"] = "/w/mod/x" := by decide
example : filepathJoin ["/w/mod", "m", "../../../../y"] = "/y" := by decide
example : filepathDir "/proj/go.mod" = "/proj" := by decide
example : filepathDir "/a" = "/" := by decide
example : filepathDir "a" = "." := by decide
example : isDirectoryPath "./x" = true := by decide
example : isDirectoryPath "golang.org/x/text" = false := by decide
example : isDirectoryPath "c:\\foo" = true := by decide
example : isDirectoryPath ".." = true := by decide
example : filepathAbs "/proj" "./internal/testpkg" = "/proj/internal/testpkg" := by decide
example : filepathRel "/proj" "/proj/internal/testpkg" = some "internal/testpkg" := by decide
example : filepathRel "/proj/internal" "/proj" = some ".." := by decide
example : filepathRel "/proj" "/proj" = some "." := by decide
example : pathJoin ["github.com/hajimehoshi/uwagaki", "internal/testpkg"] =
    "github.com/hajimehoshi/uwagaki/internal/testpkg" := by decide
example : pathJoin ["mymod", "."] = "mymod" := by decide
example : strToPath "/w/mod/x" = ["w", "mod", "x"] := by decide

/-! ### Filesystem model

Absolute paths are segment lists.  Files map to numbered storage cells so
that hard links (several paths backed by one cell) and truncation in place
(`O_TRUNC` rewriting a shared cell) are expressible; `os.WriteFile` and
`os.Create` truncate the existing cell of a path, which is exactly why the
code removes the destination before writing. -/

abbrev SPath := List String

inductive FsErr where
  | notExist
  | notDir
  | other
deriving DecidableEq

/-- Replace the binding of key `a` in an association list. -/
def setAssoc (l : List (Nat × String)) (a : Nat) (b : String) : List (Nat × String) :=
  (a, b) :: l.filter (fun e => !(e.1 == a))

structure FS where
  files : List (SPath × Nat)
  dirs : List SPath
  store : List (Nat × String)
  next : Nat
deriving DecidableEq

def FS.lookupFile (fs : FS) (p : SPath) : Option Nat := fs.files.lookup p

def FS.isFile (fs : FS) (p : SPath) : Bool := (fs.lookupFile p).isSome

def FS.isDir (fs : FS) (p : SPath) : Bool := p.isEmpty || fs.dirs.contains p

/-- Byte content visible at a path. -/
def FS.read (fs : FS) (p : SPath) : Option String :=
  (fs.files.lookup p).bind (fun i => fs.store.lookup i)

inductive StatR where
  | file | dir | notExist
deriving DecidableEq

/-- `os.Stat` outcome classification. -/
def FS.stat (fs : FS) (p : SPath) : StatR :=
  if fs.isFile p then .file else if fs.isDir p then .dir else .notExist

/-- `w` is a proper ancestor of `p`. -/
def strictUnderB (w p : SPath) : Bool := w.isPrefixOf p && !(w == p)

def FS.hasEntryUnder (fs : FS) (p : SPath) : Bool :=
  fs.files.any (fun e => strictUnderB p e.1) || fs.dirs.any (fun d => strictUnderB p d)

/-- Go `os.Remove`: unlink a file (other links to the same cell survive),
    or delete an empty directory; error otherwise. -/
def FS.removeOp (fs : FS) (p : SPath) : FS × Option FsErr :=
  if fs.isFile p then
    ({ fs with files := fs.files.filter (fun e => !(e.1 == p)) }, none)
  else if fs.isDir p then
    if fs.hasEntryUnder p then (fs, some .other)
    else ({ fs with dirs := fs.dirs.filter (fun d => !(d == p)) }, none)
  else (fs, some .notExist)

/-- All ancestors of a path, the path itself included. -/
def ancestors (p : SPath) : List SPath :=
  (List.range (p.length + 1)).map (fun k => p.take k)

/-- Go `os.MkdirAll`: create the path and every missing ancestor; fails if
    any of them exists as a file. -/
def FS.mkdirAll (fs : FS) (p : SPath) : FS × Option FsErr :=
  if (ancestors p).any (fun q => fs.isFile q) then (fs, some .other)
  else ({ fs with dirs := fs.dirs ++ ((ancestors p).filter (fun q => !(fs.isDir q))) }, none)

/-- Go `os.WriteFile` / `os.Create` + `io.Copy` (`O_CREATE|O_TRUNC`):
    truncating an existing path rewrites the storage cell backing it (so a
    hard-linked original would change too); a fresh path gets a fresh cell. -/
def FS.writeFile (fs : FS) (p : SPath) (c : String) : FS × Option FsErr :=
  if fs.isDir p then (fs, some .other)
  else if !(fs.isDir p.dropLast) then (fs, some .other)
  else
    match fs.lookupFile p with
    | some i => ({ fs with store := setAssoc fs.store i c }, none)
    | none =>
      ({ fs with files := (p, fs.next) :: fs.files,
                 store := setAssoc fs.store fs.next c,
                 next := fs.next + 1 }, none)

/-! ### The manifest (`golang.org/x/mod/modfile` as used by the code) -/

structure ModReplace where
  oldPath : String
  oldVers : String
  newPath : String
  newVers : String
deriving DecidableEq

structure Modfile where
  moduleName : String
  requires : List (String × String)
  replaces : List ModReplace
deriving DecidableEq

def emptyModfile : Modfile := ⟨"", [], []⟩

/-- The match test of `modfile.AddReplace`
    (`r.Old.Path == oldPath && (oldVers == "" || r.Old.Version == oldVers)`):
    an existing replace is hit when its old path equals the given path
    and the given old version is empty — matching every version of the
    path — or equals its old version. -/
def matchRep (op ov : String) (r : ModReplace) : Bool :=
  r.oldPath == op && (ov == "" || r.oldVers == ov)

/-- `modfile.AddReplace` (which `go mod edit -replace` also invokes), at
    the level of the written file: the first matching replace line is
    rewritten to `replace op [ov] => np [nv]`, every later matching line is
    removed, and only when nothing matched is a new line appended.  An
    empty old version matches and drops replacements of any version of the
    path. -/
def addReplace : List ModReplace → String → String → String → String → List ModReplace
  | [], op, ov, np, nv => [⟨op, ov, np, nv⟩]
  | r :: rest, op, ov, np, nv =>
    if matchRep op ov r then
      ⟨op, ov, np, nv⟩ :: rest.filter (fun s => !(matchRep op ov s))
    else r :: addReplace rest op ov np nv

/-- `modfile.AddRequire`; only existence and version are tracked. -/
def addRequire (reqs : List (String × String)) (p v : String) : List (String × String) :=
  if reqs.any (fun e => e.1 == p) then reqs.map (fun e => if e.1 == p then (p, v) else e)
  else reqs ++ [(p, v)]

/-- `AddReplace`'s scan over the slice of replace lines as mutated in
    place; `none` stands for a line already deleted (`*r = Replace{}`).
    The boolean threads the `need` flag: the first match is rewritten to
    the new line, later matches are deleted. -/
def arScan (op ov np nv : String) : List (Option ModReplace) → Bool →
    List (Option ModReplace) × Bool
  | [], need => ([], need)
  | none :: rest, need =>
    match arScan op ov np nv rest need with
    | (rest', need') => (none :: rest', need')
  | some r :: rest, need =>
    if matchRep op ov r then
      if need then
        match arScan op ov np nv rest false with
        | (rest', need') => (some ⟨op, ov, np, nv⟩ :: rest', need')
      else
        match arScan op ov np nv rest false with
        | (rest', need') => (none :: rest', need')
    else
      match arScan op ov np nv rest need with
      | (rest', need') => (some r :: rest', need')

/-- `modfile.AddReplace` acting on the mutated slice: rewrite or delete
    matching lines, appending a new line only when nothing matched. -/
def addReplaceSlots (slots : List (Option ModReplace)) (op ov np nv : String) :
    List (Option ModReplace) :=
  match arScan op ov np nv slots true with
  | (slots', need') => if need' then slots' ++ [some ⟨op, ov, np, nv⟩] else slots'

/-- Lines 82–95 of uwagaki.go: iterate positionally over the replace slice
    while `AddReplace` mutates it in place.  A line the iteration reaches
    is skipped when already deleted or when its current target is not a
    relative directory path; otherwise it is re-added keyed by its own
    (path, version) with the target re-anchored at
    `filepath.Join(dir, target)`.  Appended lines lie beyond the captured
    iteration range and are never visited. -/
def fixLoopGo (dir : String) : Nat → Nat → List (Option ModReplace) →
    List (Option ModReplace)
  | 0, _, slots => slots
  | fuel + 1, idx, slots =>
    let slots' :=
      match slots.get? idx with
      | none => slots
      | some none => slots
      | some (some r) =>
        if isDirectoryPath r.newPath ∧ ¬ (isRooted r.newPath = true) then
          addReplaceSlots slots r.oldPath r.oldVers (filepathJoin [dir, r.newPath])
            r.newVers
        else slots
    fixLoopGo dir fuel (idx + 1) slots'

/-- The fix loop on the copied manifest's replace list, as written back to
    the file (deleted lines dropped). -/
def fixReplaces (dir : String) (rs : List ModReplace) : List ModReplace :=
  (fixLoopGo dir rs.length 0 (rs.map some)).filterMap id

/-- Stand-in for `modfile.Format`; the bytes are never re-read by the model
    (the manifest is tracked structurally), only the file's existence is. -/
def formatModfile (m : Modfile) : String := "module " ++ m.moduleName

/-- The per-edge effect of the fix loop (lines 87–95) on the edge it keys:
    relative directory targets are re-targeted at `Join(dir, target)`. -/
def fixOne (dir : String) (r : ModReplace) : ModReplace :=
  if isDirectoryPath r.newPath ∧ ¬ (isRooted r.newPath = true) then
    { r with newPath := filepathJoin [dir, r.newPath] }
  else r

/-- Key of a replace directive: the old path with its version. -/
def replaceKey (r : ModReplace) : String × String := (r.oldPath, r.oldVers)

/-- Invariant carried through a run: the workspace root exists as a
    directory, its go.mod exists as a file (so the root is never an empty
    directory `os.Remove` could delete), and the go.mod path is not a
    directory. -/
def gmInv (w gm : SPath) (fs : FS) : Prop :=
  fs.isDir w = true ∧ fs.isFile gm = true ∧ fs.dirs.contains gm = false

/-- The replace edges of a manifest whose old side is exactly the
    unversioned module path `m`. -/
def edgeFilter (rs : List ModReplace) (m : String) : List ModReplace :=
  rs.filter (fun s => s.oldPath == m && s.oldVers == "")

def firstOccsAux (seen : List String) : List String → List String
  | [] => []
  | x :: xs => if seen.contains x then firstOccsAux seen xs
               else x :: firstOccsAux (x :: seen) xs

/-- First occurrences of a list's elements, in order. -/
def firstOccs (l : List String) : List String := firstOccsAux [] l

/-! ### The oracle environment: results of the external `go` invocations -/

structure ReplaceItem where
  Mod : String
  Path : String
  Content : String
deriving DecidableEq

structure Env where
  /-- caller's working directory (for `filepath.Abs`). -/
  wd : String
  /-- directory `os.MkdirTemp` hands out. -/
  workRoot : String
  /-- whether `os.MkdirTemp` itself succeeds. -/
  mkdirTempOk : Bool
  /-- output of `go list -m -f GoMod` ("" when absent / failed; the error
      is ignored by the code). -/
  currentGoMod : String
  /-- parse of the caller's go.mod; `none` models read/parse failure. -/
  origMod : Option Modfile
  /-- content of the caller's go.sum when it exists. -/
  goSum : Option String
  /-- whether `go mod init` succeeds. -/
  goModInitOk : Bool
  /-- whether `go get <non-directory paths>` succeeds. -/
  goGetPathsOk : Bool
  /-- whether `go get <module>` succeeds. -/
  goGetModOk : String → Bool
  /-- output of `go list -m -f Dir <module>`; `none` models failure. -/
  modDir : String → Option String
  /-- `time.Now().UTC().Format("20060102150405")`. -/
  nowStamp : String
  /-- output of `go list -m -f Path`; `none` models failure. -/
  currentModPath : Option String

/-- Observable events of a run, for stating once-per-module and
    remove-before-write properties. -/
inductive Ev where
  | goGetMod (m : String)
  | locate (m : String)
  | replaceCall (m : String)
  | treeCopy (m : String)
  | removeDst (p : String)
  | writeDst (p : String)
deriving DecidableEq

/-- Modules of the `go list -m -f Dir` (locate) events of a log. -/
def locatesOf (l : List Ev) : List String :=
  l.filterMap (fun e => match e with | Ev.locate m => some m | _ => none)

/-- Modules of the `replace` helper invocation events of a log. -/
def replaceCallsOf (l : List Ev) : List String :=
  l.filterMap (fun e => match e with | Ev.replaceCall m => some m | _ => none)

/-! ### The embedding of `CreateEnvironment` and `replace` -/

/-- Write the workspace `go.mod` (every manifest mutation in the code is
    followed by writing the file back). -/
def writeGoMod (work : String) (m : Modfile) (fs : FS) : FS × Option FsErr :=
  fs.writeFile (strToPath (filepathJoin [work, "go.mod"])) (formatModfile m)

/-- Lines 53–126: build the base manifest, either by copying and renaming
    the caller's go.mod (fixing relative replace targets, copying go.sum)
    or by `go mod init`.  Returns the original module path ("" if none). -/
def phaseManifest (env : Env) (work : String) (fs : FS) :
    FS × Modfile × String × Option FsErr :=
  let name := "uwagaki_" ++ env.nowStamp
  if env.currentGoMod ≠ "" then
    match env.origMod with
    | none => (fs, emptyModfile, "", some .other)
    | some om =>
      let origModPath := om.moduleName
      let dir := filepathDir env.currentGoMod
      let m : Modfile :=
        { moduleName := name, requires := om.requires,
          replaces := fixReplaces dir om.replaces }
      match writeGoMod work m fs with
      | (fs1, some e) => (fs1, m, origModPath, some e)
      | (fs1, none) =>
        match env.goSum with
        | some sum =>
          match fs1.writeFile (strToPath (filepathJoin [work, "go.sum"])) sum with
          | (fs2, some e) => (fs2, m, origModPath, some e)
          | (fs2, none) => (fs2, m, origModPath, none)
        | none => (fs1, m, origModPath, none)
  else
    if env.goModInitOk then
      let m : Modfile := { moduleName := name, requires := [], replaces := [] }
      match writeGoMod work m fs with
      | (fs1, some e) => (fs1, m, "", some e)
      | (fs1, none) => (fs1, m, "", none)
    else (fs, emptyModfile, "", some .other)

/-- Lines 128–149: `go get` the non-directory package paths. -/
def phaseGoGetPaths (env : Env) (paths : List String) : Option FsErr :=
  let nonDir := paths.filter (fun p => !(isDirectoryPath p))
  if nonDir.isEmpty then none
  else if env.goGetPathsOk then none else some .other

/-- Lines 151–187: when a caller manifest was copied, require the original
    module and redirect it to its on-disk source directory. -/
def phaseOrig (env : Env) (work origModPath : String) (fs : FS) (m : Modfile) :
    FS × Modfile × Option FsErr :=
  if origModPath = "" then (fs, m, none)
  else
    let m1 := { m with requires := addRequire m.requires origModPath "v0.0.0" }
    match writeGoMod work m1 fs with
    | (fs1, some e) => (fs1, m1, some e)
    | (fs1, none) =>
      let dstRel := filepathDir env.currentGoMod
      let m2 := { m1 with replaces := addReplace m1.replaces origModPath "" dstRel "" }
      match writeGoMod work m2 fs1 with
      | (fs2, some e) => (fs2, m2, some e)
      | (fs2, none) => (fs2, m2, none)

/-- The per-file body of `filepath.WalkDir` in `replace` (lines 293–330):
    copy each regular file of the snapshot, skipping the top-level `.git`
    subtree, creating parent directories, `os.Create` + `io.Copy`. -/
def copyEntries (dst : SPath) (n : Nat) : FS → List (SPath × Nat) → FS × Option FsErr
  | fs, [] => (fs, none)
  | fs, (q, i) :: rest =>
    let rel := q.drop n
    if rel.head? = some ".git" ∧ 1 < rel.length then copyEntries dst n fs rest
    else
      match fs.mkdirAll (dst ++ rel).dropLast with
      | (fs1, some e) => (fs1, some e)
      | (fs1, none) =>
        match fs1.store.lookup i with
        | none => (fs1, some .other)
        | some c =>
          match fs1.writeFile (dst ++ rel) c with
          | (fs2, some e) => (fs2, some e)
          | (fs2, none) => copyEntries dst n fs2 rest

/-- The tree copy of `replace`: walk the module's source tree and copy its
    files below `dst`.  Walking a missing root reports its stat error. -/
def copyTree (fs : FS) (src dst : SPath) : FS × Option FsErr :=
  if fs.isDir src then
    copyEntries dst src.length fs (fs.files.filter (fun e => strictUnderB src e.1))
  else (fs, some .notExist)

/-- `go mod edit -replace modulePath=dstRel` (lines 335–346): exact-match
    update-or-append on the replace list, then rewrite go.mod. -/
def goModEditReplace (work : String) (m : Modfile) (modulePath dstRel : String) (fs : FS) :
    FS × Modfile × Option FsErr :=
  let m' := { m with replaces := addReplace m.replaces modulePath "" dstRel "" }
  match writeGoMod work m' fs with
  | (fs1, e) => (fs1, m', e)

/-- The `replace` helper (lines 282–349): stat the destination tree; a file
    there is fatal; an existing directory skips the copy; otherwise copy the
    module source tree; in either non-fatal case add the redirect edge
    `modulePath => ./mod/<modulePath>`. -/
def replaceFn (work rmd modulePath srcDir : String) (fs : FS) (m : Modfile) :
    FS × Modfile × List Ev × Option FsErr :=
  let dst := filepathJoin [rmd, modulePath]
  let dstRel := "./" ++ filepathJoin ["mod", modulePath]
  match fs.stat (strToPath dst) with
  | .file => (fs, m, [], some .notDir)
  | .dir =>
    match goModEditReplace work m modulePath dstRel fs with
    | (fs1, m', e) => (fs1, m', [], e)
  | .notExist =>
    match copyTree fs (strToPath srcDir) (strToPath dst) with
    | (fs1, some e) => (fs1, m, [.treeCopy modulePath], some e)
    | (fs1, none) =>
      match goModEditReplace work m modulePath dstRel fs1 with
      | (fs2, m', e) => (fs2, m', [.treeCopy modulePath], e)

structure LoopSt where
  fs : FS
  mod : Modfile
  visited : List String
  log : List Ev

/-- Lines 225–235 for one item: MkdirAll(Dir(dst)), Remove(dst) tolerating
    a not-exist outcome, then WriteFile(dst, content). -/
def applyItemWrite (rmd : String) (st : LoopSt) (r : ReplaceItem) :
    LoopSt × Option FsErr :=
  let dst := filepathJoin [rmd, r.Mod, r.Path]
  match st.fs.mkdirAll (strToPath (filepathDir dst)) with
  | (fs1, some e) => ({ st with fs := fs1 }, some e)
  | (fs1, none) =>
    match fs1.removeOp (strToPath dst) with
    | (fs2, e?) =>
      if e? = none ∨ e? = some .notExist then
        match fs2.writeFile (strToPath dst) r.Content with
        | (fs3, some e) =>
          ({ st with fs := fs3, log := st.log ++ [.removeDst dst] }, some e)
        | (fs3, none) =>
          ({ st with fs := fs3, log := st.log ++ [.removeDst dst, .writeDst dst] }, none)
      else ({ st with fs := fs2 }, e?)

/-- Lines 192–223 for one item: materialize the module on first visit
    (go get, go list -m Dir, the `replace` helper), recording it visited. -/
def applyItemVisit (env : Env) (work rmd : String) (st : LoopSt) (r : ReplaceItem) :
    LoopSt × Option FsErr :=
  if st.visited.contains r.Mod then (st, none)
  else if !(env.goGetModOk r.Mod) then (st, some .other)
  else
    match env.modDir r.Mod with
    | none => ({ st with log := st.log ++ [.goGetMod r.Mod] }, some .other)
    | some srcDir =>
      match replaceFn work rmd r.Mod srcDir st.fs st.mod with
      | (fs', m', evs, some e) =>
        ({ fs := fs', mod := m', visited := st.visited,
           log := st.log ++ [.goGetMod r.Mod, .locate r.Mod, .replaceCall r.Mod] ++ evs },
         some e)
      | (fs', m', evs, none) =>
        ({ fs := fs', mod := m', visited := r.Mod :: st.visited,
           log := st.log ++ [.goGetMod r.Mod, .locate r.Mod, .replaceCall r.Mod] ++ evs },
         none)

/-- One iteration of the loop at lines 192–236: materialize the module on
    first visit, then write the item's file. -/
def applyItem (env : Env) (work rmd : String) (st : LoopSt) (r : ReplaceItem) :
    LoopSt × Option FsErr :=
  match applyItemVisit env work rmd st r with
  | (st', some e) => (st', some e)
  | (st', none) => applyItemWrite rmd st' r

/-- The whole loop at lines 191–236. -/
def runItems (env : Env) (work rmd : String) : LoopSt → List ReplaceItem → LoopSt × Option FsErr
  | st, [] => (st, none)
  | st, r :: rest =>
    match applyItem env work rmd st r with
    | (st', none) => runItems env work rmd st' rest
    | (st', some e) => (st', some e)

/-- Lines 255–277 for one entry: identifier references pass through;
    directory references become absolute, and with a governing manifest are
    re-expressed as `path.Join(currentModPath, rel)`. -/
def resolveOne (env : Env) (cmp pkg : String) : Option String :=
  if !(isDirectoryPath pkg) then some pkg
  else
    let abs := filepathAbs env.wd pkg
    if env.currentGoMod = "" then some abs
    else
      match filepathRel (filepathDir env.currentGoMod) abs with
      | none => none
      | some rel => some (pathJoin [cmp, rel])

def resolveList (env : Env) (cmp : String) : List String → List String × Option FsErr
  | [] => ([], none)
  | pkg :: rest =>
    match resolveOne env cmp pkg with
    | none => ([], some .other)
    | some v =>
      match resolveList env cmp rest with
      | (vs, e) => (v :: vs, e)

/-- Lines 242–277: fetch `go list -m -f Path` when a manifest governs the
    caller, then resolve every entry. -/
def phaseResolve (env : Env) (paths : List String) : List String × Option FsErr :=
  if env.currentGoMod ≠ "" then
    match env.currentModPath with
    | none => ([], some .other)
    | some cmp => resolveList env cmp paths
  else resolveList env "" paths

/-- Result of a `CreateEnvironment` call: final filesystem, workspace
    manifest, event log, and the Go return values `(workDir, newPaths, err)`
    (`("", nil, err)` on every error path of the code). -/
structure CEOut where
  fs : FS
  mod : Modfile
  log : List Ev
  workDir : String
  newPaths : List String
  err : Option FsErr

/-- `CreateEnvironment` (lines 47–280). -/
def createEnvironment (env : Env) (fs0 : FS) (paths : List String)
    (replaces : List ReplaceItem) : CEOut :=
  if !env.mkdirTempOk then ⟨fs0, emptyModfile, [], "", [], some .other⟩ else
  match fs0.mkdirAll (strToPath env.workRoot) with
  | (fs, some e) => ⟨fs, emptyModfile, [], "", [], some e⟩
  | (fs, none) =>
  let work := env.workRoot
  match phaseManifest env work fs with
  | (fs1, m, _, some e) => ⟨fs1, m, [], "", [], some e⟩
  | (fs1, m, origModPath, none) =>
  match phaseGoGetPaths env paths with
  | some e => ⟨fs1, m, [], "", [], some e⟩
  | none =>
  match phaseOrig env work origModPath fs1 m with
  | (fs2, m2, some e) => ⟨fs2, m2, [], "", [], some e⟩
  | (fs2, m2, none) =>
  let rmd := filepathJoin [work, "mod"]
  match runItems env work rmd ⟨fs2, m2, [], []⟩ replaces with
  | (st, some e) => ⟨st.fs, st.mod, st.log, "", [], some e⟩
  | (st, none) =>
  let paths2 := if paths.isEmpty then ["."] else paths
  match phaseResolve env paths2 with
  | (_, some e) => ⟨st.fs, st.mod, st.log, "", [], some e⟩
  | (nps, none) => ⟨st.fs, st.mod, st.log, work, nps, none⟩

/-! ### Concrete scenarios used by witnesses and counterexamples -/

/-- Module cache tree for `example.com/m` plus an unrelated original file,
    as the pre-state of a call. -/
def fsA : FS :=
  { files := [(["cache", "example.com", "m", "a.go"], 0),
              (["cache", "example.com", "m", ".git", "config"], 1),
              (["orig", "a.txt"], 2)],
    dirs := [["cache"], ["cache", "example.com"], ["cache", "example.com", "m"],
             ["cache", "example.com", "m", ".git"], ["orig"]],
    store := [(0, "package m"), (1, "gitconfig"), (2, "orig-content")],
    next := 3 }

/-- Environment with no governing go.mod for the caller. -/
def envA : Env :=
  { wd := "/cwd", workRoot := "/w", mkdirTempOk := true, currentGoMod := "",
    origMod := none, goSum := none, goModInitOk := true, goGetPathsOk := true,
    goGetModOk := fun _ => true,
    modDir := fun m => if m = "example.com/m" then some "/cache/example.com/m" else none,
    nowStamp := "20250101120000", currentModPath := none }

/-- Environment with a governing go.mod (`example.com/proj` at /proj). -/
def envB : Env :=
  { envA with wd := "/proj", currentGoMod := "/proj/go.mod",
              origMod := some ⟨"example.com/proj", [], []⟩,
              goSum := some "sums", currentModPath := some "example.com/proj" }

def itemA : ReplaceItem := ⟨"example.com/m", "a.go", "new-content"⟩

/-- A caller manifest with one relative-target replace, one absolute-target
    replace and one identifier-target replace. -/
def omC4 : Modfile :=
  ⟨"example.com/proj", [],
   [⟨"example.com/dep", "", "./vendor/dep", ""⟩,
    ⟨"example.com/pinned", "v1.0.0", "/abs/dep", ""⟩,
    ⟨"example.com/upstream", "", "example.com/fork", "v1.2.3"⟩]⟩

def envC4 : Env := { envB with origMod := some omC4 }

/-- A caller manifest with a versioned absolute-target replace and an
    unversioned relative-target replace for the same module path (distinct
    (path, version) keys). -/
def omC4x : Modfile :=
  ⟨"example.com/proj", [],
   [⟨"example.com/dep", "v1.0.0", "/abs/dep", ""⟩,
    ⟨"example.com/dep", "", "./b", ""⟩]⟩

def envC4x : Env := { envB with origMod := some omC4x }

/-- A caller manifest whose module name is literally of the generated
    `uwagaki_<timestamp>` form for the call's timestamp. -/
def omC7 : Modfile := ⟨"uwagaki_20250101120000", [], []⟩

def envC7 : Env := { envB with origMod := some omC7 }

def itemB : ReplaceItem := ⟨"example.com/m", "sub/b.go", "b-content"⟩

/-- An item whose relative path escapes the materialized tree via `..`. -/
def itemEsc : ReplaceItem := ⟨"example.com/m", "../../../../orig/a.txt", "evil"⟩

/-- An item whose relative path climbs out of the materialized tree and
    back into the module's own on-disk source directory. -/
def itemEscCache : ReplaceItem :=
  ⟨"example.com/m", "../../../../cache/example.com/m/a.go", "evil"⟩

/-- A second item for the same (module, path) pair as `itemA`. -/
def itemA2 : ReplaceItem := ⟨"example.com/m", "a.go", "second"⟩

/-- An item whose distinct relative path cleans to `itemA`'s destination. -/
def itemAlias : ReplaceItem := ⟨"example.com/m", "sub/../a.go", "sneaky"⟩

/-- A pre-state where the module's destination under the workspace already
    exists as a regular file. -/
def fsC8f : FS :=
  { files := [(["w", "mod", "example.com", "m"], 0)],
    dirs := [["w"], ["w", "mod"], ["w", "mod", "example.com"]],
    store := [(0, "stray")], next := 1 }

/-- A pre-state where the module's destination under the workspace already
    exists as a directory. -/
def fsC8d : FS :=
  { files := [],
    dirs := [["w"], ["w", "mod"], ["w", "mod", "example.com"],
             ["w", "mod", "example.com", "m"]],
    store := [], next := 0 }

/-- Storage-cell sanity: every file entry's cell index is below the
    allocation counter (true of any state the model's operations build). -/
def boundedCells (fs : FS) : Prop := ∀ e ∈ fs.files, e.2 < fs.next

/-- No storage cell is shared between a file strictly inside `W` and one
    outside it (no hard link crosses the workspace boundary). -/
def sepCells (W : SPath) (fs : FS) : Prop :=
  ∀ e1 ∈ fs.files, ∀ e2 ∈ fs.files,
    strictUnderB W e1.1 = true → strictUnderB W e2.1 = false → e1.2 ≠ e2.2

/-- After a remove-then-write at `dst0`: the destination is backed by a
    dedicated cell holding `c` that no other file shares. -/
def lastWinInv (dst0 : SPath) (c : String) (fs : FS) : Prop :=
  ∃ i, fs.lookupFile dst0 = some i ∧ fs.store.lookup i = some c ∧
    (∀ e ∈ fs.files, e.1 ≠ dst0 → e.2 ≠ i) ∧ i < fs.next ∧
    ∀ e ∈ fs.files, e.2 < fs.next

-- The normal scenario runs to completion and behaves as the tests expect.
example : (createEnvironment envA fsA ["example.com/m/pkg"] [itemA]).err = none := by decide
example : (createEnvironment envA fsA ["example.com/m/pkg"] [itemA]).workDir = "/w" := by decide
example : (createEnvironment envA fsA ["example.com/m/pkg"] [itemA]).newPaths
    = ["example.com/m/pkg"] := by decide
example : (createEnvironment envA fsA ["example.com/m/pkg"] [itemA]).fs.read
    ["w", "mod", "example.com", "m", "a.go"] = some "new-content" := by decide
-- .git is not copied into the materialized tree.
example : (createEnvironment envA fsA ["example.com/m/pkg"] [itemA]).fs.read
    ["w", "mod", "example.com", "m", ".git", "config"] = none := by decide
-- the original cache tree is untouched here
example : (createEnvironment envA fsA ["example.com/m/pkg"] [itemA]).fs.read
    ["cache", "example.com", "m", "a.go"] = some "package m" := by decide
-- manifest: fresh name, one replace edge for the overridden module
example : (createEnvironment envA fsA ["example.com/m/pkg"] [itemA]).mod.moduleName
    = "uwagaki_20250101120000" := by decide
example : (createEnvironment envA fsA ["example.com/m/pkg"] [itemA]).mod.replaces
    = [⟨"example.com/m", "", "./mod/example.com/m", ""⟩] := by decide
-- resolve with a governing manifest
example : (createEnvironment envB fsA ["./sub"] []).newPaths
    = ["example.com/proj/sub"] := by decide
example : (createEnvironment envB fsA [] []).newPaths = ["example.com/proj"] := by decide
-- the escaping item is not rejected: the run succeeds and the write lands
-- outside the workspace, mutating the original tree
example : (createEnvironment envA fsA ["example.com/m/pkg"] [itemEsc]).err = none := by decide
example : (createEnvironment envA fsA ["example.com/m/pkg"] [itemEsc]).fs.read
    ["orig", "a.txt"] = some "evil" := by decide
-- two items, one module: materialization once, both files written
example : (createEnvironment envA fsA [] [itemA, itemB]).log.filter
    (fun e => match e with | .replaceCall _ => true | _ => false)
    = [.replaceCall "example.com/m"] := by decide
example : (createEnvironment envA fsA [] [itemA, itemB]).fs.read
    ["w", "mod", "example.com", "m", "sub", "b.go"] = some "b-content" := by decide
-- last-writer-wins for duplicate (Mod, Path)
example : (createEnvironment envA fsA [] [itemA, ⟨"example.com/m", "a.go", "second"⟩]).fs.read
    ["w", "mod", "example.com", "m", "a.go"] = some "second" := by decide
-- failure after allocation returns "" as the directory
example : (createEnvironment { envB with origMod := none } fsA [] []).err = some .other := by
  decide
example : (createEnvironment { envB with origMod := none } fsA [] []).workDir = "" := by decide

/-! ### Path lemmas -/

theorem splitChars_ne_nil (cs : List Char) : splitChars cs ≠ [] := by
  induction cs with
  | nil => simp [splitChars]
  | cons c r ih =>
    simp only [splitChars]
    split
    · simp
    · cases h : splitChars r with
      | nil => exact absurd h ih
      | cons a t => simp [consHead]

theorem mem_splitChars_no_slash (cs : List Char) :
    ∀ l ∈ splitChars cs, '/' ∉ l := by
  induction cs with
  | nil => intro l hl; simp [splitChars] at hl; simp [hl]
  | cons c r ih =>
    intro l hl
    simp only [splitChars] at hl
    by_cases hc : c = '/'
    · simp [hc] at hl
      rcases hl with hl | hl
      · simp [hl]
      · exact ih l hl
    · simp [hc] at hl
      cases h : splitChars r with
      | nil => exact absurd h (splitChars_ne_nil r)
      | cons a t =>
        rw [h, consHead] at hl
        rcases List.mem_cons.mp hl with hl | hl
        · subst hl
          intro hmem
          rcases List.mem_cons.mp hmem with h1 | h1
          · exact hc h1.symm
          · exact ih a (h ▸ List.mem_cons_self a t) h1
        · exact ih l (h ▸ List.mem_cons_of_mem a hl)

theorem splitChars_append_slash (x y : List Char) :
    splitChars (x ++ '/' :: y) = splitChars x ++ splitChars y := by
  induction x with
  | nil => simp [splitChars]
  | cons c r ih =>
    simp only [List.cons_append, splitChars, ih]
    by_cases hc : c = '/'
    · simp only [hc, if_true, ite_true, List.append_eq]
      rw [ih]; rfl
    · simp only [hc, if_neg, ite_false, List.append_eq]
      cases h : splitChars r with
      | nil => exact absurd h (splitChars_ne_nil r)
      | cons a t => rw [ih, h]; simp [consHead]

theorem splitChars_no_slash (x : List Char) (h : '/' ∉ x) : splitChars x = [x] := by
  induction x with
  | nil => simp [splitChars]
  | cons c r ih =>
    have hc : c ≠ '/' := fun hh => h (hh ▸ List.mem_cons_self c r)
    have hr : '/' ∉ r := fun hh => h (List.mem_cons_of_mem c hh)
    simp [splitChars, ih hr, hc, consHead]

theorem splitChars_joinChars (L : List (List Char)) (hne : L ≠ [])
    (hfree : ∀ l ∈ L, '/' ∉ l) : splitChars (joinChars L) = L := by
  induction L with
  | nil => exact absurd rfl hne
  | cons x xs ih =>
    cases xs with
    | nil =>
      simp only [joinChars]
      exact splitChars_no_slash x (hfree x (List.mem_cons_self x []))
    | cons y ys =>
      simp only [joinChars, splitChars_append_slash]
      rw [splitChars_no_slash x (hfree x (List.mem_cons_self _ _)),
        ih (by simp) (fun l hl => hfree l (List.mem_cons_of_mem x hl))]
      simp

/-- `⟨s.data⟩ = s`. -/
theorem strEta (s : String) : (⟨s.data⟩ : String) = s := rfl

theorem string_data_injective {s t : String} (h : s.data = t.data) : s = t := by
  cases s; cases t; cases h; rfl

/-- A string segment with no '/' character. -/
def slashFree (x : String) : Prop := '/' ∉ x.data

theorem rawSegs_segsToString (L : List String) (hne : L ≠ [])
    (hfree : ∀ x ∈ L, slashFree x) : rawSegs (segsToString L) = L := by
  unfold rawSegs segsToString
  rw [show (⟨joinChars (L.map String.data)⟩ : String).data = joinChars (L.map String.data)
    from rfl]
  rw [splitChars_joinChars (L.map String.data) (by simpa using hne)
    (by intro l hl
        rcases List.mem_map.mp hl with ⟨x, hx, rfl⟩
        exact hfree x hx)]
  rw [List.map_map]
  have : (fun l => (⟨l⟩ : String)) ∘ String.data = id := by
    funext s; exact strEta s
  rw [this, List.map_id]

/-- A path segment that survives cleaning unchanged. -/
def NormalSeg (x : String) : Prop := x ≠ "" ∧ x ≠ "." ∧ x ≠ ".."

theorem cleanStep_normal (rooted : Bool) (acc : List String) {s : String}
    (h : NormalSeg s) : cleanStep rooted acc s = s :: acc := by
  obtain ⟨h1, h2, h3⟩ := h
  simp [cleanStep, h1, h2, h3]

theorem foldl_cleanStep_normal (rooted : Bool) (l : List String)
    (h : ∀ x ∈ l, NormalSeg x) :
    ∀ acc, l.foldl (cleanStep rooted) acc = l.reverse ++ acc := by
  induction l with
  | nil => intro acc; simp
  | cons x xs ih =>
    intro acc
    rw [List.foldl_cons, cleanStep_normal rooted acc (h x (List.mem_cons_self x xs)),
      ih (fun y hy => h y (List.mem_cons_of_mem x hy))]
    simp

theorem cleanSegs_of_normal (rooted : Bool) (l : List String)
    (h : ∀ x ∈ l, NormalSeg x) : cleanSegs rooted l = l := by
  unfold cleanSegs
  rw [foldl_cleanStep_normal rooted l h []]
  simp

theorem mem_foldl_cleanStep_rooted (l : List String) :
    ∀ acc, (∀ x ∈ acc, NormalSeg x) →
    ∀ x ∈ l.foldl (cleanStep true) acc, NormalSeg x := by
  induction l with
  | nil => intro acc hacc x hx; exact hacc x hx
  | cons s xs ih =>
    intro acc hacc x hx
    rw [List.foldl_cons] at hx
    refine ih (cleanStep true acc s) ?_ x hx
    intro y hy
    unfold cleanStep at hy
    split at hy
    · exact hacc y hy
    · split at hy
      · cases hacc2 : acc with
        | nil => simp [hacc2] at hy
        | cons a rest =>
          rw [hacc2] at hy
          simp only at hy
          have hna := hacc a (hacc2 ▸ List.mem_cons_self a rest)
          rw [if_neg hna.2.2] at hy
          exact hacc y (hacc2 ▸ List.mem_cons_of_mem a hy)
      · rcases List.mem_cons.mp hy with h1 | h1
        · subst h1
          rename_i hne hne2
          push_neg at hne
          exact ⟨hne.1, hne.2, hne2⟩
        · exact hacc y h1

theorem mem_cleanSegs_rooted (l : List String) :
    ∀ x ∈ cleanSegs true l, NormalSeg x := by
  intro x hx
  unfold cleanSegs at hx
  exact mem_foldl_cleanStep_rooted l [] (by simp) x (List.mem_reverse.mp hx)

theorem mem_foldl_cleanStep_subset (rooted : Bool) (l : List String) :
    ∀ acc, ∀ x ∈ l.foldl (cleanStep rooted) acc, x ∈ acc ∨ x ∈ l ∨ x = ".." := by
  induction l with
  | nil => intro acc x hx; exact Or.inl hx
  | cons s xs ih =>
    intro acc x hx
    rw [List.foldl_cons] at hx
    rcases ih (cleanStep rooted acc s) x hx with h1 | h1 | h1
    · unfold cleanStep at h1
      split at h1
      · exact Or.inl h1
      · split at h1
        · cases hacc2 : acc with
          | nil =>
            rw [hacc2] at h1
            cases hr : rooted with
            | true => rw [hr] at h1; simp at h1
            | false =>
              rw [hr] at h1
              simp at h1
              exact Or.inr (Or.inr h1)
          | cons a rest =>
            rw [hacc2] at h1
            simp only at h1
            split at h1
            · rcases List.mem_cons.mp h1 with h2 | h2
              · exact Or.inr (Or.inr h2)
              · exact Or.inl (hacc2 ▸ h2)
            · exact Or.inl (hacc2 ▸ List.mem_cons_of_mem a h1)
        · rcases List.mem_cons.mp h1 with h2 | h2
          · exact Or.inr (Or.inl (h2 ▸ List.mem_cons_self s xs))
          · exact Or.inl h2
    · exact Or.inr (Or.inl (List.mem_cons_of_mem s h1))
    · exact Or.inr (Or.inr h1)

theorem mem_cleanSegs_subset (rooted : Bool) (l : List String) :
    ∀ x ∈ cleanSegs rooted l, x ∈ l ∨ x = ".." := by
  intro x hx
  unfold cleanSegs at hx
  rcases mem_foldl_cleanStep_subset rooted l [] x (List.mem_reverse.mp hx) with h | h | h
  · simp at h
  · exact Or.inl h
  · exact Or.inr h

theorem mem_rawSegs_slashFree (p : String) : ∀ x ∈ rawSegs p, slashFree x := by
  intro x hx
  unfold rawSegs at hx
  rcases List.mem_map.mp hx with ⟨l, hl, rfl⟩
  exact mem_splitChars_no_slash p.data l hl

theorem mem_cleanSegs_rawSegs_slashFree (rooted : Bool) (p : String) :
    ∀ x ∈ cleanSegs rooted (rawSegs p), slashFree x := by
  intro x hx
  rcases mem_cleanSegs_subset rooted (rawSegs p) x hx with h | h
  · exact mem_rawSegs_slashFree p x h
  · subst h; intro hc; simp [String.data] at hc

theorem rawSegs_mk_slash_cons (cs : List Char) :
    rawSegs ⟨'/' :: cs⟩ = "" :: rawSegs ⟨cs⟩ := by
  unfold rawSegs
  show (splitChars ('/' :: cs)).map _ = _
  rw [show splitChars ('/' :: cs) = [] :: splitChars cs by simp [splitChars]]
  rfl

theorem cleanSegs_cons_empty (rooted : Bool) (l : List String) :
    cleanSegs rooted ("" :: l) = cleanSegs rooted l := by
  unfold cleanSegs
  rw [List.foldl_cons]
  congr 1

theorem segsToString_nil : segsToString [] = "" := rfl

theorem normalSeg_filter_pass {x : String} (h : NormalSeg x) :
    (!(x == "" || x == ".")) = true := by
  have h1 : (x == "") = false := by
    cases hb : x == "" with
    | true => exact absurd (by simpa using hb) h.1
    | false => rfl
  have h2 : (x == ".") = false := by
    cases hb : x == "." with
    | true => exact absurd (by simpa using hb) h.2.1
    | false => rfl
  simp [h1, h2]

theorem pathSegs_mk (L : List String) (hN : ∀ x ∈ L, NormalSeg x)
    (hF : ∀ x ∈ L, slashFree x) :
    pathSegs ⟨'/' :: (segsToString L).data⟩ = L := by
  unfold pathSegs
  rw [rawSegs_mk_slash_cons, strEta]
  cases L with
  | nil => decide
  | cons a rest =>
    rw [rawSegs_segsToString (a :: rest) (by simp) hF]
    rw [show List.filter (fun x => !(x == "" || x == ".")) ("" :: a :: rest)
      = List.filter (fun x => !(x == "" || x == ".")) (a :: rest) by simp [List.filter]]
    exact List.filter_eq_self.mpr (fun x hx => normalSeg_filter_pass (hN x hx))

theorem isRooted_mk_slash (cs : List Char) : isRooted ⟨'/' :: cs⟩ = true := rfl

theorem rooted_data {p : String} (h : isRooted p = true) : ∃ cs, p.data = '/' :: cs := by
  unfold isRooted at h
  cases hd : p.data with
  | nil => rw [hd] at h; simp at h
  | cons c cs =>
    rw [hd] at h
    simp at h
    subst h
    exact ⟨cs, hd ▸ rfl⟩

theorem cleanAbs_ne_empty {s : String} (h : CleanAbs s) : s ≠ "" := by
  obtain ⟨cs, hcs⟩ := rooted_data h.1
  intro he
  rw [he] at hcs
  simp [String.data] at hcs

theorem cleanSegs_rawSegs_mk (L : List String) (hN : ∀ x ∈ L, NormalSeg x)
    (hF : ∀ x ∈ L, slashFree x) :
    cleanSegs true (rawSegs ⟨'/' :: (segsToString L).data⟩) = L := by
  rw [rawSegs_mk_slash_cons, strEta, cleanSegs_cons_empty]
  cases L with
  | nil => decide
  | cons a rest =>
    rw [rawSegs_segsToString (a :: rest) (by simp) hF]
    exact cleanSegs_of_normal true (a :: rest) hN

theorem filepathClean_rooted (p : String) (h : isRooted p = true) :
    filepathClean p = ⟨'/' :: (segsToString (cleanSegs true (rawSegs p))).data⟩ := by
  unfold filepathClean
  simp [h]

theorem cleanAbs_filepathClean (p : String) (h : isRooted p = true) :
    CleanAbs (filepathClean p) := by
  have hr := filepathClean_rooted p h
  constructor
  · rw [hr]; exact isRooted_mk_slash _
  · rw [hr]
    have hroot : isRooted (⟨'/' :: (segsToString (cleanSegs true (rawSegs p))).data⟩ : String)
        = true := isRooted_mk_slash _
    rw [filepathClean_rooted _ hroot]
    rw [cleanSegs_rawSegs_mk (cleanSegs true (rawSegs p)) (mem_cleanSegs_rooted _)
      (mem_cleanSegs_rawSegs_slashFree true p)]

theorem cleanAbs_spec {s : String} (h : CleanAbs s) :
    s = ⟨'/' :: (segsToString (pathSegs s)).data⟩ ∧
    pathSegs s = cleanSegs true (rawSegs s) := by
  have hform : s = ⟨'/' :: (segsToString (cleanSegs true (rawSegs s))).data⟩ := by
    conv_lhs => rw [← h.2]
    exact filepathClean_rooted s h.1
  have hsegs : pathSegs s = cleanSegs true (rawSegs s) := by
    conv_lhs => rw [hform]
    exact pathSegs_mk _ (mem_cleanSegs_rooted _) (mem_cleanSegs_rawSegs_slashFree true s)
  exact ⟨by rw [hsegs]; exact hform, hsegs⟩

theorem pathSegs_cleanAbs_normal {s : String} (h : CleanAbs s) :
    ∀ x ∈ pathSegs s, NormalSeg x := by
  rw [(cleanAbs_spec h).2]
  exact mem_cleanSegs_rooted _

theorem pathSegs_cleanAbs_slashFree {s : String} (h : CleanAbs s) :
    ∀ x ∈ pathSegs s, slashFree x := by
  rw [(cleanAbs_spec h).2]
  exact mem_cleanSegs_rawSegs_slashFree true s

theorem rawSegs_append_slash (a b : String) :
    rawSegs ⟨a.data ++ '/' :: b.data⟩ = rawSegs a ++ rawSegs b := by
  unfold rawSegs
  rw [show (⟨a.data ++ '/' :: b.data⟩ : String).data = a.data ++ '/' :: b.data from rfl]
  rw [splitChars_append_slash, List.map_append]

theorem isRooted_append_slash (a b : String) (ha : isRooted a = true) :
    isRooted ⟨a.data ++ '/' :: b.data⟩ = true := by
  obtain ⟨cs, hcs⟩ := rooted_data ha
  rw [show (⟨a.data ++ '/' :: b.data⟩ : String) = ⟨('/' :: cs) ++ '/' :: b.data⟩ by rw [hcs]]
  exact isRooted_mk_slash _

theorem segsToString_pair (a b : String) :
    segsToString [a, b] = ⟨a.data ++ '/' :: b.data⟩ := rfl

/-- For a cleaned absolute first component, `filepath.Join` of two elements
    is the Clean of their '/'-concatenation. -/
theorem filepathJoin_pair (a b : String) (ha : CleanAbs a) (hb : b ≠ "") :
    filepathJoin [a, b] = filepathClean ⟨a.data ++ '/' :: b.data⟩ := by
  unfold filepathJoin
  have ha' : (a == "") = false := by
    cases h : a == "" with
    | true => exact absurd (by simpa using h) (cleanAbs_ne_empty ha)
    | false => rfl
  have hb' : (b == "") = false := by
    cases h : b == "" with
    | true => exact absurd (by simpa using h) hb
    | false => rfl
  simp only [List.filter, ha', hb', Bool.not_false]
  rw [segsToString_pair]
  rfl

theorem cleanAbs_filepathJoin_pair (a b : String) (ha : CleanAbs a) (hb : b ≠ "") :
    CleanAbs (filepathJoin [a, b]) := by
  rw [filepathJoin_pair a b ha hb]
  exact cleanAbs_filepathClean _ (isRooted_append_slash a b ha.1)

/-- Cleaning a concatenation resumes the fold after the first part. -/
theorem cleanSegs_append (rooted : Bool) (u v : List String) :
    cleanSegs rooted (u ++ v) =
      (v.foldl (cleanStep rooted) ((cleanSegs rooted u).reverse)).reverse := by
  unfold cleanSegs
  rw [List.foldl_append, List.reverse_reverse]

/-- Join of a cleaned absolute path with a relative path all of whose raw
    segments are normal: segments simply concatenate. -/
theorem filepathJoin_pair_normal (a b : String) (ha : CleanAbs a)
    (hb : ∀ x ∈ rawSegs b, NormalSeg x) :
    filepathJoin [a, b] = ⟨'/' :: (segsToString (pathSegs a ++ rawSegs b)).data⟩ ∧
    pathSegs (filepathJoin [a, b]) = pathSegs a ++ rawSegs b ∧
    CleanAbs (filepathJoin [a, b]) := by
  have hbne : b ≠ "" := by
    intro he
    have : ("" : String) ∈ rawSegs b := by rw [he]; decide
    exact (hb "" this).1 rfl
  have hj := filepathJoin_pair a b ha hbne
  have hroot := isRooted_append_slash a b ha.1
  have hclean : cleanSegs true (rawSegs ⟨a.data ++ '/' :: b.data⟩)
      = pathSegs a ++ rawSegs b := by
    rw [rawSegs_append_slash, cleanSegs_append, ← (cleanAbs_spec ha).2]
    rw [foldl_cleanStep_normal true (rawSegs b) hb]
    simp
  have hform : filepathJoin [a, b]
      = ⟨'/' :: (segsToString (pathSegs a ++ rawSegs b)).data⟩ := by
    rw [hj, filepathClean_rooted _ hroot, hclean]
  refine ⟨hform, ?_, ?_⟩
  · rw [hform]
    exact pathSegs_mk _
      (by
        intro x hx
        rcases List.mem_append.mp hx with h | h
        · exact pathSegs_cleanAbs_normal ha x h
        · exact hb x h)
      (by
        intro x hx
        rcases List.mem_append.mp hx with h | h
        · exact pathSegs_cleanAbs_slashFree ha x h
        · exact mem_rawSegs_slashFree b x h)
  · rw [hj]
    exact cleanAbs_filepathClean _ hroot

theorem commonPrefixLen_le_left (as bs : List String) :
    commonPrefixLen as bs ≤ as.length := by
  induction as generalizing bs with
  | nil => simp [commonPrefixLen]
  | cons a as ih =>
    cases bs with
    | nil => simp [commonPrefixLen]
    | cons b bs =>
      unfold commonPrefixLen
      split
      · simpa using ih bs
      · simp

theorem commonPrefixLen_take_eq (as bs : List String) :
    as.take (commonPrefixLen as bs) = bs.take (commonPrefixLen as bs) := by
  induction as generalizing bs with
  | nil => simp [commonPrefixLen]
  | cons a as ih =>
    cases bs with
    | nil => simp [commonPrefixLen]
    | cons b bs =>
      unfold commonPrefixLen
      split
      · rename_i h
        simp [h, ih bs]
      · simp

theorem foldl_cleanStep_pop (k : Nat) :
    ∀ u : List String, (∀ x ∈ u, x ≠ "..") → k ≤ u.length →
    (List.replicate k "..").foldl (cleanStep true) u = u.drop k := by
  induction k with
  | zero => intro u _ _; simp
  | succ k ih =>
    intro u hu hk
    cases u with
    | nil => simp at hk
    | cons a rest =>
      rw [List.replicate_succ, List.foldl_cons]
      have hstep : cleanStep true (a :: rest) ".." = rest := by
        unfold cleanStep
        rw [if_neg (by simp), if_pos rfl]
        simp only
        rw [if_neg (hu a (List.mem_cons_self a rest))]
      rw [hstep, ih rest (fun x hx => hu x (List.mem_cons_of_mem a hx)) (by simpa using hk)]
      rfl

theorem segsToString_ne_empty {segs : List String} (hne : segs ≠ [])
    (hfree : ∀ x ∈ segs, slashFree x) (hnn : ∀ x ∈ segs, x ≠ "") :
    segsToString segs ≠ "" := by
  intro he
  have h1 : rawSegs (segsToString segs) = segs := rawSegs_segsToString segs hne hfree
  rw [he] at h1
  have : rawSegs "" = [""] := rfl
  rw [this] at h1
  cases segs with
  | nil => exact hne rfl
  | cons a rest =>
    cases h1
    exact hnn "" (List.mem_cons_self _ _) rfl

/-- `Join(b, ".") = b` for a cleaned absolute `b`. -/
theorem filepathJoin_dot (b : String) (hb : CleanAbs b) : filepathJoin [b, "."] = b := by
  rw [filepathJoin_pair b "." hb (by simp)]
  have hroot := isRooted_append_slash b "." hb.1
  rw [filepathClean_rooted _ hroot]
  rw [rawSegs_append_slash b "."]
  rw [show rawSegs "." = ["."] from rfl]
  rw [cleanSegs_append, ← (cleanAbs_spec hb).2]
  rw [show (["."].foldl (cleanStep true) (pathSegs b).reverse) = (pathSegs b).reverse by
    simp [cleanStep]]
  rw [List.reverse_reverse]
  exact ((cleanAbs_spec hb).1).symm

/-- `filepath.Rel` inverts `filepath.Join`: joining the base with the
    computed relative path yields the target. -/
theorem filepathRel_join {b t : String} (hb : CleanAbs b) (ht : CleanAbs t) {r : String}
    (h : filepathRel b t = some r) : filepathJoin [b, r] = t := by
  unfold filepathRel at h
  rw [hb.2, ht.2] at h
  by_cases hbt : b = t
  · rw [if_pos hbt] at h
    cases h
    rw [filepathJoin_dot b hb, hbt]
  · rw [if_neg hbt] at h
    rw [if_neg (by rw [hb.1, ht.1]; simp)] at h
    set bs := pathSegs b with hbs
    set ts := pathSegs t with hts
    set n := commonPrefixLen bs ts with hn
    have hbsN : ∀ x ∈ bs, NormalSeg x := pathSegs_cleanAbs_normal hb
    have htsN : ∀ x ∈ ts, NormalSeg x := pathSegs_cleanAbs_normal ht
    have hnodots : ¬((bs.drop n).contains "..") = true := by
      intro hc
      have := List.elem_iff.mp hc
      exact (hbsN ".." (List.mem_of_mem_drop this)).2.2 rfl
    rw [if_neg hnodots] at h
    by_cases hse : ((bs.drop n).map (fun _ => "..") ++ ts.drop n).isEmpty
    · rw [if_pos hse] at h
      cases h
      exfalso
      have hemp := List.isEmpty_iff.mp hse
      have h1 : bs.drop n = [] := List.map_eq_nil_iff.mp (List.append_eq_nil.mp hemp).1
      have h2 : ts.drop n = [] := (List.append_eq_nil.mp hemp).2
      have hbl : bs.length ≤ n := by
        by_contra hlt
        push_neg at hlt
        have := List.length_drop n bs
        rw [h1] at this
        simp at this
        omega
      have htl : ts.length ≤ n := by
        by_contra hlt
        push_neg at hlt
        have := List.length_drop n ts
        rw [h2] at this
        simp at this
        omega
      have : bs = ts := by
        calc bs = bs.take n := (List.take_of_length_le hbl).symm
        _ = ts.take n := commonPrefixLen_take_eq bs ts
        _ = ts := List.take_of_length_le htl
      apply hbt
      rw [(cleanAbs_spec hb).1, (cleanAbs_spec ht).1, ← hbs, ← hts, this]
    · rw [if_neg hse] at h
      cases h
      set segs := (bs.drop n).map (fun _ => "..") ++ ts.drop n with hsegs
      have hsegsne : segs ≠ [] := fun he => by rw [he] at hse; simp at hse
      have hsegsF : ∀ x ∈ segs, slashFree x := by
        intro x hx
        rcases List.mem_append.mp hx with hx | hx
        · rcases List.mem_map.mp hx with ⟨_, _, rfl⟩
          intro hc; simp [String.data] at hc
        · exact pathSegs_cleanAbs_slashFree ht x (List.mem_of_mem_drop hx)
      have hsegsNN : ∀ x ∈ segs, x ≠ "" := by
        intro x hx
        rcases List.mem_append.mp hx with hx | hx
        · rcases List.mem_map.mp hx with ⟨_, _, rfl⟩
          simp
        · exact (htsN x (List.mem_of_mem_drop hx)).1
      have hrne : segsToString segs ≠ "" := segsToString_ne_empty hsegsne hsegsF hsegsNN
      rw [filepathJoin_pair b _ hb hrne]
      have hroot := isRooted_append_slash b (segsToString segs) hb.1
      rw [filepathClean_rooted _ hroot, rawSegs_append_slash,
        rawSegs_segsToString segs hsegsne hsegsF, cleanSegs_append, ← (cleanAbs_spec hb).2]
      have hk : (bs.drop n).map (fun _ => "..") = List.replicate (bs.length - n) ".." := by
        rw [List.map_const', List.length_drop]
      rw [hsegs, hk, List.foldl_append]
      have hpop : (List.replicate (bs.length - n) "..").foldl (cleanStep true) bs.reverse
          = (bs.take n).reverse := by
        rw [foldl_cleanStep_pop (bs.length - n) bs.reverse
          (fun x hx => (hbsN x (List.mem_reverse.mp hx)).2.2)
          (by rw [List.length_reverse]; omega)]
        rw [List.drop_reverse]
        have hle := commonPrefixLen_le_left bs ts
        have heq : bs.length - (bs.length - n) = n := by omega
        rw [heq]
      rw [hpop]
      rw [foldl_cleanStep_normal true (ts.drop n)
        (fun x hx => htsN x (List.mem_of_mem_drop hx))]
      rw [List.reverse_append, List.reverse_reverse, List.reverse_reverse]
      rw [commonPrefixLen_take_eq bs ts, ← hn, List.take_append_drop]
      exact ((cleanAbs_spec ht).1).symm

theorem isDirectoryPath_empty : isDirectoryPath "" = false := by decide

theorem filepathAbs_of_cleanAbs {x : String} (wk : String) (h : CleanAbs x) :
    filepathAbs wk x = x := by
  unfold filepathAbs
  rw [if_pos h.1]
  exact h.2

theorem cleanAbs_filepathAbs (wd p : String) (hwd : CleanAbs wd) (hp : p ≠ "") :
    CleanAbs (filepathAbs wd p) := by
  unfold filepathAbs
  split
  · exact cleanAbs_filepathClean p (by assumption)
  · exact cleanAbs_filepathJoin_pair wd p hwd hp

/-! ### `AddReplace` lemmas -/

theorem matchRep_path {op ov : String} {r : ModReplace}
    (h : matchRep op ov r = true) : r.oldPath = op := by
  unfold matchRep at h
  have := ((Bool.and_eq_true _ _).mp h).1
  simpa using this

theorem matchRep_false_of_path_ne {op ov : String} {r : ModReplace}
    (h : r.oldPath ≠ op) : matchRep op ov r = false := by
  cases hm : matchRep op ov r with
  | false => rfl
  | true => exact absurd (matchRep_path hm) h

theorem matchRep_self (r : ModReplace) : matchRep r.oldPath r.oldVers r = true := by
  unfold matchRep
  simp

theorem matchRep_empty (m : String) (r : ModReplace) :
    matchRep m "" r = (r.oldPath == m) := by
  unfold matchRep
  simp

theorem addReplace_cons_nomatch {r : ModReplace} {op ov : String}
    (h : matchRep op ov r = false) (rest : List ModReplace) (np nv : String) :
    addReplace (r :: rest) op ov np nv = r :: addReplace rest op ov np nv := by
  conv_lhs => rw [addReplace]
  rw [if_neg (by rw [h]; simp)]

theorem filter_keep_of_nomatch {rest : List ModReplace} {op ov : String}
    (h : ∀ s ∈ rest, matchRep op ov s = false) :
    rest.filter (fun s => !(matchRep op ov s)) = rest := by
  refine List.filter_eq_self.mpr ?_
  intro s hs
  simp [h s hs]

theorem addReplace_cons_match {r : ModReplace} {op ov : String}
    (h : matchRep op ov r = true) {rest : List ModReplace}
    (hrest : ∀ s ∈ rest, matchRep op ov s = false) (np nv : String) :
    addReplace (r :: rest) op ov np nv = ⟨op, ov, np, nv⟩ :: rest := by
  conv_lhs => rw [addReplace]
  rw [if_pos h, filter_keep_of_nomatch hrest]

theorem arScan_nomatch (op ov np nv : String) :
    ∀ (slots : List (Option ModReplace)) (need : Bool),
    (∀ r, some r ∈ slots → matchRep op ov r = false) →
    arScan op ov np nv slots need = (slots, need) := by
  intro slots
  induction slots with
  | nil => intro need _; rfl
  | cons s rest ih =>
    intro need hno
    cases s with
    | none =>
      conv_lhs => rw [arScan]
      rw [ih need (fun r hr => hno r (List.mem_cons_of_mem none hr))]
    | some r =>
      conv_lhs => rw [arScan]
      rw [if_neg (by rw [hno r (List.mem_cons_self _ _)]; simp)]
      rw [ih need (fun r' hr' => hno r' (List.mem_cons_of_mem _ hr'))]

theorem arScan_append (op ov np nv : String) (P : List (Option ModReplace)) :
    ∀ (S : List (Option ModReplace)) (need : Bool),
    (∀ r, some r ∈ P → matchRep op ov r = false) →
    arScan op ov np nv (P ++ S) need
      = (P ++ (arScan op ov np nv S need).1, (arScan op ov np nv S need).2) := by
  induction P with
  | nil =>
    intro S need _
    simp only [List.nil_append]
  | cons s P' ih =>
    intro S need hP
    cases s with
    | none =>
      rw [List.cons_append]
      conv_lhs => rw [arScan]
      rw [ih S need (fun r hr => hP r (List.mem_cons_of_mem _ hr))]
      rfl
    | some r =>
      rw [List.cons_append]
      conv_lhs => rw [arScan]
      rw [if_neg (by rw [hP r (List.mem_cons_self _ _)]; simp)]
      rw [ih S need (fun r' hr' => hP r' (List.mem_cons_of_mem _ hr'))]
      rfl

theorem addReplaceSlots_self (P S : List (Option ModReplace)) (r : ModReplace)
    (np nv : String)
    (hP : ∀ s, some s ∈ P → matchRep r.oldPath r.oldVers s = false)
    (hS : ∀ s, some s ∈ S → matchRep r.oldPath r.oldVers s = false) :
    addReplaceSlots (P ++ some r :: S) r.oldPath r.oldVers np nv
      = P ++ some ⟨r.oldPath, r.oldVers, np, nv⟩ :: S := by
  have h1 : arScan r.oldPath r.oldVers np nv (some r :: S) true
      = (some ⟨r.oldPath, r.oldVers, np, nv⟩ :: S, false) := by
    conv_lhs => rw [arScan]
    rw [if_pos (matchRep_self r), if_pos rfl,
      arScan_nomatch r.oldPath r.oldVers np nv S false hS]
  unfold addReplaceSlots
  rw [arScan_append r.oldPath r.oldVers np nv P (some r :: S) true hP, h1]
  dsimp only
  rw [if_neg (by simp)]

theorem fixOne_old (dir : String) (r : ModReplace) :
    (fixOne dir r).oldPath = r.oldPath ∧ (fixOne dir r).oldVers = r.oldVers := by
  unfold fixOne
  split
  · exact ⟨rfl, rfl⟩
  · exact ⟨rfl, rfl⟩

theorem nodup_split {α : Type} {X Y : List α} {y : α} (h : (X ++ y :: Y).Nodup) :
    y ∉ X ∧ y ∉ Y := by
  rw [List.nodup_append] at h
  obtain ⟨hX, hyY, hdisj⟩ := h
  rw [List.nodup_cons] at hyY
  exact ⟨fun hmem => hdisj hmem (List.mem_cons_self y Y), hyY.1⟩

theorem fixLoopGo_map (dir : String) (l : List ModReplace)
    (hnd : (l.map (fun r => r.oldPath)).Nodup) :
    ∀ (fuel k : Nat), fuel + k = l.length →
    fixLoopGo dir fuel k
        ((l.take k).map (fun r => some (fixOne dir r)) ++ (l.drop k).map some)
      = l.map (fun r => some (fixOne dir r)) := by
  intro fuel
  induction fuel with
  | zero =>
    intro k hk
    have hk' : k = l.length := by omega
    subst hk'
    rw [List.take_length, List.drop_length, List.map_nil, List.append_nil]
    rfl
  | succ fuel ih =>
    intro k hk
    have hklt : k < l.length := by omega
    have hsplit : l.drop k = l[k] :: l.drop (k + 1) := List.drop_eq_getElem_cons hklt
    have hAlen : ((l.take k).map (fun r => some (fixOne dir r))).length = k := by
      rw [List.length_map, List.length_take]
      omega
    have hpaths : l.map (fun r => r.oldPath)
        = (l.take k).map (fun r => r.oldPath)
          ++ l[k].oldPath :: (l.drop (k + 1)).map (fun r => r.oldPath) := by
      conv_lhs => rw [← List.take_append_drop k l]
      rw [List.map_append, hsplit, List.map_cons]
    have hsp := nodup_split (hpaths ▸ hnd)
    have hP : ∀ s, some s ∈ (l.take k).map (fun r => some (fixOne dir r)) →
        matchRep l[k].oldPath l[k].oldVers s = false := by
      intro s hs
      rw [List.mem_map] at hs
      obtain ⟨r', hr', heq⟩ := hs
      injection heq with heq2
      refine matchRep_false_of_path_ne (fun hcon => hsp.1 ?_)
      rw [← hcon, ← heq2, (fixOne_old dir r').1]
      exact List.mem_map.mpr ⟨r', hr', rfl⟩
    have hS : ∀ s, some s ∈ (l.drop (k + 1)).map some →
        matchRep l[k].oldPath l[k].oldVers s = false := by
      intro s hs
      rw [List.mem_map] at hs
      obtain ⟨r', hr', heq⟩ := hs
      injection heq with heq2
      refine matchRep_false_of_path_ne (fun hcon => hsp.2 ?_)
      rw [← hcon, ← heq2]
      exact List.mem_map.mpr ⟨r', hr', rfl⟩
    have hget : ((l.take k).map (fun r => some (fixOne dir r))
        ++ (l.drop k).map some).get? k = some (some l[k]) := by
      rw [List.get?_eq_getElem?, List.getElem?_append_right (le_of_eq hAlen), hAlen]
      rw [hsplit, List.map_cons]
      simp
    have htake : l.take (k + 1) = l.take k ++ [l[k]] := by
      rw [List.take_succ, List.getElem?_eq_getElem hklt]
      rfl
    have hnext : ∀ slotsN,
        slotsN = (l.take (k + 1)).map (fun r => some (fixOne dir r))
          ++ (l.drop (k + 1)).map some →
        fixLoopGo dir fuel (k + 1) slotsN = l.map (fun r => some (fixOne dir r)) := by
      intro slotsN hsn
      rw [hsn]
      exact ih (k + 1) (by omega)
    unfold fixLoopGo
    rw [hget]
    dsimp only
    by_cases hc : isDirectoryPath l[k].newPath ∧ ¬ (isRooted l[k].newPath = true)
    · rw [if_pos hc]
      rw [show ((l.take k).map (fun r => some (fixOne dir r)) ++ (l.drop k).map some)
          = ((l.take k).map (fun r => some (fixOne dir r))
              ++ some l[k] :: (l.drop (k + 1)).map some) from by
        rw [hsplit, List.map_cons]]
      rw [addReplaceSlots_self _ _ l[k] _ _ hP hS]
      refine hnext _ ?_
      rw [htake, List.map_append, List.map_cons, List.map_nil,
        List.append_assoc, List.cons_append, List.nil_append]
      congr 2
      rw [show fixOne dir l[k]
          = ⟨l[k].oldPath, l[k].oldVers, filepathJoin [dir, l[k].newPath],
             l[k].newVers⟩ from by unfold fixOne; rw [if_pos hc]]
    · rw [if_neg hc]
      refine hnext _ ?_
      rw [htake, List.map_append, List.map_cons, List.map_nil,
        List.append_assoc, List.cons_append, List.nil_append]
      rw [hsplit, List.map_cons]
      congr 2
      rw [show fixOne dir l[k] = l[k] from by unfold fixOne; rw [if_neg hc]]

theorem filterMap_id_map_some {α β : Type} (f : α → β) (l : List α) :
    (l.map (fun x => some (f x))).filterMap id = l.map f := by
  induction l with
  | nil => rfl
  | cons x xs ih => simp [List.filterMap_cons, ih]

/-- With pairwise-distinct old module paths, no `AddReplace` of the fix
    loop ever reaches another line — each rewrites exactly its own — so the
    loop is an in-place per-edge map.  (With a repeated old path this
    fails: an unversioned `AddReplace` drops every other replacement of
    that path, see the C4 counterexample.) -/
theorem fixReplaces_eq_map (dir : String) (rs : List ModReplace)
    (hnd : (rs.map (fun r => r.oldPath)).Nodup) :
    fixReplaces dir rs = rs.map (fixOne dir) := by
  unfold fixReplaces
  rw [show (rs.map some : List (Option ModReplace))
      = (rs.take 0).map (fun r => some (fixOne dir r)) ++ (rs.drop 0).map some from by
    simp]
  rw [fixLoopGo_map dir rs hnd rs.length 0 (by omega)]
  exact filterMap_id_map_some (fixOne dir) rs

/-- In the copied-manifest branch, the manifest `phaseManifest` produces is
    the renamed original with fixed replaces, whatever the write outcomes. -/
theorem phaseManifest_mod (env : Env) (work : String) (fs : FS) (om : Modfile)
    (hcg : env.currentGoMod ≠ "") (hom : env.origMod = some om) :
    (phaseManifest env work fs).2.1 =
      { moduleName := "uwagaki_" ++ env.nowStamp, requires := om.requires,
        replaces := fixReplaces (filepathDir env.currentGoMod) om.replaces } := by
  unfold phaseManifest
  rw [if_pos hcg, hom]
  split
  · rename_i heq
    exact Option.noConfusion heq
  · rename_i om2 heq
    injection heq with h2
    subst h2
    dsimp only
    repeat
      first
      | rfl
      | split
      | dsimp only

/-- C4 (amended): when the base manifest is copied from the caller's go.mod
    and its replace directives carry pairwise-distinct old module paths,
    every pre-existing replace edge with a relative directory-path target is
    re-targeted in place by joining it onto the original manifest's
    directory (so it resolves from the workspace exactly as the old target
    resolved from the manifest's directory), and edges with absolute or
    non-directory targets are unchanged.  Without distinct old paths this
    fails: an unversioned edge's `AddReplace` matches every replacement of
    that path, retargets the first and drops the rest (counterexample). -/
theorem C4_copied_manifest_fix (env : Env) (work : String) (fs : FS) (om : Modfile)
    (hcg : env.currentGoMod ≠ "") (hom : env.origMod = some om)
    (hdir : CleanAbs (filepathDir env.currentGoMod))
    (hnd : (om.replaces.map (fun r => r.oldPath)).Nodup) :
    ((phaseManifest env work fs).2.1).replaces
      = om.replaces.map (fixOne (filepathDir env.currentGoMod)) ∧
    (∀ r ∈ om.replaces,
      (isDirectoryPath r.newPath = true → isRooted r.newPath = false →
        fixOne (filepathDir env.currentGoMod) r
          = { r with newPath := filepathJoin [filepathDir env.currentGoMod, r.newPath] } ∧
        (∀ wk : String,
          filepathAbs wk ((fixOne (filepathDir env.currentGoMod) r).newPath)
            = filepathAbs (filepathDir env.currentGoMod) r.newPath)) ∧
      ((isDirectoryPath r.newPath = false ∨ isRooted r.newPath = true) →
        fixOne (filepathDir env.currentGoMod) r = r)) := by
  constructor
  · rw [phaseManifest_mod env work fs om hcg hom]
    exact fixReplaces_eq_map _ _ hnd
  · intro r hr
    constructor
    · intro hd hnr
      have hcond : isDirectoryPath r.newPath ∧ ¬ (isRooted r.newPath = true) :=
        ⟨hd, by rw [hnr]; simp⟩
      constructor
      · unfold fixOne
        rw [if_pos hcond]
      · intro wk
        unfold fixOne
        rw [if_pos hcond]
        simp only
        have hne : r.newPath ≠ "" := by
          intro he
          rw [he, isDirectoryPath_empty] at hd
          cases hd
        have hca := cleanAbs_filepathJoin_pair _ r.newPath hdir hne
        rw [filepathAbs_of_cleanAbs wk hca]
        unfold filepathAbs
        rw [if_neg (by rw [hnr]; simp)]
    · intro hcase
      unfold fixOne
      rw [if_neg ?_]
      rcases hcase with hcase | hcase
      · intro hcon
        rw [hcase] at hcon
        cases hcon.1
      · intro hcon
        exact hcon.2 hcase

/-- Witness for C4 at a concrete copied manifest. -/
theorem C4_copied_manifest_fix_witness :
    (envC4.currentGoMod ≠ "" ∧ envC4.origMod = some omC4 ∧
     CleanAbs (filepathDir envC4.currentGoMod) ∧
     (omC4.replaces.map (fun r => r.oldPath)).Nodup) ∧
    (((phaseManifest envC4 "/w" fsA).2.1).replaces
        = omC4.replaces.map (fixOne (filepathDir envC4.currentGoMod)) ∧
     (∀ r ∈ omC4.replaces,
       (isDirectoryPath r.newPath = true → isRooted r.newPath = false →
         fixOne (filepathDir envC4.currentGoMod) r
           = { r with newPath := filepathJoin [filepathDir envC4.currentGoMod, r.newPath] } ∧
         (∀ wk : String,
           filepathAbs wk ((fixOne (filepathDir envC4.currentGoMod) r).newPath)
             = filepathAbs (filepathDir envC4.currentGoMod) r.newPath)) ∧
       ((isDirectoryPath r.newPath = false ∨ isRooted r.newPath = true) →
         fixOne (filepathDir envC4.currentGoMod) r = r))) :=
  ⟨⟨by decide, rfl, by decide, by decide⟩,
   C4_copied_manifest_fix envC4 "/w" fsA omC4 (by decide) rfl (by decide) (by decide)⟩

/-- C4 counterexample: on a caller manifest holding a versioned
    absolute-target replace and an unversioned relative-target replace for
    the same module path (distinct (path, version) keys), fixing the
    unversioned edge matches every replacement of the path: the
    absolute-target edge is not left unchanged — it is retargeted at the
    joined path and the unversioned line is dropped, leaving one merged
    edge. -/
theorem C4_counterexample :
    isDirectoryPath "/abs/dep" = true ∧
    isRooted "/abs/dep" = true ∧
    (omC4x.replaces.map replaceKey).Nodup ∧
    ⟨"example.com/dep", "v1.0.0", "/abs/dep", ""⟩ ∈ omC4x.replaces ∧
    ((phaseManifest envC4x "/w" fsA).2.1).replaces
      = [⟨"example.com/dep", "", "/proj/b", ""⟩] ∧
    ¬(⟨"example.com/dep", "v1.0.0", "/abs/dep", ""⟩
        ∈ ((phaseManifest envC4x "/w" fsA).2.1).replaces) := by
  decide

/-! ### Decomposition of a successful run -/

theorem createEnvironment_ok_decomp (env : Env) (fs0 : FS) (paths : List String)
    (replaces : List ReplaceItem)
    (hok : (createEnvironment env fs0 paths replaces).err = none) :
    env.mkdirTempOk = true ∧
    ∃ fsW fs1 m1 origModPath fs2 m2 st nps,
      fs0.mkdirAll (strToPath env.workRoot) = (fsW, none) ∧
      phaseManifest env env.workRoot fsW = (fs1, m1, origModPath, none) ∧
      phaseGoGetPaths env paths = none ∧
      phaseOrig env env.workRoot origModPath fs1 m1 = (fs2, m2, none) ∧
      runItems env env.workRoot (filepathJoin [env.workRoot, "mod"]) ⟨fs2, m2, [], []⟩ replaces
        = (st, none) ∧
      phaseResolve env (if paths.isEmpty then ["."] else paths) = (nps, none) ∧
      createEnvironment env fs0 paths replaces
        = ⟨st.fs, st.mod, st.log, env.workRoot, nps, none⟩ := by
  have hmk : env.mkdirTempOk = true := by
    cases h : env.mkdirTempOk with
    | true => rfl
    | false =>
      unfold createEnvironment at hok
      rw [h] at hok
      simp at hok
  unfold createEnvironment at hok
  rw [hmk] at hok
  rw [if_neg (by simp)] at hok
  obtain ⟨fsW, e1, h1⟩ : ∃ a b, fs0.mkdirAll (strToPath env.workRoot) = (a, b) := ⟨_, _, rfl⟩
  rw [h1] at hok
  cases e1 with
  | some e => dsimp only at hok; exact Option.noConfusion hok
  | none =>
  dsimp only at hok
  obtain ⟨fs1, m1, origModPath, e2, h2⟩ :
      ∃ a b c d, phaseManifest env env.workRoot fsW = (a, b, c, d) := ⟨_, _, _, _, rfl⟩
  rw [h2] at hok
  cases e2 with
  | some e => dsimp only at hok; exact Option.noConfusion hok
  | none =>
  dsimp only at hok
  cases h3 : phaseGoGetPaths env paths with
  | some e => rw [h3] at hok; dsimp only at hok; exact Option.noConfusion hok
  | none =>
  rw [h3] at hok
  dsimp only at hok
  obtain ⟨fs2, m2, e4, h4⟩ :
      ∃ a b c, phaseOrig env env.workRoot origModPath fs1 m1 = (a, b, c) := ⟨_, _, _, rfl⟩
  rw [h4] at hok
  cases e4 with
  | some e => dsimp only at hok; exact Option.noConfusion hok
  | none =>
  dsimp only at hok
  obtain ⟨st, e5, h5⟩ :
      ∃ a b, runItems env env.workRoot (filepathJoin [env.workRoot, "mod"])
        ⟨fs2, m2, [], []⟩ replaces = (a, b) := ⟨_, _, rfl⟩
  rw [h5] at hok
  cases e5 with
  | some e => dsimp only at hok; exact Option.noConfusion hok
  | none =>
  dsimp only at hok
  obtain ⟨nps, e6, h6⟩ :
      ∃ a b, phaseResolve env (if paths.isEmpty then ["."] else paths) = (a, b) := ⟨_, _, rfl⟩
  rw [h6] at hok
  cases e6 with
  | some e => dsimp only at hok; exact Option.noConfusion hok
  | none =>
  have hfinal : createEnvironment env fs0 paths replaces
      = ⟨st.fs, st.mod, st.log, env.workRoot, nps, none⟩ := by
    unfold createEnvironment
    rw [hmk, if_neg (by simp), h1]
    dsimp only
    rw [h2]
    dsimp only
    rw [h3]
    dsimp only
    rw [h4]
    dsimp only
    rw [h5]
    dsimp only
    rw [h6]
  exact ⟨hmk, fsW, fs1, m1, origModPath, fs2, m2, st, nps,
    h1, h2, by first | exact h3 | rfl, h4, h5, h6, hfinal⟩

theorem resolveList_get (env : Env) (cmp : String) :
    ∀ (l vs : List String), resolveList env cmp l = (vs, none) →
    ∀ (i : Nat) (pkg : String), l.get? i = some pkg →
    ∃ v, resolveOne env cmp pkg = some v ∧ vs.get? i = some v := by
  intro l
  induction l with
  | nil => intro vs _ i pkg hp; simp at hp
  | cons p rest ih =>
    intro vs h i pkg hp
    unfold resolveList at h
    cases hr : resolveOne env cmp p with
    | none =>
      rw [hr] at h
      rw [Prod.mk.injEq] at h
      exact Option.noConfusion h.2
    | some v =>
      rw [hr] at h
      rcases hrest : resolveList env cmp rest with ⟨vs', e'⟩
      rw [hrest] at h
      rw [Prod.mk.injEq] at h
      obtain ⟨hvs, he⟩ := h
      subst hvs
      subst he
      cases i with
      | zero =>
        rw [show (p :: rest).get? 0 = some p from rfl] at hp
        injection hp with hp
        subst hp
        exact ⟨v, hr, rfl⟩
      | succ n =>
        exact ih vs' hrest n pkg hp

theorem phaseResolve_with (env : Env) (paths2 nps : List String)
    (h : phaseResolve env paths2 = (nps, none)) (hcg : env.currentGoMod ≠ "") :
    ∃ cmp, env.currentModPath = some cmp ∧ resolveList env cmp paths2 = (nps, none) := by
  unfold phaseResolve at h
  rw [if_pos hcg] at h
  cases hc : env.currentModPath with
  | none =>
    rw [hc] at h
    rw [Prod.mk.injEq] at h
    exact Option.noConfusion h.2
  | some cmp =>
    rw [hc] at h
    exact ⟨cmp, rfl, h⟩

theorem phaseResolve_without (env : Env) (paths2 nps : List String)
    (h : phaseResolve env paths2 = (nps, none)) (hcg : env.currentGoMod = "") :
    resolveList env "" paths2 = (nps, none) := by
  unfold phaseResolve at h
  rw [if_neg (by simp [hcg])] at h
  exact h

/-- C5: with a governing manifest, a directory-path entry resolves to the
    owning module's path joined with the entry's location relative to the
    manifest's directory; joining the manifest directory back onto that
    relative location recovers the entry's absolute path. -/
theorem C5_resolve_with_manifest (env : Env) (fs0 : FS) (paths : List String)
    (replaces : List ReplaceItem) (i : Nat) (pkg : String)
    (hok : (createEnvironment env fs0 paths replaces).err = none)
    (hcg : env.currentGoMod ≠ "")
    (hwd : CleanAbs env.wd)
    (hdir : CleanAbs (filepathDir env.currentGoMod))
    (hpkg : (if paths.isEmpty then ["."] else paths).get? i = some pkg)
    (hdirp : isDirectoryPath pkg = true) :
    ∃ cmp rel,
      env.currentModPath = some cmp ∧
      filepathRel (filepathDir env.currentGoMod) (filepathAbs env.wd pkg) = some rel ∧
      (createEnvironment env fs0 paths replaces).newPaths.get? i
        = some (pathJoin [cmp, rel]) ∧
      filepathJoin [filepathDir env.currentGoMod, rel] = filepathAbs env.wd pkg := by
  obtain ⟨hmk, fsW, fs1, m1, omp, fs2, m2, st, nps, h1, h2, h3, h4, h5, h6, hfin⟩ :=
    createEnvironment_ok_decomp env fs0 paths replaces hok
  obtain ⟨cmp, hcmp, hres⟩ := phaseResolve_with env _ nps h6 hcg
  obtain ⟨v, hv, hget⟩ := resolveList_get env cmp _ nps hres i pkg hpkg
  unfold resolveOne at hv
  rw [if_neg (by simp [hdirp])] at hv
  rw [if_neg hcg] at hv
  cases hrel : filepathRel (filepathDir env.currentGoMod) (filepathAbs env.wd pkg) with
  | none =>
    rw [hrel] at hv
    exact Option.noConfusion hv
  | some rel =>
    rw [hrel] at hv
    injection hv with hv
    refine ⟨cmp, rel, hcmp, rfl, ?_, ?_⟩
    · rw [hfin]
      dsimp only
      rw [hget, ← hv]
    · have hpne : pkg ≠ "" := by
        intro he
        rw [he, isDirectoryPath_empty] at hdirp
        cases hdirp
      exact filepathRel_join hdir (cleanAbs_filepathAbs env.wd pkg hwd hpne) hrel

/-- Witness for C5: `./sub` under the `/proj` manifest of `example.com/proj`
    resolves to `example.com/proj/sub`. -/
theorem C5_resolve_with_manifest_witness :
    ((createEnvironment envB fsA ["./sub"] []).err = none ∧
     envB.currentGoMod ≠ "" ∧ CleanAbs envB.wd ∧
     CleanAbs (filepathDir envB.currentGoMod) ∧
     (if ([ "./sub" ] : List String).isEmpty then ["."] else ["./sub"]).get? 0
       = some "./sub" ∧
     isDirectoryPath "./sub" = true) ∧
    (∃ cmp rel,
      envB.currentModPath = some cmp ∧
      filepathRel (filepathDir envB.currentGoMod) (filepathAbs envB.wd "./sub") = some rel ∧
      (createEnvironment envB fsA ["./sub"] []).newPaths.get? 0
        = some (pathJoin [cmp, rel]) ∧
      filepathJoin [filepathDir envB.currentGoMod, rel] = filepathAbs envB.wd "./sub") :=
  ⟨⟨by decide, by decide, by decide, by decide, by decide, by decide⟩,
   C5_resolve_with_manifest envB fsA ["./sub"] [] 0 "./sub"
     (by decide) (by decide) (by decide) (by decide) (by decide) (by decide)⟩

/-- C6: with no governing manifest, a directory-path entry resolves to its
    absolute filesystem path from the caller's working directory, and an
    identifier entry is returned unchanged at its position. -/
theorem C6_resolve_without_manifest (env : Env) (fs0 : FS) (paths : List String)
    (replaces : List ReplaceItem) (i : Nat) (pkg : String)
    (hok : (createEnvironment env fs0 paths replaces).err = none)
    (hcg : env.currentGoMod = "")
    (hpkg : (if paths.isEmpty then ["."] else paths).get? i = some pkg) :
    (isDirectoryPath pkg = true →
      (createEnvironment env fs0 paths replaces).newPaths.get? i
        = some (filepathAbs env.wd pkg) ∧
      (CleanAbs env.wd → isRooted (filepathAbs env.wd pkg) = true)) ∧
    (isDirectoryPath pkg = false →
      (createEnvironment env fs0 paths replaces).newPaths.get? i = some pkg) := by
  obtain ⟨hmk, fsW, fs1, m1, omp, fs2, m2, st, nps, h1, h2, h3, h4, h5, h6, hfin⟩ :=
    createEnvironment_ok_decomp env fs0 paths replaces hok
  have hres := phaseResolve_without env _ nps h6 hcg
  obtain ⟨v, hv, hget⟩ := resolveList_get env "" _ nps hres i pkg hpkg
  constructor
  · intro hdirp
    unfold resolveOne at hv
    rw [if_neg (by simp [hdirp])] at hv
    rw [if_pos hcg] at hv
    injection hv with hv
    constructor
    · rw [hfin]
      dsimp only
      rw [hget, ← hv]
    · intro hwd
      have hpne : pkg ≠ "" := by
        intro he
        rw [he, isDirectoryPath_empty] at hdirp
        cases hdirp
      exact (cleanAbs_filepathAbs env.wd pkg hwd hpne).1
  · intro hdirp
    unfold resolveOne at hv
    rw [if_pos (by simp [hdirp])] at hv
    injection hv with hv
    rw [hfin]
    dsimp only
    rw [hget, ← hv]

/-- Witness for C6: with no manifest, `./rel` becomes `/cwd/rel` and an
    identifier path passes through unchanged. -/
theorem C6_resolve_without_manifest_witness :
    (((createEnvironment envA fsA ["./rel", "example.com/m/pkg"] []).err = none ∧
      envA.currentGoMod = "" ∧
      (if (["./rel", "example.com/m/pkg"] : List String).isEmpty then ["."]
        else ["./rel", "example.com/m/pkg"]).get? 0 = some "./rel") ∧
     ((isDirectoryPath "./rel" = true →
        (createEnvironment envA fsA ["./rel", "example.com/m/pkg"] []).newPaths.get? 0
          = some (filepathAbs envA.wd "./rel") ∧
        (CleanAbs envA.wd → isRooted (filepathAbs envA.wd "./rel") = true)) ∧
      (isDirectoryPath "./rel" = false →
        (createEnvironment envA fsA ["./rel", "example.com/m/pkg"] []).newPaths.get? 0
          = some "./rel"))) :=
  ⟨⟨by decide, by decide, by decide⟩,
   C6_resolve_without_manifest envA fsA ["./rel", "example.com/m/pkg"] [] 0 "./rel"
     (by decide) (by decide) (by decide)⟩

/-! ### Filesystem operation lemmas -/

theorem writeFile_dirs (fs : FS) (p : SPath) (c : String) :
    ((fs.writeFile p c).1).dirs = fs.dirs := by
  unfold FS.writeFile
  split
  · rfl
  · split
    · rfl
    · split <;> rfl

theorem writeFile_lookup_other (fs : FS) {p q : SPath} (c : String) (h : q ≠ p) :
    ((fs.writeFile p c).1).lookupFile q = fs.lookupFile q := by
  unfold FS.writeFile
  split
  · rfl
  · split
    · rfl
    · split
      · rfl
      · unfold FS.lookupFile
        simp only [List.lookup]
        have hqp : (q == p) = false := by simpa using h
        rw [hqp]

theorem writeFile_ok_isFile {fs fs' : FS} {p : SPath} {c : String}
    (h : fs.writeFile p c = (fs', none)) : fs'.isFile p = true := by
  unfold FS.writeFile at h
  split at h
  · exact Option.noConfusion (congrArg Prod.snd h)
  · split at h
    · exact Option.noConfusion (congrArg Prod.snd h)
    · split at h
      · rename_i i hi
        rw [Prod.mk.injEq] at h
        rw [← h.1]
        unfold FS.isFile FS.lookupFile
        unfold FS.lookupFile at hi
        simp only
        rw [hi]
        rfl
      · rw [Prod.mk.injEq] at h
        rw [← h.1]
        unfold FS.isFile FS.lookupFile
        simp [List.lookup]

theorem writeFile_err_eq {fs fs' : FS} {p : SPath} {c : String} {e : FsErr}
    (h : fs.writeFile p c = (fs', some e)) : fs' = fs := by
  unfold FS.writeFile at h
  split at h
  · exact (congrArg Prod.fst h).symm
  · split at h
    · exact (congrArg Prod.fst h).symm
    · split at h <;> exact Option.noConfusion (congrArg Prod.snd h)

theorem writeFile_ok_isDir_false {fs fs' : FS} {p : SPath} {c : String}
    (h : fs.writeFile p c = (fs', none)) : fs.isDir p = false := by
  unfold FS.writeFile at h
  split at h
  · exact Option.noConfusion (congrArg Prod.snd h)
  · rename_i hnd
    cases hd : fs.isDir p with
    | false => rfl
    | true => exact absurd hd (by simpa using hnd)

theorem mkdirAll_files (fs : FS) (p : SPath) :
    ((fs.mkdirAll p).1).files = fs.files ∧ ((fs.mkdirAll p).1).store = fs.store ∧
    ((fs.mkdirAll p).1).next = fs.next := by
  unfold FS.mkdirAll
  split <;> exact ⟨rfl, rfl, rfl⟩

theorem mkdirAll_isDir_mono (fs : FS) (p q : SPath) (h : fs.isDir q = true) :
    ((fs.mkdirAll p).1).isDir q = true := by
  unfold FS.mkdirAll
  split
  · exact h
  · unfold FS.isDir at h ⊢
    simp only
    cases hqe : q.isEmpty with
    | true => simp [hqe]
    | false =>
      rw [hqe] at h
      rw [Bool.false_or] at h ⊢
      exact List.elem_iff.mpr (List.mem_append.mpr (Or.inl (List.elem_iff.mp h)))

theorem mkdirAll_err_eq {fs fs' : FS} {p : SPath} {e : FsErr}
    (h : fs.mkdirAll p = (fs', some e)) : fs' = fs := by
  unfold FS.mkdirAll at h
  split at h
  · exact (congrArg Prod.fst h).symm
  · exact Option.noConfusion (congrArg Prod.snd h)

theorem mkdirAll_ok_notdir_preserved {fs fs' : FS} {p q : SPath}
    (h : fs.mkdirAll p = (fs', none)) (hqf : fs.isFile q = true)
    (hqd : fs.dirs.contains q = false) : fs'.dirs.contains q = false := by
  unfold FS.mkdirAll at h
  split at h
  · exact Option.noConfusion (congrArg Prod.snd h)
  · rename_i hany
    rw [Prod.mk.injEq] at h
    rw [← h.1]
    simp only
    rw [Bool.eq_false_iff]
    intro hcon
    rcases List.mem_append.mp (List.elem_iff.mp hcon) with hm | hm
    · have : fs.dirs.contains q = true := List.elem_iff.mpr hm
      rw [hqd] at this
      exact Bool.noConfusion this
    · have hq : q ∈ ancestors p := (List.mem_filter.mp hm).1
      exact hany (List.any_eq_true.mpr ⟨q, hq, hqf⟩)

theorem lookup_filter_ne {α β : Type} [BEq α] [LawfulBEq α] (l : List (α × β)) (p q : α)
    (h : q ≠ p) :
    List.lookup q (l.filter (fun e => !(e.1 == p))) = List.lookup q l := by
  induction l with
  | nil => rfl
  | cons e rest ih =>
    simp only [List.filter]
    cases hf : (!(e.1 == p)) with
    | false =>
      have hep : e.1 = p := by simpa using hf
      rw [ih]
      simp only [List.lookup]
      have hqe : (q == e.1) = false := by
        rw [hep]
        simpa using h
      rw [hqe]
    | true =>
      simp only [List.lookup]
      cases hq : q == e.1 with
      | true => rfl
      | false => rw [ih]

theorem lookup_isSome_mem {α β : Type} [BEq α] [LawfulBEq α] (l : List (α × β)) (q : α) :
    (List.lookup q l).isSome = true → ∃ b, (q, b) ∈ l := by
  induction l with
  | nil => intro h; simp [List.lookup] at h
  | cons e rest ih =>
    intro h
    simp only [List.lookup] at h
    cases hq : q == e.1 with
    | true =>
      have : q = e.1 := by simpa using hq
      exact ⟨e.2, by rw [this]; exact List.mem_cons_self _ _⟩
    | false =>
      rw [hq] at h
      obtain ⟨b, hb⟩ := ih h
      exact ⟨b, List.mem_cons_of_mem e hb⟩

theorem isDir_eq_of_dirs {fs fs' : FS} (h : fs'.dirs = fs.dirs) (q : SPath) :
    fs'.isDir q = fs.isDir q := by
  unfold FS.isDir
  rw [h]

theorem isFile_eq_of_files {fs fs' : FS} (h : fs'.files = fs.files) (q : SPath) :
    fs'.isFile q = fs.isFile q := by
  unfold FS.isFile FS.lookupFile
  rw [h]

theorem writeFile_isFile_mono {fs : FS} {q : SPath} (p : SPath) (c : String)
    (h : fs.isFile q = true) : ((fs.writeFile p c).1).isFile q = true := by
  by_cases hqp : q = p
  · subst hqp
    unfold FS.writeFile
    split
    · exact h
    · split
      · exact h
      · split
        · exact h
        · rename_i hnone
          unfold FS.isFile at h
          rw [hnone] at h
          simp at h
  · unfold FS.isFile
    rw [writeFile_lookup_other fs c hqp]
    exact h

theorem removeOp_dirs_subset (fs : FS) (p q : SPath)
    (h : ((fs.removeOp p).1).dirs.contains q = true) : fs.dirs.contains q = true := by
  unfold FS.removeOp at h
  split at h
  · exact h
  · split at h
    · split at h
      · exact h
      · exact List.elem_iff.mpr (List.mem_of_mem_filter (List.elem_iff.mp h))
    · exact h

theorem removeOp_lookup_other (fs : FS) {p q : SPath} (h : q ≠ p) :
    ((fs.removeOp p).1).lookupFile q = fs.lookupFile q := by
  unfold FS.removeOp
  split
  · show List.lookup q (List.filter (fun e => !(e.1 == p)) fs.files) = List.lookup q fs.files
    exact lookup_filter_ne fs.files p q h
  · split
    · split <;> rfl
    · rfl

theorem removeOp_wdir {fs : FS} {w gm : SPath} (p : SPath)
    (hgm : fs.isFile gm = true) (hund : strictUnderB w gm = true)
    (hw : fs.isDir w = true) : ((fs.removeOp p).1).isDir w = true := by
  cases hf : fs.isFile p with
  | true =>
    unfold FS.removeOp
    rw [if_pos hf]
    exact hw
  | false =>
    cases hd : fs.isDir p with
    | false =>
      unfold FS.removeOp
      rw [if_neg (by simp [hf]), if_neg (by simp [hd])]
      exact hw
    | true =>
      cases he : fs.hasEntryUnder p with
      | true =>
        unfold FS.removeOp
        rw [if_neg (by simp [hf]), if_pos hd, if_pos he]
        exact hw
      | false =>
        by_cases hpw : p = w
        · subst hpw
          exfalso
          obtain ⟨i, hi⟩ := lookup_isSome_mem fs.files gm hgm
          have h1 : fs.hasEntryUnder p = true := by
            unfold FS.hasEntryUnder
            have h2 : fs.files.any (fun e => strictUnderB p e.1) = true :=
              List.any_eq_true.mpr ⟨(gm, i), hi, hund⟩
            rw [h2]
            rfl
          rw [he] at h1
          exact Bool.noConfusion h1
        · unfold FS.removeOp
          rw [if_neg (by simp [hf]), if_pos hd, if_neg (by simp [he])]
          show (w.isEmpty || (fs.dirs.filter (fun d => !(d == p))).contains w) = true
          unfold FS.isDir at hw
          cases hwe : w.isEmpty with
          | true => rfl
          | false =>
            rw [hwe, Bool.false_or] at hw
            rw [Bool.false_or]
            have hwp : w ≠ p := fun hh => hpw hh.symm
            exact List.elem_iff.mpr
              (List.mem_filter.mpr ⟨List.elem_iff.mp hw, by simp [hwp]⟩)

theorem mkdirAll_self_ok {fs fs' : FS} {p : SPath} (h : fs.mkdirAll p = (fs', none)) :
    fs'.isDir p = true := by
  unfold FS.mkdirAll at h
  split at h
  · exact Option.noConfusion (congrArg Prod.snd h)
  · rw [Prod.mk.injEq] at h
    rw [← h.1]
    unfold FS.isDir
    simp only
    cases hd : fs.isDir p with
    | true =>
      cases hpe : p.isEmpty with
      | true => rfl
      | false =>
        rw [Bool.false_or]
        unfold FS.isDir at hd
        rw [hpe, Bool.false_or] at hd
        exact List.elem_iff.mpr (List.mem_append.mpr (Or.inl (List.elem_iff.mp hd)))
    | false =>
      cases hpe : p.isEmpty with
      | true => rfl
      | false =>
        rw [Bool.false_or]
        have hcont : fs.dirs.contains p = false := by
          unfold FS.isDir at hd
          cases hc : fs.dirs.contains p with
          | false => rfl
          | true => rw [hc] at hd; simp at hd
        have hself : p ∈ ancestors p := by
          unfold ancestors
          refine List.mem_map.mpr ⟨p.length, ?_, List.take_length p⟩
          exact List.mem_range.mpr (by omega)
        have hnotmem : p ∉ fs.dirs := by
          intro hmem
          have hcc : fs.dirs.contains p = true := List.elem_iff.mpr hmem
          rw [hcc] at hcont
          exact Bool.noConfusion hcont
        exact List.elem_iff.mpr (List.mem_append.mpr (Or.inr
          (List.mem_filter.mpr ⟨hself, by simp [hpe, hnotmem]⟩)))

theorem gmInv_writeFile {w gm : SPath} {fs : FS} (p : SPath) (c : String)
    (h : gmInv w gm fs) : gmInv w gm ((fs.writeFile p c).1) := by
  obtain ⟨h1, h2, h3⟩ := h
  refine ⟨?_, writeFile_isFile_mono p c h2, ?_⟩
  · rw [isDir_eq_of_dirs (writeFile_dirs fs p c) w]
    exact h1
  · rw [writeFile_dirs fs p c]
    exact h3

theorem gmInv_mkdirAll {w gm : SPath} {fs : FS} (p : SPath)
    (h : gmInv w gm fs) : gmInv w gm ((fs.mkdirAll p).1) := by
  obtain ⟨h1, h2, h3⟩ := h
  refine ⟨mkdirAll_isDir_mono fs p w h1, ?_, ?_⟩
  · rw [isFile_eq_of_files (mkdirAll_files fs p).1 gm]
    exact h2
  · rcases hm : fs.mkdirAll p with ⟨fs', e⟩
    cases e with
    | some e =>
      show fs'.dirs.contains gm = false
      rw [mkdirAll_err_eq hm]
      exact h3
    | none =>
      show fs'.dirs.contains gm = false
      exact mkdirAll_ok_notdir_preserved hm h2 h3

theorem gmInv_removeOp_other {w gm : SPath} {fs : FS} (p : SPath) (hne : gm ≠ p)
    (hund : strictUnderB w gm = true) (h : gmInv w gm fs) :
    gmInv w gm ((fs.removeOp p).1) := by
  obtain ⟨h1, h2, h3⟩ := h
  refine ⟨removeOp_wdir p h2 hund h1, ?_, ?_⟩
  · unfold FS.isFile
    rw [removeOp_lookup_other fs hne]
    exact h2
  · cases hc : ((fs.removeOp p).1).dirs.contains gm with
    | false => rfl
    | true =>
      have := removeOp_dirs_subset fs p gm hc
      rw [h3] at this
      exact Bool.noConfusion this

theorem gmInv_writeGoMod {w gm : SPath} {fs : FS} (work : String) (m : Modfile)
    (h : gmInv w gm fs) : gmInv w gm ((writeGoMod work m fs).1) := by
  unfold writeGoMod
  exact gmInv_writeFile _ _ h

theorem gmInv_copyEntries {w gm : SPath} (dst : SPath) (n : Nat)
    (hund : strictUnderB w gm = true) :
    ∀ (entries : List (SPath × Nat)) (fs : FS), gmInv w gm fs →
    gmInv w gm ((copyEntries dst n fs entries).1) := by
  intro entries
  induction entries with
  | nil => intro fs h; exact h
  | cons e rest ih =>
    intro fs h
    obtain ⟨q, i⟩ := e
    unfold copyEntries
    dsimp only
    split
    · exact ih fs h
    · have hA := gmInv_mkdirAll (dst ++ q.drop n).dropLast h
      rcases hm : fs.mkdirAll (dst ++ q.drop n).dropLast with ⟨fs1, e1⟩
      rw [hm] at hA
      cases e1 with
      | some e => exact hA
      | none =>
        dsimp only
        cases hs : fs1.store.lookup i with
        | none => exact hA
        | some c =>
          dsimp only
          have hW := gmInv_writeFile (dst ++ q.drop n) c hA
          rcases hw2 : fs1.writeFile (dst ++ q.drop n) c with ⟨fs2, e2⟩
          rw [hw2] at hW
          cases e2 with
          | some e => exact hW
          | none => exact ih fs2 hW

theorem gmInv_copyTree {w gm : SPath} (src dst : SPath)
    (hund : strictUnderB w gm = true) (fs : FS) (h : gmInv w gm fs) :
    gmInv w gm ((copyTree fs src dst).1) := by
  unfold copyTree
  split
  · exact gmInv_copyEntries dst src.length hund _ fs h
  · exact h

theorem gmInv_goModEditReplace {w gm : SPath} {fs : FS} (work : String) (m : Modfile)
    (mp dstRel : String) (h : gmInv w gm fs) :
    gmInv w gm ((goModEditReplace work m mp dstRel fs).1) := by
  unfold goModEditReplace
  dsimp only
  have hthis := gmInv_writeGoMod work
    { moduleName := m.moduleName, requires := m.requires,
      replaces := addReplace m.replaces mp "" dstRel "" } h
  rcases hw : writeGoMod work
      { moduleName := m.moduleName, requires := m.requires,
        replaces := addReplace m.replaces mp "" dstRel "" } fs with ⟨fs1, e⟩
  rw [hw] at hthis
  exact hthis

theorem gmInv_replaceFn {w gm : SPath} (work rmd mp sd : String) (fs : FS) (m : Modfile)
    (hund : strictUnderB w gm = true) (h : gmInv w gm fs) :
    gmInv w gm ((replaceFn work rmd mp sd fs m).1) := by
  unfold replaceFn
  dsimp only
  split
  · exact h
  · have hE := gmInv_goModEditReplace work m mp
      ("./" ++ filepathJoin ["mod", mp]) h
    rcases he : goModEditReplace work m mp ("./" ++ filepathJoin ["mod", mp]) fs
      with ⟨fs1, m1, e⟩
    rw [he] at hE
    exact hE
  · have hC := gmInv_copyTree (strToPath sd) (strToPath (filepathJoin [rmd, mp])) hund fs h
    rcases hc : copyTree fs (strToPath sd) (strToPath (filepathJoin [rmd, mp]))
      with ⟨fs1, e1⟩
    rw [hc] at hC
    cases e1 with
    | some e => exact hC
    | none =>
      dsimp only
      have hE := gmInv_goModEditReplace work m mp
        ("./" ++ filepathJoin ["mod", mp]) hC
      rcases he : goModEditReplace work m mp ("./" ++ filepathJoin ["mod", mp]) fs1
        with ⟨fs2, m2, e⟩
      rw [he] at hE
      exact hE

theorem applyItemWrite_winv {w gm : SPath} (rmd : String) (st : LoopSt) (r : ReplaceItem)
    (hund : strictUnderB w gm = true) (h : gmInv w gm st.fs) :
    ((applyItemWrite rmd st r).1).fs.isDir w = true ∧
    ((applyItemWrite rmd st r).2 = none → gmInv w gm ((applyItemWrite rmd st r).1).fs) := by
  unfold applyItemWrite
  dsimp only
  have hA := gmInv_mkdirAll
    (strToPath (filepathDir (filepathJoin [rmd, r.Mod, r.Path]))) h
  rcases hm : st.fs.mkdirAll
      (strToPath (filepathDir (filepathJoin [rmd, r.Mod, r.Path]))) with ⟨fs1, e1⟩
  rw [hm] at hA
  cases e1 with
  | some e => exact ⟨hA.1, fun hc => Option.noConfusion hc⟩
  | none =>
  dsimp only
  rcases hr2 : fs1.removeOp (strToPath (filepathJoin [rmd, r.Mod, r.Path])) with ⟨fs2, e?⟩
  have hwd2 : fs2.isDir w = true := by
    have := removeOp_wdir
      (strToPath (filepathJoin [rmd, r.Mod, r.Path])) hA.2.1 hund hA.1
    rw [hr2] at this
    exact this
  have hnd2 : fs2.dirs.contains gm = false := by
    cases hc : fs2.dirs.contains gm with
    | false => rfl
    | true =>
      have hsub := removeOp_dirs_subset fs1
        (strToPath (filepathJoin [rmd, r.Mod, r.Path])) gm
      rw [hr2] at hsub
      have := hsub hc
      rw [hA.2.2] at this
      exact Bool.noConfusion this
  split
  · rcases hw3 : fs2.writeFile (strToPath (filepathJoin [rmd, r.Mod, r.Path])) r.Content
      with ⟨fs3, e3⟩
    have hwd3 : fs3.isDir w = true := by
      have hde : fs3.dirs = fs2.dirs := by
        have := writeFile_dirs fs2 (strToPath (filepathJoin [rmd, r.Mod, r.Path])) r.Content
        rw [hw3] at this
        exact this
      rw [isDir_eq_of_dirs hde w]
      exact hwd2
    cases e3 with
    | some e => exact ⟨hwd3, fun hc => Option.noConfusion hc⟩
    | none =>
      refine ⟨hwd3, fun _ => ⟨hwd3, ?_, ?_⟩⟩
      · by_cases hdg : strToPath (filepathJoin [rmd, r.Mod, r.Path]) = gm
        · have := writeFile_ok_isFile hw3
          rw [hdg] at this
          exact this
        · have hgm2 : fs2.isFile gm = true := by
            unfold FS.isFile
            have := removeOp_lookup_other fs1
              (p := strToPath (filepathJoin [rmd, r.Mod, r.Path])) (q := gm)
              (fun hh => hdg hh.symm)
            rw [hr2] at this
            rw [this]
            exact hA.2.1
          have := writeFile_isFile_mono
            (strToPath (filepathJoin [rmd, r.Mod, r.Path])) r.Content hgm2
          rw [hw3] at this
          exact this
      · have hde : fs3.dirs = fs2.dirs := by
          have := writeFile_dirs fs2 (strToPath (filepathJoin [rmd, r.Mod, r.Path])) r.Content
          rw [hw3] at this
          exact this
        rw [hde]
        exact hnd2
  · rename_i hcond
    refine ⟨hwd2, fun hc => ?_⟩
    exact absurd (Or.inl hc) hcond

theorem applyItem_winv {w gm : SPath} (env : Env) (work rmd : String) (st : LoopSt)
    (r : ReplaceItem) (hund : strictUnderB w gm = true) (h : gmInv w gm st.fs) :
    ((applyItem env work rmd st r).1).fs.isDir w = true ∧
    ((applyItem env work rmd st r).2 = none →
      gmInv w gm ((applyItem env work rmd st r).1).fs) := by
  unfold applyItem
  have hvisit : ((applyItemVisit env work rmd st r).1).fs.isDir w = true ∧
      ((applyItemVisit env work rmd st r).2 = none →
        gmInv w gm ((applyItemVisit env work rmd st r).1).fs) ∧
      ((applyItemVisit env work rmd st r).2 ≠ none →
        gmInv w gm ((applyItemVisit env work rmd st r).1).fs) := by
    unfold applyItemVisit
    split
    · exact ⟨h.1, fun _ => h, fun _ => h⟩
    · split
      · exact ⟨h.1, fun hc => Option.noConfusion hc, fun _ => h⟩
      · split
        · exact ⟨h.1, fun hc => Option.noConfusion hc, fun _ => h⟩
        · rename_i srcDir hsd
          have hR := gmInv_replaceFn work rmd r.Mod srcDir st.fs st.mod hund h
          rcases hrf : replaceFn work rmd r.Mod srcDir st.fs st.mod with ⟨fs', m', evs, e⟩
          rw [hrf] at hR
          cases e with
          | some e2 => exact ⟨hR.1, fun hc => Option.noConfusion hc, fun _ => hR⟩
          | none => exact ⟨hR.1, fun _ => hR, fun _ => hR⟩
  rcases hv : applyItemVisit env work rmd st r with ⟨st', e⟩
  rw [hv] at hvisit
  cases e with
  | some e2 =>
    dsimp only
    exact ⟨hvisit.1, fun hc => Option.noConfusion hc⟩
  | none =>
    dsimp only
    exact applyItemWrite_winv rmd st' r hund (hvisit.2.1 rfl)

theorem runItems_winv {w gm : SPath} (env : Env) (work rmd : String)
    (hund : strictUnderB w gm = true) :
    ∀ (items : List ReplaceItem) (st : LoopSt), gmInv w gm st.fs →
    ((runItems env work rmd st items).1).fs.isDir w = true := by
  intro items
  induction items with
  | nil => intro st h; exact h.1
  | cons r rest ih =>
    intro st h
    unfold runItems
    have hI := applyItem_winv env work rmd st r hund h
    rcases ha : applyItem env work rmd st r with ⟨st', e⟩
    rw [ha] at hI
    cases e with
    | none => exact ih st' (hI.2 rfl)
    | some e2 => exact hI.1

theorem writeGoMod_err_eq {work : String} {m : Modfile} {fs fs' : FS} {e : FsErr}
    (h : writeGoMod work m fs = (fs', some e)) : fs' = fs := by
  unfold writeGoMod at h
  exact writeFile_err_eq h

theorem writeGoMod_ok_gm {work : String} {m : Modfile} {fs fs' : FS} {w : SPath}
    (h : writeGoMod work m fs = (fs', none)) (hw : fs.isDir w = true) :
    gmInv w (strToPath (filepathJoin [work, "go.mod"])) fs' := by
  unfold writeGoMod at h
  have hde : fs'.dirs = fs.dirs := by
    have := writeFile_dirs fs (strToPath (filepathJoin [work, "go.mod"])) (formatModfile m)
    rw [h] at this
    exact this
  refine ⟨?_, writeFile_ok_isFile h, ?_⟩
  · rw [isDir_eq_of_dirs hde w]
    exact hw
  · have hf := writeFile_ok_isDir_false h
    rw [hde]
    unfold FS.isDir at hf
    cases hc : fs.dirs.contains (strToPath (filepathJoin [work, "go.mod"])) with
    | false => rfl
    | true =>
      rw [hc] at hf
      simp at hf

theorem phaseManifest_winv (env : Env) (work : String) (fs : FS) {w : SPath}
    (hw : fs.isDir w = true) :
    ((phaseManifest env work fs).1).isDir w = true ∧
    ((phaseManifest env work fs).2.2.2 = none →
      gmInv w (strToPath (filepathJoin [work, "go.mod"])) ((phaseManifest env work fs).1)) := by
  unfold phaseManifest
  dsimp only
  split
  · split
    · exact ⟨hw, fun hc => Option.noConfusion hc⟩
    · rename_i om heq
      try dsimp only
      rcases hw1 : writeGoMod work
          { moduleName := "uwagaki_" ++ env.nowStamp, requires := om.requires,
            replaces := fixReplaces (filepathDir env.currentGoMod) om.replaces } fs
        with ⟨fs1, e1⟩
      cases e1 with
      | some e =>
        dsimp only
        rw [writeGoMod_err_eq hw1]
        exact ⟨hw, fun hc => Option.noConfusion hc⟩
      | none =>
        dsimp only
        have hG := writeGoMod_ok_gm hw1 hw
        cases hgs : env.goSum with
        | none => exact ⟨hG.1, fun _ => hG⟩
        | some sum =>
          dsimp only
          have hW := gmInv_writeFile (strToPath (filepathJoin [work, "go.sum"])) sum hG
          rcases hw2 : fs1.writeFile (strToPath (filepathJoin [work, "go.sum"])) sum
            with ⟨fs2, e2⟩
          rw [hw2] at hW
          cases e2 with
          | some e => exact ⟨hW.1, fun hc => Option.noConfusion hc⟩
          | none => exact ⟨hW.1, fun _ => hW⟩
  · split
    · rcases hw1 : writeGoMod work
          { moduleName := "uwagaki_" ++ env.nowStamp, requires := [], replaces := [] } fs
        with ⟨fs1, e1⟩
      cases e1 with
      | some e =>
        dsimp only
        rw [writeGoMod_err_eq hw1]
        exact ⟨hw, fun hc => Option.noConfusion hc⟩
      | none =>
        dsimp only
        have hG := writeGoMod_ok_gm hw1 hw
        exact ⟨hG.1, fun _ => hG⟩
    · exact ⟨hw, fun hc => Option.noConfusion hc⟩

theorem phaseOrig_winv (env : Env) (work omp : String) (fs : FS) (m : Modfile)
    {w gm : SPath} (h : gmInv w gm fs) :
    gmInv w gm ((phaseOrig env work omp fs m).1) := by
  unfold phaseOrig
  split
  · exact h
  · dsimp only
    have h1 := gmInv_writeGoMod work
      { m with requires := addRequire m.requires omp "v0.0.0" } h
    rcases hw1 : writeGoMod work
        { m with requires := addRequire m.requires omp "v0.0.0" } fs with ⟨fs1, e1⟩
    rw [hw1] at h1
    cases e1 with
    | some e => exact h1
    | none =>
      dsimp only
      have h2 := gmInv_writeGoMod work
        { moduleName := m.moduleName,
          requires := addRequire m.requires omp "v0.0.0",
          replaces := addReplace m.replaces omp "" (filepathDir env.currentGoMod) "" } h1
      rcases hw2 : writeGoMod work
          { moduleName := m.moduleName,
            requires := addRequire m.requires omp "v0.0.0",
            replaces := addReplace m.replaces omp "" (filepathDir env.currentGoMod) "" } fs1
        with ⟨fs2, e2⟩
      rw [hw2] at h2
      cases e2 with
      | some e => exact h2
      | none => exact h2

theorem createEnvironment_workdir_cases (env : Env) (fs0 : FS) (paths : List String)
    (replaces : List ReplaceItem) :
    ((createEnvironment env fs0 paths replaces).workDir = "" ∧
      (createEnvironment env fs0 paths replaces).err ≠ none) ∨
    ((createEnvironment env fs0 paths replaces).workDir = env.workRoot ∧
      (createEnvironment env fs0 paths replaces).err = none) := by
  unfold createEnvironment
  repeat
    first
    | (exact Or.inl ⟨rfl, by simp⟩)
    | (exact Or.inr ⟨rfl, rfl⟩)
    | split
    | dsimp only

theorem createEnvironment_workdir_kept (env : Env) (fs0 : FS) (paths : List String)
    (replaces : List ReplaceItem) (fsW : FS)
    (hmk : env.mkdirTempOk = true)
    (halloc : fs0.mkdirAll (strToPath env.workRoot) = (fsW, none))
    (hund : strictUnderB (strToPath env.workRoot)
      (strToPath (filepathJoin [env.workRoot, "go.mod"])) = true) :
    ((createEnvironment env fs0 paths replaces).fs).isDir (strToPath env.workRoot) = true := by
  unfold createEnvironment
  rw [hmk, if_neg (by simp), halloc]
  dsimp only
  have hwW : fsW.isDir (strToPath env.workRoot) = true := mkdirAll_self_ok halloc
  have hM := phaseManifest_winv env env.workRoot fsW hwW
  rcases h2 : phaseManifest env env.workRoot fsW with ⟨fs1, m1, omp, e2⟩
  rw [h2] at hM
  cases e2 with
  | some e => exact hM.1
  | none =>
  dsimp only
  have hG1 := hM.2 rfl
  cases h3 : phaseGoGetPaths env paths with
  | some e => exact hG1.1
  | none =>
  dsimp only
  have hO := phaseOrig_winv env env.workRoot omp fs1 m1 hG1
  rcases h4 : phaseOrig env env.workRoot omp fs1 m1 with ⟨fs2, m2, e4⟩
  rw [h4] at hO
  cases e4 with
  | some e => exact hO.1
  | none =>
  dsimp only
  have hR := runItems_winv env env.workRoot (filepathJoin [env.workRoot, "mod"]) hund
    replaces ⟨fs2, m2, [], []⟩ hO
  rcases h5 : runItems env env.workRoot (filepathJoin [env.workRoot, "mod"])
      ⟨fs2, m2, [], []⟩ replaces with ⟨st, e5⟩
  rw [h5] at hR
  cases e5 with
  | some e => exact hR
  | none =>
  dsimp only
  rcases h6 : phaseResolve env (if paths.isEmpty then ["."] else paths) with ⟨nps, e6⟩
  cases e6 <;> exact hR

/-- C3 (amended): the directory path is returned only on success; on any
    failure after allocation the empty string is returned instead, while the
    allocated workspace root is left on disk (never deleted by the call). -/
theorem C3_failure_returns_empty (env : Env) (fs0 : FS) (paths : List String)
    (replaces : List ReplaceItem)
    (hund : strictUnderB (strToPath env.workRoot)
      (strToPath (filepathJoin [env.workRoot, "go.mod"])) = true) :
    ((createEnvironment env fs0 paths replaces).err = none →
      (createEnvironment env fs0 paths replaces).workDir = env.workRoot) ∧
    ((createEnvironment env fs0 paths replaces).err ≠ none →
      (createEnvironment env fs0 paths replaces).workDir = "") ∧
    (∀ fsW : FS, env.mkdirTempOk = true →
      fs0.mkdirAll (strToPath env.workRoot) = (fsW, none) →
      ((createEnvironment env fs0 paths replaces).fs).isDir (strToPath env.workRoot) = true) := by
  refine ⟨?_, ?_, ?_⟩
  · intro hok
    rcases createEnvironment_workdir_cases env fs0 paths replaces with ⟨_, hne⟩ | ⟨hw, _⟩
    · exact absurd hok hne
    · exact hw
  · intro hne
    rcases createEnvironment_workdir_cases env fs0 paths replaces with ⟨hw, _⟩ | ⟨_, hok⟩
    · exact hw
    · exact absurd hok hne
  · intro fsW hmk halloc
    exact createEnvironment_workdir_kept env fs0 paths replaces fsW hmk halloc hund

/-- Witness for the amended C3 at a concrete successful and a concrete
    failing input is provided by the counterexample below; this witness
    instantiates the theorem itself. -/
theorem C3_failure_returns_empty_witness :
    (strictUnderB (strToPath envB.workRoot)
      (strToPath (filepathJoin [envB.workRoot, "go.mod"])) = true) ∧
    (((createEnvironment envB fsA ["./sub"] []).err = none →
      (createEnvironment envB fsA ["./sub"] []).workDir = envB.workRoot) ∧
     ((createEnvironment envB fsA ["./sub"] []).err ≠ none →
      (createEnvironment envB fsA ["./sub"] []).workDir = "") ∧
     (∀ fsW : FS, envB.mkdirTempOk = true →
      fsA.mkdirAll (strToPath envB.workRoot) = (fsW, none) →
      ((createEnvironment envB fsA ["./sub"] []).fs).isDir (strToPath envB.workRoot) = true)) :=
  ⟨by decide, C3_failure_returns_empty envB fsA ["./sub"] [] (by decide)⟩

/-- C3 counterexample: with a readable go.mod probe but an unreadable file
    (modelled by `origMod = none`), the run fails after the root directory
    was allocated; the partial workspace is on disk, yet the returned
    directory is `""`, not the allocated path — refuting the claim that the
    path is returned regardless of later failure. -/
theorem C3_counterexample :
    (createEnvironment { envB with origMod := none } fsA [] []).err ≠ none ∧
    (createEnvironment { envB with origMod := none } fsA [] []).workDir
      ≠ ({ envB with origMod := none } : Env).workRoot ∧
    ((createEnvironment { envB with origMod := none } fsA [] []).fs).isDir
      (strToPath ({ envB with origMod := none } : Env).workRoot) = true := by
  refine ⟨by decide, by decide, by decide⟩

theorem locatesOf_append (a b : List Ev) :
    locatesOf (a ++ b) = locatesOf a ++ locatesOf b := by
  unfold locatesOf
  exact List.filterMap_append a b _

theorem replaceCallsOf_append (a b : List Ev) :
    replaceCallsOf (a ++ b) = replaceCallsOf a ++ replaceCallsOf b := by
  unfold replaceCallsOf
  exact List.filterMap_append a b _

theorem replaceFn_evs (work rmd mp sd : String) (fs : FS) (m : Modfile) :
    (replaceFn work rmd mp sd fs m).2.2.1 = [] ∨
    (replaceFn work rmd mp sd fs m).2.2.1 = [Ev.treeCopy mp] := by
  unfold replaceFn
  dsimp only
  split
  · exact Or.inl rfl
  · rcases he : goModEditReplace work m mp ("./" ++ filepathJoin ["mod", mp]) fs
      with ⟨fs1, m1, e⟩
    exact Or.inl rfl
  · rcases hc : copyTree fs (strToPath sd) (strToPath (filepathJoin [rmd, mp]))
      with ⟨fs1, e1⟩
    cases e1 with
    | some e => exact Or.inr rfl
    | none =>
      dsimp only
      rcases he : goModEditReplace work m mp ("./" ++ filepathJoin ["mod", mp]) fs1
        with ⟨fs2, m2, e⟩
      exact Or.inr rfl

theorem applyItemWrite_log (rmd : String) (st : LoopSt) (r : ReplaceItem) :
    locatesOf ((applyItemWrite rmd st r).1).log = locatesOf st.log ∧
    replaceCallsOf ((applyItemWrite rmd st r).1).log = replaceCallsOf st.log ∧
    ((applyItemWrite rmd st r).1).visited = st.visited ∧
    ((applyItemWrite rmd st r).1).mod = st.mod := by
  unfold applyItemWrite
  dsimp only
  rcases hm : st.fs.mkdirAll
      (strToPath (filepathDir (filepathJoin [rmd, r.Mod, r.Path]))) with ⟨fs1, e1⟩
  cases e1 with
  | some e => exact ⟨rfl, rfl, rfl, rfl⟩
  | none =>
  dsimp only
  rcases hr : fs1.removeOp (strToPath (filepathJoin [rmd, r.Mod, r.Path])) with ⟨fs2, e?⟩
  split
  · rcases hw : fs2.writeFile (strToPath (filepathJoin [rmd, r.Mod, r.Path])) r.Content
      with ⟨fs3, e3⟩
    cases e3 with
    | some e =>
      refine ⟨?_, ?_, rfl, rfl⟩ <;>
        simp [locatesOf_append, replaceCallsOf_append, locatesOf, replaceCallsOf]
    | none =>
      refine ⟨?_, ?_, rfl, rfl⟩ <;>
        simp [locatesOf_append, replaceCallsOf_append, locatesOf, replaceCallsOf]
  · exact ⟨rfl, rfl, rfl, rfl⟩

theorem applyItemVisit_ok_log (env : Env) (work rmd : String) (st : LoopSt)
    (r : ReplaceItem) (st' : LoopSt)
    (h : applyItemVisit env work rmd st r = (st', none)) :
    (st.visited.contains r.Mod = true → st' = st) ∧
    (st.visited.contains r.Mod = false →
      locatesOf st'.log = locatesOf st.log ++ [r.Mod] ∧
      replaceCallsOf st'.log = replaceCallsOf st.log ++ [r.Mod] ∧
      st'.visited = r.Mod :: st.visited) := by
  unfold applyItemVisit at h
  constructor
  · intro hv
    rw [if_pos hv] at h
    rw [Prod.mk.injEq] at h
    exact h.1.symm
  · intro hv
    rw [if_neg (by rw [hv]; simp)] at h
    split at h
    · rw [Prod.mk.injEq] at h
      exact Option.noConfusion h.2
    · split at h
      · rw [Prod.mk.injEq] at h
        exact Option.noConfusion h.2
      · rename_i srcDir hsd
        split at h
        · rw [Prod.mk.injEq] at h
          exact Option.noConfusion h.2
        · rename_i fs' m' evs hrf
          rw [Prod.mk.injEq] at h
          rw [← h.1]
          dsimp only
          have hevs := replaceFn_evs work rmd r.Mod srcDir st.fs st.mod
          rw [hrf] at hevs
          dsimp only at hevs
          refine ⟨?_, ?_, rfl⟩ <;>
            rcases hevs with hevs | hevs <;>
              rw [hevs] <;>
                simp [locatesOf_append, replaceCallsOf_append, locatesOf, replaceCallsOf]

theorem firstOccsAux_cons (seen : List String) (m : String) (l : List String) :
    firstOccsAux seen (m :: l) =
      if seen.contains m then firstOccsAux seen l
      else m :: firstOccsAux (m :: seen) l := rfl

theorem firstOccsAux_contains_true {seen : List String} {m : String}
    (h : seen.contains m = true) (l : List String) :
    firstOccsAux seen (m :: l) = firstOccsAux seen l := by
  rw [firstOccsAux_cons, if_pos h]

theorem firstOccsAux_contains_false {seen : List String} {m : String}
    (h : seen.contains m = false) (l : List String) :
    firstOccsAux seen (m :: l) = m :: firstOccsAux (m :: seen) l := by
  rw [firstOccsAux_cons, if_neg (by rw [h]; simp)]

theorem runItems_log (env : Env) (work rmd : String) :
    ∀ (items : List ReplaceItem) (st st' : LoopSt),
    runItems env work rmd st items = (st', none) →
    locatesOf st'.log
      = locatesOf st.log ++ firstOccsAux st.visited (items.map (fun r => r.Mod)) ∧
    replaceCallsOf st'.log
      = replaceCallsOf st.log ++ firstOccsAux st.visited (items.map (fun r => r.Mod)) := by
  intro items
  induction items with
  | nil =>
    intro st st' h
    unfold runItems at h
    rw [Prod.mk.injEq] at h
    rw [← h.1]
    simp [firstOccsAux]
  | cons r rest ih =>
    intro st st' h
    unfold runItems at h
    rcases ha : applyItem env work rmd st r with ⟨st1, e⟩
    rw [ha] at h
    cases e with
    | some e2 =>
      rw [Prod.mk.injEq] at h
      exact Option.noConfusion h.2
    | none =>
      unfold applyItem at ha
      rcases hv : applyItemVisit env work rmd st r with ⟨stv, ev⟩
      rw [hv] at ha
      cases ev with
      | some e2 => rw [Prod.mk.injEq] at ha; exact Option.noConfusion ha.2
      | none =>
      dsimp only at ha
      have hVL := applyItemVisit_ok_log env work rmd st r stv hv
      have hWL : locatesOf st1.log = locatesOf stv.log ∧
          replaceCallsOf st1.log = replaceCallsOf stv.log ∧
          st1.visited = stv.visited := by
        have := applyItemWrite_log rmd stv r
        rw [ha] at this
        exact ⟨this.1, this.2.1, this.2.2.1⟩
      have hrest := ih st1 st' h
      cases hc : st.visited.contains r.Mod with
      | true =>
        have hst := hVL.1 hc
        rw [List.map_cons, firstOccsAux_contains_true hc]
        rw [hrest.1, hrest.2, hWL.1, hWL.2.1, hWL.2.2, hst]
        exact ⟨rfl, rfl⟩
      | false =>
        obtain ⟨hl, hrc, hvis⟩ := hVL.2 hc
        rw [List.map_cons, firstOccsAux_contains_false hc]
        rw [hrest.1, hrest.2, hWL.1, hWL.2.1, hWL.2.2, hvis, hl, hrc]
        constructor <;> simp

/-- C2: on a successful run, the locate step (`go list -m -f Dir`) and the
    `replace` helper run exactly once per distinct overridden module path,
    in first-occurrence order; later items for a visited module add no
    further locate or replace events. -/
theorem C2_materialize_once (env : Env) (fs0 : FS) (paths : List String)
    (replaces : List ReplaceItem)
    (hok : (createEnvironment env fs0 paths replaces).err = none) :
    locatesOf (createEnvironment env fs0 paths replaces).log
      = firstOccs (replaces.map (fun r => r.Mod)) ∧
    replaceCallsOf (createEnvironment env fs0 paths replaces).log
      = firstOccs (replaces.map (fun r => r.Mod)) := by
  obtain ⟨hmk, fsW, fs1, m1, omp, fs2, m2, st, nps, h1, h2, h3, h4, h5, h6, hfin⟩ :=
    createEnvironment_ok_decomp env fs0 paths replaces hok
  have hlog := runItems_log env env.workRoot (filepathJoin [env.workRoot, "mod"])
    replaces ⟨fs2, m2, [], []⟩ st h5
  rw [hfin]
  dsimp only
  unfold firstOccs
  constructor
  · rw [hlog.1]
    rfl
  · rw [hlog.2]
    rfl

/-- Witness for C2: two items against the same module materialize it once. -/
theorem C2_materialize_once_witness :
    ((createEnvironment envA fsA [] [itemA, itemB]).err = none) ∧
    (locatesOf (createEnvironment envA fsA [] [itemA, itemB]).log
      = firstOccs ([itemA, itemB].map (fun r => r.Mod)) ∧
     replaceCallsOf (createEnvironment envA fsA [] [itemA, itemB]).log
      = firstOccs ([itemA, itemB].map (fun r => r.Mod))) :=
  ⟨by decide, C2_materialize_once envA fsA [] [itemA, itemB] (by decide)⟩

theorem filter_neg_filter_of_disjoint {α : Type} (p q : α → Bool)
    (hpq : ∀ x, q x = true → p x = false) (l : List α) :
    (l.filter (fun x => !(p x))).filter q = l.filter q := by
  induction l with
  | nil => rfl
  | cons x xs ih =>
    cases hp : p x with
    | true =>
      have hq : q x = false := by
        cases hqx : q x with
        | false => rfl
        | true => rw [hpq x hqx] at hp; exact Bool.noConfusion hp
      simp [List.filter, hp, hq, ih]
    | false => simp [List.filter, hp, ih]

theorem filter_neg_filter_self {α : Type} (p : α → Bool) (l : List α) :
    (l.filter (fun x => !(p x))).filter p = [] := by
  induction l with
  | nil => rfl
  | cons x xs ih =>
    cases hp : p x with
    | true => simp [List.filter, hp, ih]
    | false => simp [List.filter, hp, ih]

theorem filter_neg_filter_of_imp {α : Type} (p q : α → Bool)
    (hpq : ∀ x, q x = true → p x = true) (l : List α) :
    (l.filter (fun x => !(p x))).filter q = [] := by
  induction l with
  | nil => rfl
  | cons x xs ih =>
    cases hp : p x with
    | true => simp [List.filter, hp, ih]
    | false =>
      have hq : q x = false := by
        cases hqx : q x with
        | false => rfl
        | true => rw [hpq x hqx] at hp; exact Bool.noConfusion hp
      simp [List.filter, hp, hq, ih]

theorem edgeFilter_addReplace_self (rs : List ModReplace) (m np : String) :
    edgeFilter (addReplace rs m "" np "") m = [⟨m, "", np, ""⟩] := by
  induction rs with
  | nil => simp [addReplace, edgeFilter, List.filter, matchRep]
  | cons r rest ih =>
    cases hm : matchRep m "" r with
    | true =>
      rw [show addReplace (r :: rest) m "" np ""
            = ⟨m, "", np, ""⟩ :: rest.filter (fun s => !(matchRep m "" s))
          from by conv_lhs => rw [addReplace]; rw [if_pos hm]]
      unfold edgeFilter
      simp only [List.filter, show ((⟨m, "", np, ""⟩ : ModReplace).oldPath == m
        && (⟨m, "", np, ""⟩ : ModReplace).oldVers == "") = true from by simp]
      rw [filter_neg_filter_of_imp _ _ (fun x hx => by
        rw [matchRep_empty]
        exact ((Bool.and_eq_true _ _).mp hx).1) rest]
    | false =>
      rw [addReplace_cons_nomatch hm]
      have hnp : (r.oldPath == m) = false := (matchRep_empty m r).symm.trans hm
      unfold edgeFilter at ih ⊢
      simp only [List.filter, show (r.oldPath == m && r.oldVers == "") = false from by
        rw [hnp]; rfl]
      exact ih

theorem edgeFilter_addReplace_other (rs : List ModReplace) {m m' : String}
    (hne : m' ≠ m) (np : String) :
    edgeFilter (addReplace rs m "" np "") m' = edgeFilter rs m' := by
  have hmm : (m == m') = false := by
    cases hb : m == m' with
    | false => rfl
    | true =>
      have h2 : m = m' := by simpa using hb
      exact absurd h2.symm hne
  have hnew : ((⟨m, "", np, ""⟩ : ModReplace).oldPath == m'
      && (⟨m, "", np, ""⟩ : ModReplace).oldVers == "") = false := by
    simp only
    simp [hmm]
  induction rs with
  | nil =>
    unfold edgeFilter
    simp [addReplace, List.filter, hmm]
  | cons r rest ih =>
    cases hm : matchRep m "" r with
    | true =>
      have hrm : r.oldPath = m := by
        have := (matchRep_empty m r).symm.trans hm
        simpa using this
      have hr : (r.oldPath == m' && r.oldVers == "") = false := by
        have h1 : (r.oldPath == m') = false := by
          cases hb : r.oldPath == m' with
          | false => rfl
          | true =>
            have h2 : r.oldPath = m' := by simpa using hb
            exact absurd (h2.symm.trans hrm) hne
        rw [h1]
        rfl
      rw [show addReplace (r :: rest) m "" np ""
            = ⟨m, "", np, ""⟩ :: rest.filter (fun s => !(matchRep m "" s))
          from by conv_lhs => rw [addReplace]; rw [if_pos hm]]
      unfold edgeFilter
      simp only [List.filter, hnew, hr]
      exact filter_neg_filter_of_disjoint _ _ (fun x hx => by
        have hxp : x.oldPath = m' := by
          have := ((Bool.and_eq_true _ _).mp hx).1
          simpa using this
        rw [matchRep_empty]
        cases hb : x.oldPath == m with
        | false => rfl
        | true =>
          have h2 : x.oldPath = m := by simpa using hb
          exact absurd (hxp.symm.trans h2) hne) rest
    | false =>
      rw [addReplace_cons_nomatch hm]
      unfold edgeFilter at ih ⊢
      cases hr : (r.oldPath == m' && r.oldVers == "") with
      | true => simp [List.filter, hr, ih]
      | false => simp [List.filter, hr, ih]

theorem goModEditReplace_mod (work : String) (m : Modfile) (mp dstRel : String) (fs : FS) :
    (goModEditReplace work m mp dstRel fs).2.1
      = { m with replaces := addReplace m.replaces mp "" dstRel "" } := by
  unfold goModEditReplace
  dsimp only

theorem replaceFn_ok_mod {work rmd mp sd : String} {fs : FS} {m : Modfile}
    {fs' : FS} {m' : Modfile} {evs : List Ev}
    (h : replaceFn work rmd mp sd fs m = (fs', m', evs, none)) :
    m' = { m with replaces := (addReplace m.replaces mp ""
            ("./" ++ filepathJoin ["mod", mp]) "") } := by
  unfold replaceFn at h
  dsimp only at h
  split at h
  · simp only [Prod.mk.injEq] at h
    exact Option.noConfusion h.2.2.2
  · rcases he : goModEditReplace work m mp ("./" ++ filepathJoin ["mod", mp]) fs
      with ⟨fs1, m1, e⟩
    rw [he] at h
    dsimp only at h
    simp only [Prod.mk.injEq] at h
    have hm1 := goModEditReplace_mod work m mp ("./" ++ filepathJoin ["mod", mp]) fs
    rw [he] at hm1
    rw [← h.2.1]
    exact hm1
  · rcases hc : copyTree fs (strToPath sd) (strToPath (filepathJoin [rmd, mp]))
      with ⟨fs1, e1⟩
    rw [hc] at h
    cases e1 with
    | some e =>
      dsimp only at h
      simp only [Prod.mk.injEq] at h
      exact Option.noConfusion h.2.2.2
    | none =>
      dsimp only at h
      rcases he : goModEditReplace work m mp ("./" ++ filepathJoin ["mod", mp]) fs1
        with ⟨fs2, m1, e⟩
      rw [he] at h
      dsimp only at h
      simp only [Prod.mk.injEq] at h
      have hm1 := goModEditReplace_mod work m mp ("./" ++ filepathJoin ["mod", mp]) fs1
      rw [he] at hm1
      rw [← h.2.1]
      exact hm1

theorem applyItemVisit_ok_mod (env : Env) (work rmd : String) (st : LoopSt)
    (r : ReplaceItem) (st' : LoopSt)
    (h : applyItemVisit env work rmd st r = (st', none)) :
    (st.visited.contains r.Mod = true → st' = st) ∧
    (st.visited.contains r.Mod = false →
      st'.mod = { st.mod with replaces := (addReplace st.mod.replaces r.Mod ""
          ("./" ++ filepathJoin ["mod", r.Mod]) "") } ∧
      st'.visited = r.Mod :: st.visited) := by
  unfold applyItemVisit at h
  constructor
  · intro hv
    rw [if_pos hv] at h
    rw [Prod.mk.injEq] at h
    exact h.1.symm
  · intro hv
    rw [if_neg (by rw [hv]; simp)] at h
    split at h
    · rw [Prod.mk.injEq] at h
      exact Option.noConfusion h.2
    · split at h
      · rw [Prod.mk.injEq] at h
        exact Option.noConfusion h.2
      · rename_i srcDir hsd
        split at h
        · rw [Prod.mk.injEq] at h
          exact Option.noConfusion h.2
        · rename_i fs' m' evs hrf
          rw [Prod.mk.injEq] at h
          rw [← h.1]
          dsimp only
          exact ⟨replaceFn_ok_mod hrf, rfl⟩

theorem applyItem_ok_mod (env : Env) (work rmd : String) (st : LoopSt)
    (r : ReplaceItem) (st' : LoopSt)
    (h : applyItem env work rmd st r = (st', none)) :
    (st.visited.contains r.Mod = true →
      st'.mod = st.mod ∧ st'.visited = st.visited) ∧
    (st.visited.contains r.Mod = false →
      st'.mod = { st.mod with replaces := (addReplace st.mod.replaces r.Mod ""
          ("./" ++ filepathJoin ["mod", r.Mod]) "") } ∧
      st'.visited = r.Mod :: st.visited) := by
  unfold applyItem at h
  rcases hv : applyItemVisit env work rmd st r with ⟨stv, ev⟩
  rw [hv] at h
  cases ev with
  | some e =>
    rw [Prod.mk.injEq] at h
    exact Option.noConfusion h.2
  | none =>
    dsimp only at h
    have hV := applyItemVisit_ok_mod env work rmd st r stv hv
    have hW := applyItemWrite_log rmd stv r
    rw [h] at hW
    constructor
    · intro hc
      have hst := hV.1 hc
      rw [hst] at hW
      exact ⟨hW.2.2.2, hW.2.2.1⟩
    · intro hc
      obtain ⟨hm, hvis⟩ := hV.2 hc
      exact ⟨hW.2.2.2.trans hm, hW.2.2.1.trans hvis⟩

theorem contains_false_not_mem {l : List String} {m : String}
    (h : l.contains m = false) : m ∉ l := by
  intro hmem
  rw [List.contains_eq_any_beq] at h
  have : l.any (fun x => m == x) = true := List.any_of_mem hmem (by simp)
  rw [this] at h
  exact Bool.noConfusion h

theorem contains_true_mem {l : List String} {m : String}
    (h : l.contains m = true) : m ∈ l := by
  rw [List.contains_eq_any_beq, List.any_eq_true] at h
  obtain ⟨x, hx, hbeq⟩ := h
  have : m = x := by simpa using hbeq
  exact this ▸ hx

theorem runItems_edges (env : Env) (work rmd : String) :
    ∀ (items : List ReplaceItem) (st st' : LoopSt),
    runItems env work rmd st items = (st', none) →
    st'.mod.moduleName = st.mod.moduleName ∧
    (∀ m, m ∈ st.visited → m ∈ st'.visited) ∧
    (∀ r, r ∈ items → r.Mod ∈ st'.visited) ∧
    ((∀ m, m ∈ st.visited →
        edgeFilter st.mod.replaces m = [⟨m, "", "./" ++ filepathJoin ["mod", m], ""⟩]) →
      ∀ m, m ∈ st'.visited →
        edgeFilter st'.mod.replaces m = [⟨m, "", "./" ++ filepathJoin ["mod", m], ""⟩]) := by
  intro items
  induction items with
  | nil =>
    intro st st' h
    unfold runItems at h
    rw [Prod.mk.injEq] at h
    rw [← h.1]
    exact ⟨rfl, fun m hm => hm, fun r hr => absurd hr (List.not_mem_nil r),
      fun hinv => hinv⟩
  | cons r rest ih =>
    intro st st' h
    unfold runItems at h
    rcases ha : applyItem env work rmd st r with ⟨st1, e⟩
    rw [ha] at h
    cases e with
    | some e2 =>
      rw [Prod.mk.injEq] at h
      exact Option.noConfusion h.2
    | none =>
      have hrest := ih st1 st' h
      have hA := applyItem_ok_mod env work rmd st r st1 ha
      cases hc : st.visited.contains r.Mod with
      | true =>
        obtain ⟨hm, hvis⟩ := hA.1 hc
        refine ⟨hrest.1.trans (by rw [hm]), ?_, ?_, ?_⟩
        · intro m hmem
          exact hrest.2.1 m (by rw [hvis]; exact hmem)
        · intro r' hr'
          rcases List.mem_cons.mp hr' with h1 | h1
          · subst h1
            exact hrest.2.1 _ (by rw [hvis]; exact contains_true_mem hc)
          · exact hrest.2.2.1 r' h1
        · intro hinv
          refine hrest.2.2.2 ?_
          intro m hmem
          rw [hm]
          exact hinv m (by rw [← hvis]; exact hmem)
      | false =>
        obtain ⟨hm, hvis⟩ := hA.2 hc
        have hnot := contains_false_not_mem hc
        refine ⟨hrest.1.trans (by rw [hm]), ?_, ?_, ?_⟩
        · intro m hmem
          exact hrest.2.1 m (by rw [hvis]; exact List.mem_cons_of_mem _ hmem)
        · intro r' hr'
          rcases List.mem_cons.mp hr' with h1 | h1
          · subst h1
            exact hrest.2.1 _ (by rw [hvis]; exact List.mem_cons_self _ _)
          · exact hrest.2.2.1 r' h1
        · intro hinv
          refine hrest.2.2.2 ?_
          intro m hmem
          rw [hvis] at hmem
          rcases List.mem_cons.mp hmem with h1 | h1
          · subst h1
            rw [hm]
            exact edgeFilter_addReplace_self st.mod.replaces r.Mod _
          · have hne : m ≠ r.Mod := fun hcon => hnot (hcon ▸ h1)
            rw [hm]
            rw [edgeFilter_addReplace_other st.mod.replaces hne]
            exact hinv m h1

theorem phaseManifest_ok_name {env : Env} {work : String} {fs fs1 : FS}
    {m : Modfile} {omp : String}
    (h : phaseManifest env work fs = (fs1, m, omp, none)) :
    m.moduleName = "uwagaki_" ++ env.nowStamp := by
  unfold phaseManifest at h
  by_cases hcg : env.currentGoMod ≠ ""
  · rw [if_pos hcg] at h
    cases hom : env.origMod with
    | none =>
      rw [hom] at h
      dsimp only at h
      simp only [Prod.mk.injEq] at h
      exact Option.noConfusion h.2.2.2
    | some om =>
      rw [hom] at h
      dsimp only at h
      split at h
      · simp only [Prod.mk.injEq] at h
        exact Option.noConfusion h.2.2.2
      · split at h
        · split at h
          · simp only [Prod.mk.injEq] at h
            exact Option.noConfusion h.2.2.2
          · simp only [Prod.mk.injEq] at h
            rw [← h.2.1]
        · simp only [Prod.mk.injEq] at h
          rw [← h.2.1]
  · rw [if_neg hcg] at h
    split at h
    · dsimp only at h
      split at h
      · simp only [Prod.mk.injEq] at h
        exact Option.noConfusion h.2.2.2
      · simp only [Prod.mk.injEq] at h
        rw [← h.2.1]
    · simp only [Prod.mk.injEq] at h
      exact Option.noConfusion h.2.2.2

theorem phaseOrig_ok_name {env : Env} {work omp : String} {fs : FS}
    {fs2 : FS} {m m2 : Modfile}
    (h : phaseOrig env work omp fs m = (fs2, m2, none)) :
    m2.moduleName = m.moduleName := by
  unfold phaseOrig at h
  split at h
  · simp only [Prod.mk.injEq] at h
    rw [← h.2.1]
  · dsimp only at h
    split at h
    · simp only [Prod.mk.injEq] at h
      exact Option.noConfusion h.2.2
    · split at h
      · simp only [Prod.mk.injEq] at h
        exact Option.noConfusion h.2.2
      · simp only [Prod.mk.injEq] at h
        rw [← h.2.1]

/-- C7 (amended): on a successful run the workspace manifest carries the
    generated identity `uwagaki_<timestamp>` and, for every overridden
    module, exactly one (unversioned) redirect edge mapping it to
    `./mod/<module>` under the workspace; the claimed distinctness from any
    pre-existing identity does not hold in general (see the
    counterexample). -/
theorem C7_manifest_roundtrip (env : Env) (fs0 : FS) (paths : List String)
    (replaces : List ReplaceItem)
    (hok : (createEnvironment env fs0 paths replaces).err = none) :
    (createEnvironment env fs0 paths replaces).mod.moduleName
      = "uwagaki_" ++ env.nowStamp ∧
    ∀ r ∈ replaces,
      edgeFilter (createEnvironment env fs0 paths replaces).mod.replaces r.Mod
        = [⟨r.Mod, "", "./" ++ filepathJoin ["mod", r.Mod], ""⟩] := by
  obtain ⟨hmk, fsW, fs1, m1, omp, fs2, m2, st, nps, h1, h2, h3, h4, h5, h6, hfin⟩ :=
    createEnvironment_ok_decomp env fs0 paths replaces hok
  have hname1 := phaseManifest_ok_name h2
  have hname2 := phaseOrig_ok_name h4
  have hrun := runItems_edges env env.workRoot (filepathJoin [env.workRoot, "mod"])
    replaces ⟨fs2, m2, [], []⟩ st h5
  rw [hfin]
  dsimp only
  constructor
  · rw [hrun.1]
    dsimp only
    rw [hname2, hname1]
  · intro r hr
    have hmem := hrun.2.2.1 r hr
    exact hrun.2.2.2 (fun m hm => absurd hm (List.not_mem_nil m)) r.Mod hmem

/-- Witness for C7: a run with two items against one module yields the
    generated manifest name and exactly one redirect edge for it. -/
theorem C7_manifest_roundtrip_witness :
    ((createEnvironment envA fsA [] [itemA, itemB]).err = none) ∧
    ((createEnvironment envA fsA [] [itemA, itemB]).mod.moduleName
        = "uwagaki_" ++ envA.nowStamp ∧
      ∀ r ∈ [itemA, itemB],
        edgeFilter (createEnvironment envA fsA [] [itemA, itemB]).mod.replaces r.Mod
          = [⟨r.Mod, "", "./" ++ filepathJoin ["mod", r.Mod], ""⟩]) :=
  ⟨by decide, C7_manifest_roundtrip envA fsA [] [itemA, itemB] (by decide)⟩

/-- C7 counterexample: the generated identity `uwagaki_<timestamp>` is not
    collision-resistant and need not differ from the original manifest's
    identity: a caller manifest already named `uwagaki_<that timestamp>`
    yields a successful run whose workspace identity equals the original
    one. -/
theorem C7_counterexample :
    (createEnvironment envC7 fsA [] []).err = none ∧
    envC7.origMod = some omC7 ∧
    (createEnvironment envC7 fsA [] []).mod.moduleName = omC7.moduleName := by
  decide

theorem copyEntries_git_lookup (dst : SPath) (n : Nat) (rest' : List String)
    (hne : rest' ≠ []) :
    ∀ (l : List (SPath × Nat)) (fs : FS),
    ((copyEntries dst n fs l).1).lookupFile (dst ++ ".git" :: rest')
      = fs.lookupFile (dst ++ ".git" :: rest') := by
  intro l
  induction l with
  | nil => intro fs; rfl
  | cons e l' ih =>
    intro fs
    rcases e with ⟨q, i⟩
    unfold copyEntries
    dsimp only
    split
    · exact ih fs
    · rename_i hskip
      have hneq : dst ++ ".git" :: rest' ≠ dst ++ q.drop n := by
        intro hcon
        have hrel : (".git" :: rest' : List String) = q.drop n :=
          List.append_cancel_left hcon
        refine hskip ⟨by rw [← hrel]; rfl, ?_⟩
        rw [← hrel]
        simp only [List.length_cons]
        have : 0 < rest'.length := List.length_pos.mpr hne
        omega
      rcases hm : fs.mkdirAll (dst ++ q.drop n).dropLast with ⟨fs1, e1⟩
      have hf1 : fs1.files = fs.files := by
        have := (mkdirAll_files fs ((dst ++ q.drop n).dropLast)).1
        rw [hm] at this
        exact this
      cases e1 with
      | some e2 =>
        dsimp only
        unfold FS.lookupFile
        rw [hf1]
      | none =>
        dsimp only
        rcases hs : fs1.store.lookup i with _ | c
        · dsimp only
          unfold FS.lookupFile
          rw [hf1]
        · dsimp only
          rcases hw : fs1.writeFile (dst ++ q.drop n) c with ⟨fs2, e3⟩
          have hlo := writeFile_lookup_other fs1 c hneq
          rw [hw] at hlo
          dsimp only at hlo
          cases e3 with
          | some e4 =>
            dsimp only
            rw [hlo]
            unfold FS.lookupFile
            rw [hf1]
          | none =>
            dsimp only
            rw [ih fs2, hlo]
            unfold FS.lookupFile
            rw [hf1]

theorem copyTree_git_lookup (fs : FS) (src dst : SPath) (rest' : List String)
    (hne : rest' ≠ []) :
    ((copyTree fs src dst).1).lookupFile (dst ++ ".git" :: rest')
      = fs.lookupFile (dst ++ ".git" :: rest') := by
  unfold copyTree
  split
  · exact copyEntries_git_lookup dst src.length rest' hne _ fs
  · rfl

/-- C8: materializing a module discriminates on `os.Stat` of the
    destination: an existing regular file is a fatal not-a-directory error,
    an existing directory skips the tree copy entirely (only the manifest
    edit runs), and only a missing destination triggers the walk-and-copy,
    whose per-entry skip leaves everything strictly below a top-level
    `.git` uncopied. -/
theorem C8_replace_stat (work rmd mp sd : String) (fs : FS) (m : Modfile) :
    (fs.stat (strToPath (filepathJoin [rmd, mp])) = .file →
      replaceFn work rmd mp sd fs m = (fs, m, [], some .notDir)) ∧
    (fs.stat (strToPath (filepathJoin [rmd, mp])) = .dir →
      replaceFn work rmd mp sd fs m
        = ((goModEditReplace work m mp ("./" ++ filepathJoin ["mod", mp]) fs).1,
           (goModEditReplace work m mp ("./" ++ filepathJoin ["mod", mp]) fs).2.1,
           [],
           (goModEditReplace work m mp ("./" ++ filepathJoin ["mod", mp]) fs).2.2)) ∧
    (fs.stat (strToPath (filepathJoin [rmd, mp])) = .notExist →
      (replaceFn work rmd mp sd fs m).2.2.1 = [Ev.treeCopy mp]) ∧
    (∀ (src dstp : SPath) (rest' : List String), rest' ≠ [] →
      ((copyTree fs src dstp).1).lookupFile (dstp ++ ".git" :: rest')
        = fs.lookupFile (dstp ++ ".git" :: rest')) := by
  refine ⟨?_, ?_, ?_,
    fun src dstp rest' hne => copyTree_git_lookup fs src dstp rest' hne⟩
  · intro hstat
    unfold replaceFn
    dsimp only
    rw [hstat]
  · intro hstat
    unfold replaceFn
    dsimp only
    rw [hstat]
  · intro hstat
    unfold replaceFn
    dsimp only
    rw [hstat]
    rcases copyTree fs (strToPath sd) (strToPath (filepathJoin [rmd, mp]))
      with ⟨fs1, e1⟩
    cases e1 with
    | some e2 => rfl
    | none => rfl

/-- Witness for C8: the three stat outcomes on concrete pre-states, and the
    `.git` subtree of a concrete copy left untouched. -/
theorem C8_replace_stat_witness :
    (fsC8f.stat (strToPath (filepathJoin ["/w/mod", "example.com/m"])) = .file ∧
      replaceFn "/w" "/w/mod" "example.com/m" "/cache/example.com/m" fsC8f emptyModfile
        = (fsC8f, emptyModfile, [], some .notDir)) ∧
    (fsC8d.stat (strToPath (filepathJoin ["/w/mod", "example.com/m"])) = .dir ∧
      replaceFn "/w" "/w/mod" "example.com/m" "/cache/example.com/m" fsC8d emptyModfile
        = ((goModEditReplace "/w" emptyModfile "example.com/m"
              ("./" ++ filepathJoin ["mod", "example.com/m"]) fsC8d).1,
           (goModEditReplace "/w" emptyModfile "example.com/m"
              ("./" ++ filepathJoin ["mod", "example.com/m"]) fsC8d).2.1,
           [],
           (goModEditReplace "/w" emptyModfile "example.com/m"
              ("./" ++ filepathJoin ["mod", "example.com/m"]) fsC8d).2.2)) ∧
    (fsA.stat (strToPath (filepathJoin ["/w/mod", "example.com/m"])) = .notExist ∧
      (replaceFn "/w" "/w/mod" "example.com/m" "/cache/example.com/m" fsA
          emptyModfile).2.2.1
        = [Ev.treeCopy "example.com/m"]) ∧
    ((copyTree fsA ["cache", "example.com", "m"]
        ["w", "mod", "example.com", "m"]).1).lookupFile
        (["w", "mod", "example.com", "m"] ++ ".git" :: ["config"])
      = fsA.lookupFile (["w", "mod", "example.com", "m"] ++ ".git" :: ["config"]) :=
  ⟨⟨by decide, (C8_replace_stat "/w" "/w/mod" "example.com/m" "/cache/example.com/m"
      fsC8f emptyModfile).1 (by decide)⟩,
   ⟨by decide, (C8_replace_stat "/w" "/w/mod" "example.com/m" "/cache/example.com/m"
      fsC8d emptyModfile).2.1 (by decide)⟩,
   ⟨by decide, (C8_replace_stat "/w" "/w/mod" "example.com/m" "/cache/example.com/m"
      fsA emptyModfile).2.2.1 (by decide)⟩,
   (C8_replace_stat "/w" "/w/mod" "example.com/m" "/cache/example.com/m"
      fsA emptyModfile).2.2.2 ["cache", "example.com", "m"]
      ["w", "mod", "example.com", "m"] ["config"] (by decide)⟩

theorem removeOp_isFile_other (fs : FS) {p q : SPath} (h : q ≠ p) :
    ((fs.removeOp p).1).isFile q = fs.isFile q := by
  unfold FS.isFile
  rw [removeOp_lookup_other fs h]

theorem mkdirAll_isFile (fs : FS) (p q : SPath) :
    ((fs.mkdirAll p).1).isFile q = fs.isFile q := by
  unfold FS.isFile FS.lookupFile
  rw [(mkdirAll_files fs p).1]

theorem copyEntries_isFile_mono (dst : SPath) (n : Nat) (q : SPath) :
    ∀ (l : List (SPath × Nat)) (fs : FS), fs.isFile q = true →
    ((copyEntries dst n fs l).1).isFile q = true := by
  intro l
  induction l with
  | nil => intro fs h; exact h
  | cons e l' ih =>
    intro fs h
    rcases e with ⟨qe, i⟩
    unfold copyEntries
    dsimp only
    split
    · exact ih fs h
    · rcases hm : fs.mkdirAll (dst ++ qe.drop n).dropLast with ⟨fs1, e1⟩
      have hf1 : fs1.isFile q = true := by
        have := mkdirAll_isFile fs ((dst ++ qe.drop n).dropLast) q
        rw [hm] at this
        dsimp only at this
        rw [this]
        exact h
      cases e1 with
      | some e2 => exact hf1
      | none =>
        dsimp only
        rcases hs : fs1.store.lookup i with _ | c
        · exact hf1
        · dsimp only
          rcases hw : fs1.writeFile (dst ++ qe.drop n) c with ⟨fs2, e3⟩
          have hf2 : fs2.isFile q = true := by
            have := writeFile_isFile_mono (dst ++ qe.drop n) c hf1
            rw [hw] at this
            exact this
          cases e3 with
          | some e4 => exact hf2
          | none => exact ih fs2 hf2

theorem copyTree_isFile_mono {fs : FS} (src dst : SPath) {q : SPath}
    (h : fs.isFile q = true) : ((copyTree fs src dst).1).isFile q = true := by
  unfold copyTree
  split
  · exact copyEntries_isFile_mono dst src.length q _ fs h
  · exact h

theorem goModEditReplace_isFile_mono {work : String} {m : Modfile} {mp dstRel : String}
    {fs : FS} {q : SPath} (h : fs.isFile q = true) :
    ((goModEditReplace work m mp dstRel fs).1).isFile q = true := by
  exact writeFile_isFile_mono (strToPath (filepathJoin [work, "go.mod"]))
    (formatModfile { m with replaces := (addReplace m.replaces mp "" dstRel "") }) h

theorem replaceFn_isFile_mono {work rmd mp sd : String} {fs : FS} {m : Modfile}
    {q : SPath} (h : fs.isFile q = true) :
    ((replaceFn work rmd mp sd fs m).1).isFile q = true := by
  unfold replaceFn
  dsimp only
  split
  · exact h
  · exact goModEditReplace_isFile_mono h
  · rcases hc : copyTree fs (strToPath sd) (strToPath (filepathJoin [rmd, mp]))
      with ⟨fs1, e1⟩
    have hf1 : fs1.isFile q = true := by
      have := copyTree_isFile_mono (strToPath sd) (strToPath (filepathJoin [rmd, mp])) h
      rw [hc] at this
      exact this
    cases e1 with
    | some e2 => exact hf1
    | none =>
      dsimp only
      exact goModEditReplace_isFile_mono hf1

theorem applyItemVisit_isFile_mono {env : Env} {work rmd : String} {st : LoopSt}
    {r : ReplaceItem} {st' : LoopSt}
    (h : applyItemVisit env work rmd st r = (st', none))
    {q : SPath} (hq : st.fs.isFile q = true) : st'.fs.isFile q = true := by
  unfold applyItemVisit at h
  split at h
  · rw [Prod.mk.injEq] at h
    rw [← h.1]
    exact hq
  · split at h
    · rw [Prod.mk.injEq] at h
      exact Option.noConfusion h.2
    · split at h
      · rw [Prod.mk.injEq] at h
        exact Option.noConfusion h.2
      · rename_i srcDir hsd
        split at h
        · rw [Prod.mk.injEq] at h
          exact Option.noConfusion h.2
        · rename_i fs' m' evs hrf
          rw [Prod.mk.injEq] at h
          rw [← h.1]
          dsimp only
          have := @replaceFn_isFile_mono work rmd r.Mod srcDir st.fs st.mod q hq
          rw [hrf] at this
          exact this

theorem applyItemWrite_isFile {rmd : String} {st : LoopSt} {r : ReplaceItem}
    {st' : LoopSt} (h : applyItemWrite rmd st r = (st', none)) :
    st'.fs.isFile (strToPath (filepathJoin [rmd, r.Mod, r.Path])) = true ∧
    ∀ q, st.fs.isFile q = true → st'.fs.isFile q = true := by
  unfold applyItemWrite at h
  dsimp only at h
  rcases hm : st.fs.mkdirAll (strToPath (filepathDir (filepathJoin [rmd, r.Mod, r.Path])))
    with ⟨fs1, e1⟩
  rw [hm] at h
  cases e1 with
  | some e2 =>
    dsimp only at h
    rw [Prod.mk.injEq] at h
    exact Option.noConfusion h.2
  | none =>
    dsimp only at h
    rcases hr : fs1.removeOp (strToPath (filepathJoin [rmd, r.Mod, r.Path]))
      with ⟨fs2, eR⟩
    rw [hr] at h
    dsimp only at h
    split at h
    · rcases hw : fs2.writeFile (strToPath (filepathJoin [rmd, r.Mod, r.Path])) r.Content
        with ⟨fs3, e3⟩
      rw [hw] at h
      cases e3 with
      | some e4 =>
        dsimp only at h
        rw [Prod.mk.injEq] at h
        exact Option.noConfusion h.2
      | none =>
        dsimp only at h
        rw [Prod.mk.injEq] at h
        rw [← h.1]
        dsimp only
        constructor
        · exact writeFile_ok_isFile hw
        · intro q hq
          by_cases hqd : q = strToPath (filepathJoin [rmd, r.Mod, r.Path])
          · subst hqd
            exact writeFile_ok_isFile hw
          · have hq1 : fs1.isFile q = true := by
              have := mkdirAll_isFile st.fs
                (strToPath (filepathDir (filepathJoin [rmd, r.Mod, r.Path]))) q
              rw [hm] at this
              dsimp only at this
              rw [this]
              exact hq
            have hq2 : fs2.isFile q = true := by
              have := removeOp_lookup_other fs1 hqd
              rw [hr] at this
              dsimp only at this
              unfold FS.isFile at hq1 ⊢
              rw [this]
              exact hq1
            have := writeFile_isFile_mono
              (strToPath (filepathJoin [rmd, r.Mod, r.Path])) r.Content hq2
            rw [hw] at this
            exact this
    · rename_i hcond
      rw [Prod.mk.injEq] at h
      exact absurd (Or.inl h.2) hcond

theorem applyItem_isFile {env : Env} {work rmd : String} {st : LoopSt}
    {r : ReplaceItem} {st' : LoopSt}
    (h : applyItem env work rmd st r = (st', none)) :
    st'.fs.isFile (strToPath (filepathJoin [rmd, r.Mod, r.Path])) = true ∧
    ∀ q, st.fs.isFile q = true → st'.fs.isFile q = true := by
  unfold applyItem at h
  rcases hv : applyItemVisit env work rmd st r with ⟨stv, ev⟩
  rw [hv] at h
  cases ev with
  | some e =>
    rw [Prod.mk.injEq] at h
    exact Option.noConfusion h.2
  | none =>
    dsimp only at h
    have hW := applyItemWrite_isFile h
    exact ⟨hW.1, fun q hq => hW.2 q (applyItemVisit_isFile_mono hv hq)⟩

theorem runItems_isFile (env : Env) (work rmd : String) :
    ∀ (items : List ReplaceItem) (st st' : LoopSt),
    runItems env work rmd st items = (st', none) →
    (∀ q, st.fs.isFile q = true → st'.fs.isFile q = true) ∧
    ∀ r ∈ items,
      st'.fs.isFile (strToPath (filepathJoin [rmd, r.Mod, r.Path])) = true := by
  intro items
  induction items with
  | nil =>
    intro st st' h
    unfold runItems at h
    rw [Prod.mk.injEq] at h
    rw [← h.1]
    exact ⟨fun q hq => hq, fun r hr => absurd hr (List.not_mem_nil r)⟩
  | cons r rest ih =>
    intro st st' h
    unfold runItems at h
    rcases ha : applyItem env work rmd st r with ⟨st1, e⟩
    rw [ha] at h
    cases e with
    | some e2 =>
      rw [Prod.mk.injEq] at h
      exact Option.noConfusion h.2
    | none =>
      have hrest := ih st1 st' h
      have hA := applyItem_isFile ha
      refine ⟨fun q hq => hrest.1 q (hA.2 q hq), ?_⟩
      intro r' hr'
      rcases List.mem_cons.mp hr' with h1 | h1
      · subst h1
        exact hrest.1 _ hA.1
      · exact hrest.2 r' h1

/-- C9 (amended): each item's relative path is anchored lexically at the
    module's materialized root via `filepath.Join`, and on a successful run
    the item's file exists at that joined (cleaned) destination — but the
    join is purely lexical, so a `..`-climbing path is not rejected and the
    destination can leave the workspace (see the counterexample). -/
theorem C9_items_land_at_join (env : Env) (fs0 : FS) (paths : List String)
    (replaces : List ReplaceItem)
    (hok : (createEnvironment env fs0 paths replaces).err = none) :
    ∀ r ∈ replaces,
      (createEnvironment env fs0 paths replaces).fs.isFile
        (strToPath (filepathJoin [filepathJoin [env.workRoot, "mod"], r.Mod, r.Path]))
        = true := by
  obtain ⟨hmk, fsW, fs1, m1, omp, fs2, m2, st, nps, h1, h2, h3, h4, h5, h6, hfin⟩ :=
    createEnvironment_ok_decomp env fs0 paths replaces hok
  have hri := runItems_isFile env env.workRoot (filepathJoin [env.workRoot, "mod"])
    replaces ⟨fs2, m2, [], []⟩ st h5
  rw [hfin]
  dsimp only
  intro r hr
  exact hri.2 r hr

/-- Witness for C9: both items of a successful run are present at their
    joined destinations. -/
theorem C9_items_land_at_join_witness :
    ((createEnvironment envA fsA [] [itemA, itemB]).err = none) ∧
    ∀ r ∈ [itemA, itemB],
      (createEnvironment envA fsA [] [itemA, itemB]).fs.isFile
        (strToPath (filepathJoin [filepathJoin [envA.workRoot, "mod"], r.Mod, r.Path]))
        = true :=
  ⟨by decide, C9_items_land_at_join envA fsA [] [itemA, itemB] (by decide)⟩

/-- C9 counterexample: an item whose relative path climbs with `..` is not
    rejected: the run succeeds, the computed destination leaves the
    workspace entirely, and the write mutates the pre-existing original
    file outside the workspace. -/
theorem C9_counterexample :
    (createEnvironment envA fsA ["example.com/m/pkg"] [itemEsc]).err = none ∧
    filepathJoin [filepathJoin [envA.workRoot, "mod"], itemEsc.Mod, itemEsc.Path]
      = "/orig/a.txt" ∧
    fsA.read ["orig", "a.txt"] = some "orig-content" ∧
    (createEnvironment envA fsA ["example.com/m/pkg"] [itemEsc]).fs.read
      ["orig", "a.txt"] = some "evil" := by
  decide

theorem lookup_mem_pair {α β : Type} [BEq α] [LawfulBEq α] {l : List (α × β)} {a : α}
    {b : β} (h : List.lookup a l = some b) : (a, b) ∈ l := by
  induction l with
  | nil => exact Option.noConfusion h
  | cons e rest ih =>
    rcases e with ⟨k, v⟩
    rw [List.lookup_cons] at h
    cases hk : a == k with
    | true =>
      rw [hk] at h
      dsimp only at h
      injection h with hb
      have ha : a = k := by simpa using hk
      subst ha
      subst hb
      exact List.mem_cons_self _ _
    | false =>
      rw [hk] at h
      dsimp only at h
      exact List.mem_cons_of_mem _ (ih h)

theorem lookup_filter_self {α β : Type} [BEq α] [LawfulBEq α] (l : List (α × β))
    (p : α) : List.lookup p (l.filter (fun e => !(e.1 == p))) = none := by
  induction l with
  | nil => rfl
  | cons e rest ih =>
    rcases e with ⟨k, v⟩
    cases hk : k == p with
    | true =>
      simp only [List.filter, hk, Bool.not_true]
      exact ih
    | false =>
      simp only [List.filter, hk, Bool.not_false]
      rw [List.lookup_cons]
      have hpk : (p == k) = false := by
        cases hb : p == k with
        | false => rfl
        | true =>
          have he : p = k := by simpa using hb
          subst he
          simp at hk
      rw [hpk]
      exact ih

theorem lookup_setAssoc_self (s : List (Nat × String)) (i : Nat) (c : String) :
    List.lookup i (setAssoc s i c) = some c := by
  unfold setAssoc
  rw [List.lookup_cons]
  simp

theorem lookup_setAssoc_other (s : List (Nat × String)) {i j : Nat} (c : String)
    (h : j ≠ i) : List.lookup j (setAssoc s i c) = List.lookup j s := by
  unfold setAssoc
  rw [List.lookup_cons]
  have hj : (j == i) = false := by
    cases hb : j == i with
    | false => rfl
    | true => exact absurd (by simpa using hb) h
  rw [hj]
  dsimp only
  exact lookup_filter_ne s i j h

theorem writeFile_bounded (fs : FS) (p : SPath) (c : String) (hb : boundedCells fs) :
    boundedCells (fs.writeFile p c).1 := by
  unfold FS.writeFile
  split
  · exact hb
  · split
    · exact hb
    · split
      · exact hb
      · intro e he
        rcases List.mem_cons.mp he with h1 | h1
        · rw [h1]
          exact Nat.lt_succ_self _
        · exact Nat.lt_succ_of_lt (hb e h1)

theorem removeOp_bounded (fs : FS) (p : SPath) (hb : boundedCells fs) :
    boundedCells (fs.removeOp p).1 := by
  unfold FS.removeOp
  split
  · intro e he
    exact hb e (List.mem_of_mem_filter he)
  · split
    · split
      · exact hb
      · exact hb
    · exact hb

theorem mkdirAll_bounded (fs : FS) (p : SPath) (hb : boundedCells fs) :
    boundedCells (fs.mkdirAll p).1 := by
  unfold FS.mkdirAll
  split
  · exact hb
  · exact hb

theorem copyEntries_bounded (dst : SPath) (n : Nat) :
    ∀ (l : List (SPath × Nat)) (fs : FS), boundedCells fs →
    boundedCells (copyEntries dst n fs l).1 := by
  intro l
  induction l with
  | nil => intro fs hb; exact hb
  | cons e l' ih =>
    intro fs hb
    rcases e with ⟨qe, i⟩
    unfold copyEntries
    dsimp only
    split
    · exact ih fs hb
    · rcases hm : fs.mkdirAll (dst ++ qe.drop n).dropLast with ⟨fs1, e1⟩
      have hb1 : boundedCells fs1 := by
        have := mkdirAll_bounded fs ((dst ++ qe.drop n).dropLast) hb
        rw [hm] at this
        exact this
      cases e1 with
      | some e2 => exact hb1
      | none =>
        dsimp only
        rcases hs : fs1.store.lookup i with _ | c
        · exact hb1
        · dsimp only
          rcases hw : fs1.writeFile (dst ++ qe.drop n) c with ⟨fs2, e3⟩
          have hb2 : boundedCells fs2 := by
            have := writeFile_bounded fs1 (dst ++ qe.drop n) c hb1
            rw [hw] at this
            exact this
          cases e3 with
          | some e4 => exact hb2
          | none => exact ih fs2 hb2

theorem copyTree_bounded (fs : FS) (src dst : SPath) (hb : boundedCells fs) :
    boundedCells (copyTree fs src dst).1 := by
  unfold copyTree
  split
  · exact copyEntries_bounded dst src.length _ fs hb
  · exact hb

theorem goModEditReplace_bounded (work : String) (m : Modfile) (mp dstRel : String)
    (fs : FS) (hb : boundedCells fs) :
    boundedCells (goModEditReplace work m mp dstRel fs).1 :=
  writeFile_bounded fs (strToPath (filepathJoin [work, "go.mod"])) _ hb

theorem replaceFn_bounded (work rmd mp sd : String) (fs : FS) (m : Modfile)
    (hb : boundedCells fs) : boundedCells (replaceFn work rmd mp sd fs m).1 := by
  unfold replaceFn
  dsimp only
  split
  · exact hb
  · exact goModEditReplace_bounded work m mp _ fs hb
  · rcases hc : copyTree fs (strToPath sd) (strToPath (filepathJoin [rmd, mp]))
      with ⟨fs1, e1⟩
    have hb1 : boundedCells fs1 := by
      have := copyTree_bounded fs (strToPath sd) (strToPath (filepathJoin [rmd, mp])) hb
      rw [hc] at this
      exact this
    cases e1 with
    | some e2 => exact hb1
    | none =>
      dsimp only
      exact goModEditReplace_bounded work m mp _ fs1 hb1

theorem applyItemWrite_bounded {rmd : String} {st : LoopSt} {r : ReplaceItem}
    {st' : LoopSt} {eo : Option FsErr} (h : applyItemWrite rmd st r = (st', eo))
    (hb : boundedCells st.fs) : boundedCells st'.fs := by
  unfold applyItemWrite at h
  dsimp only at h
  rcases hm : st.fs.mkdirAll (strToPath (filepathDir (filepathJoin [rmd, r.Mod, r.Path])))
    with ⟨fs1, e1⟩
  rw [hm] at h
  have hb1 : boundedCells fs1 := by
    have := mkdirAll_bounded st.fs
      (strToPath (filepathDir (filepathJoin [rmd, r.Mod, r.Path]))) hb
    rw [hm] at this
    exact this
  cases e1 with
  | some e2 =>
    dsimp only at h
    rw [Prod.mk.injEq] at h
    rw [← h.1]
    exact hb1
  | none =>
    dsimp only at h
    rcases hr : fs1.removeOp (strToPath (filepathJoin [rmd, r.Mod, r.Path]))
      with ⟨fs2, eR⟩
    rw [hr] at h
    dsimp only at h
    have hb2 : boundedCells fs2 := by
      have := removeOp_bounded fs1 (strToPath (filepathJoin [rmd, r.Mod, r.Path])) hb1
      rw [hr] at this
      exact this
    split at h
    · rcases hw : fs2.writeFile (strToPath (filepathJoin [rmd, r.Mod, r.Path])) r.Content
        with ⟨fs3, e3⟩
      rw [hw] at h
      have hb3 : boundedCells fs3 := by
        have := writeFile_bounded fs2 (strToPath (filepathJoin [rmd, r.Mod, r.Path]))
          r.Content hb2
        rw [hw] at this
        exact this
      cases e3 with
      | some e4 =>
        dsimp only at h
        rw [Prod.mk.injEq] at h
        rw [← h.1]
        exact hb3
      | none =>
        dsimp only at h
        rw [Prod.mk.injEq] at h
        rw [← h.1]
        exact hb3
    · rw [Prod.mk.injEq] at h
      rw [← h.1]
      exact hb2

theorem applyItemVisit_bounded {env : Env} {work rmd : String} {st : LoopSt}
    {r : ReplaceItem} {st' : LoopSt} {eo : Option FsErr}
    (h : applyItemVisit env work rmd st r = (st', eo))
    (hb : boundedCells st.fs) : boundedCells st'.fs := by
  unfold applyItemVisit at h
  split at h
  · rw [Prod.mk.injEq] at h
    rw [← h.1]
    exact hb
  · split at h
    · rw [Prod.mk.injEq] at h
      rw [← h.1]
      exact hb
    · split at h
      · rw [Prod.mk.injEq] at h
        rw [← h.1]
        exact hb
      · rename_i srcDir hsd
        split at h
        · rename_i fs' m' evs e2 hrf
          rw [Prod.mk.injEq] at h
          rw [← h.1]
          dsimp only
          have := replaceFn_bounded work rmd r.Mod srcDir st.fs st.mod hb
          rw [hrf] at this
          exact this
        · rename_i fs' m' evs hrf
          rw [Prod.mk.injEq] at h
          rw [← h.1]
          dsimp only
          have := replaceFn_bounded work rmd r.Mod srcDir st.fs st.mod hb
          rw [hrf] at this
          exact this

theorem applyItem_bounded {env : Env} {work rmd : String} {st : LoopSt}
    {r : ReplaceItem} {st' : LoopSt} {eo : Option FsErr}
    (h : applyItem env work rmd st r = (st', eo))
    (hb : boundedCells st.fs) : boundedCells st'.fs := by
  unfold applyItem at h
  rcases hv : applyItemVisit env work rmd st r with ⟨stv, ev⟩
  rw [hv] at h
  have hbv := applyItemVisit_bounded hv hb
  cases ev with
  | some e =>
    dsimp only at h
    rw [Prod.mk.injEq] at h
    rw [← h.1]
    exact hbv
  | none =>
    dsimp only at h
    exact applyItemWrite_bounded h hbv

theorem runItems_bounded (env : Env) (work rmd : String) :
    ∀ (items : List ReplaceItem) (st st' : LoopSt) (eo : Option FsErr),
    runItems env work rmd st items = (st', eo) → boundedCells st.fs →
    boundedCells st'.fs := by
  intro items
  induction items with
  | nil =>
    intro st st' eo h hb
    unfold runItems at h
    rw [Prod.mk.injEq] at h
    rw [← h.1]
    exact hb
  | cons r rest ih =>
    intro st st' eo h hb
    unfold runItems at h
    rcases ha : applyItem env work rmd st r with ⟨st1, e⟩
    rw [ha] at h
    have hb1 := applyItem_bounded ha hb
    cases e with
    | some e2 =>
      rw [Prod.mk.injEq] at h
      rw [← h.1]
      exact hb1
    | none => exact ih st1 st' eo h hb1

theorem mem_contains_true {l : List String} {m : String} (h : m ∈ l) :
    l.contains m = true := by
  cases hc : l.contains m with
  | true => rfl
  | false => exact absurd h (contains_false_not_mem hc)

theorem isFile_false_lookup_none {fs : FS} {p : SPath} (h : fs.isFile p = false) :
    fs.lookupFile p = none := by
  unfold FS.isFile at h
  cases hl : fs.lookupFile p with
  | none => rfl
  | some v =>
    rw [hl] at h
    simp at h

theorem removeOp_tolerated_lookup {fs fs' : FS} {p : SPath} {eo : Option FsErr}
    (h : fs.removeOp p = (fs', eo)) (ht : eo = none ∨ eo = some FsErr.notExist) :
    fs'.lookupFile p = none := by
  unfold FS.removeOp at h
  split at h
  · rw [Prod.mk.injEq] at h
    rw [← h.1]
    show List.lookup p (List.filter (fun e => !(e.1 == p)) fs.files) = none
    exact lookup_filter_self fs.files p
  · rename_i hf
    have hf' : fs.isFile p = false := Bool.eq_false_iff.mpr hf
    split at h
    · split at h
      · rw [Prod.mk.injEq] at h
        rcases ht with ht | ht
        · rw [ht] at h
          exact Option.noConfusion h.2
        · rw [ht] at h
          injection h.2 with h3
          exact FsErr.noConfusion h3
      · rw [Prod.mk.injEq] at h
        rw [← h.1]
        exact isFile_false_lookup_none hf'
    · rw [Prod.mk.injEq] at h
      rw [← h.1]
      exact isFile_false_lookup_none hf'

theorem writeFile_fresh_lwi {fs fs' : FS} {p : SPath} {c : String}
    (h : fs.writeFile p c = (fs', none)) (hl : fs.lookupFile p = none)
    (hb : boundedCells fs) : lastWinInv p c fs' := by
  unfold FS.writeFile at h
  split at h
  · rw [Prod.mk.injEq] at h
    exact Option.noConfusion h.2
  · split at h
    · rw [Prod.mk.injEq] at h
      exact Option.noConfusion h.2
    · rw [hl] at h
      dsimp only at h
      rw [Prod.mk.injEq] at h
      rw [← h.1]
      refine ⟨fs.next, ?_, ?_, ?_, ?_, ?_⟩
      · show List.lookup p ((p, fs.next) :: fs.files) = some fs.next
        rw [List.lookup_cons]
        simp
      · exact lookup_setAssoc_self fs.store fs.next c
      · intro e he hne
        rcases List.mem_cons.mp he with h1 | h1
        · exact absurd (congrArg Prod.fst h1) hne
        · exact Nat.ne_of_lt (hb e h1)
      · exact Nat.lt_succ_self _
      · intro e he
        rcases List.mem_cons.mp he with h1 | h1
        · rw [h1]
          exact Nat.lt_succ_self _
        · exact Nat.lt_succ_of_lt (hb e h1)

theorem applyItemWrite_lwi {rmd : String} {st : LoopSt} {r : ReplaceItem}
    {st' : LoopSt} (h : applyItemWrite rmd st r = (st', none))
    (hb : boundedCells st.fs) :
    lastWinInv (strToPath (filepathJoin [rmd, r.Mod, r.Path])) r.Content st'.fs := by
  unfold applyItemWrite at h
  dsimp only at h
  rcases hm : st.fs.mkdirAll (strToPath (filepathDir (filepathJoin [rmd, r.Mod, r.Path])))
    with ⟨fs1, e1⟩
  rw [hm] at h
  have hb1 : boundedCells fs1 := by
    have := mkdirAll_bounded st.fs
      (strToPath (filepathDir (filepathJoin [rmd, r.Mod, r.Path]))) hb
    rw [hm] at this
    exact this
  cases e1 with
  | some e2 =>
    dsimp only at h
    rw [Prod.mk.injEq] at h
    exact Option.noConfusion h.2
  | none =>
    dsimp only at h
    rcases hr : fs1.removeOp (strToPath (filepathJoin [rmd, r.Mod, r.Path]))
      with ⟨fs2, eR⟩
    rw [hr] at h
    dsimp only at h
    have hb2 : boundedCells fs2 := by
      have := removeOp_bounded fs1 (strToPath (filepathJoin [rmd, r.Mod, r.Path])) hb1
      rw [hr] at this
      exact this
    split at h
    · rename_i hcond
      have hnone : fs2.lookupFile (strToPath (filepathJoin [rmd, r.Mod, r.Path]))
          = none := removeOp_tolerated_lookup hr hcond
      rcases hw : fs2.writeFile (strToPath (filepathJoin [rmd, r.Mod, r.Path])) r.Content
        with ⟨fs3, e3⟩
      rw [hw] at h
      cases e3 with
      | some e4 =>
        dsimp only at h
        rw [Prod.mk.injEq] at h
        exact Option.noConfusion h.2
      | none =>
        dsimp only at h
        rw [Prod.mk.injEq] at h
        rw [← h.1]
        dsimp only
        exact writeFile_fresh_lwi hw hnone hb2
    · rename_i hcond
      rw [Prod.mk.injEq] at h
      exact absurd (Or.inl h.2) hcond

theorem mkdirAll_lwi {dst0 : SPath} {c : String} (fs : FS) (p : SPath)
    (hl : lastWinInv dst0 c fs) : lastWinInv dst0 c (fs.mkdirAll p).1 := by
  obtain ⟨i, h1, h2, h3, h4, h5⟩ := hl
  obtain ⟨hf, hs, hn⟩ := mkdirAll_files fs p
  refine ⟨i, ?_, ?_, ?_, ?_, ?_⟩
  · unfold FS.lookupFile
    rw [hf]
    exact h1
  · rw [hs]
    exact h2
  · rw [hf]
    exact h3
  · rw [hn]
    exact h4
  · rw [hf, hn]
    exact h5

theorem removeOp_parts (fs : FS) (p : SPath) :
    ((fs.removeOp p).1).store = fs.store ∧ ((fs.removeOp p).1).next = fs.next ∧
    ∀ e ∈ ((fs.removeOp p).1).files, e ∈ fs.files := by
  unfold FS.removeOp
  split
  · exact ⟨rfl, rfl, fun e he => List.mem_of_mem_filter he⟩
  · split
    · split
      · exact ⟨rfl, rfl, fun e he => he⟩
      · exact ⟨rfl, rfl, fun e he => he⟩
    · exact ⟨rfl, rfl, fun e he => he⟩

theorem removeOp_lwi {dst0 : SPath} {c : String} (fs : FS) {p : SPath}
    (hne : dst0 ≠ p) (hl : lastWinInv dst0 c fs) :
    lastWinInv dst0 c (fs.removeOp p).1 := by
  obtain ⟨i, h1, h2, h3, h4, h5⟩ := hl
  obtain ⟨hs, hn, hsub⟩ := removeOp_parts fs p
  refine ⟨i, ?_, ?_, ?_, ?_, ?_⟩
  · rw [removeOp_lookup_other fs hne]
    exact h1
  · rw [hs]
    exact h2
  · intro e he hne2
    exact h3 e (hsub e he) hne2
  · rw [hn]
    exact h4
  · intro e he
    rw [hn]
    exact h5 e (hsub e he)

theorem writeFile_lwi {dst0 : SPath} {c : String} (fs : FS) {p : SPath} (c2 : String)
    (hne : dst0 ≠ p) (hl : lastWinInv dst0 c fs) :
    lastWinInv dst0 c (fs.writeFile p c2).1 := by
  obtain ⟨i, h1, h2, h3, h4, h5⟩ := hl
  unfold FS.writeFile
  split
  · exact ⟨i, h1, h2, h3, h4, h5⟩
  · split
    · exact ⟨i, h1, h2, h3, h4, h5⟩
    · rcases hlp : fs.lookupFile p with _ | j
      · dsimp only
        refine ⟨i, ?_, ?_, ?_, ?_, ?_⟩
        · show List.lookup dst0 ((p, fs.next) :: fs.files) = some i
          rw [List.lookup_cons]
          have hdp : (dst0 == p) = false := by
            cases hbq : dst0 == p with
            | false => rfl
            | true => exact absurd (by simpa using hbq) hne
          rw [hdp]
          exact h1
        · show List.lookup i (setAssoc fs.store fs.next c2) = some c
          rw [lookup_setAssoc_other fs.store c2 (Nat.ne_of_lt h4)]
          exact h2
        · intro e he hne2
          rcases List.mem_cons.mp he with he1 | he1
          · rw [he1]
            exact (Nat.ne_of_lt h4).symm
          · exact h3 e he1 hne2
        · exact Nat.lt_succ_of_lt h4
        · intro e he
          rcases List.mem_cons.mp he with he1 | he1
          · rw [he1]
            exact Nat.lt_succ_self _
          · exact Nat.lt_succ_of_lt (h5 e he1)
      · dsimp only
        have hj : j ≠ i := by
          have hmem : (p, j) ∈ fs.files := lookup_mem_pair hlp
          exact h3 (p, j) hmem (Ne.symm hne)
        refine ⟨i, h1, ?_, h3, h4, h5⟩
        show List.lookup i (setAssoc fs.store j c2) = some c
        rw [lookup_setAssoc_other fs.store c2 (Ne.symm hj)]
        exact h2

theorem applyItemVisit_contains_eq {env : Env} {work rmd : String} {st : LoopSt}
    {r : ReplaceItem} (hc : st.visited.contains r.Mod = true) :
    applyItemVisit env work rmd st r = (st, none) := by
  unfold applyItemVisit
  rw [if_pos hc]

theorem applyItem_lwi {env : Env} {work rmd : String} {st : LoopSt} {r : ReplaceItem}
    {st' : LoopSt} {dst0 : SPath} {c : String}
    (h : applyItem env work rmd st r = (st', none))
    (hc : st.visited.contains r.Mod = true)
    (hne : dst0 ≠ strToPath (filepathJoin [rmd, r.Mod, r.Path]))
    (hl : lastWinInv dst0 c st.fs) :
    lastWinInv dst0 c st'.fs ∧ st'.visited = st.visited := by
  unfold applyItem at h
  rw [applyItemVisit_contains_eq hc] at h
  dsimp only at h
  unfold applyItemWrite at h
  dsimp only at h
  rcases hm : st.fs.mkdirAll (strToPath (filepathDir (filepathJoin [rmd, r.Mod, r.Path])))
    with ⟨fs1, e1⟩
  rw [hm] at h
  have hl1 : lastWinInv dst0 c fs1 := by
    have := mkdirAll_lwi st.fs
      (strToPath (filepathDir (filepathJoin [rmd, r.Mod, r.Path]))) hl
    rw [hm] at this
    exact this
  cases e1 with
  | some e2 =>
    dsimp only at h
    rw [Prod.mk.injEq] at h
    exact Option.noConfusion h.2
  | none =>
    dsimp only at h
    rcases hr : fs1.removeOp (strToPath (filepathJoin [rmd, r.Mod, r.Path]))
      with ⟨fs2, eR⟩
    rw [hr] at h
    dsimp only at h
    have hl2 : lastWinInv dst0 c fs2 := by
      have := removeOp_lwi fs1 hne hl1
      rw [hr] at this
      exact this
    split at h
    · rcases hw : fs2.writeFile (strToPath (filepathJoin [rmd, r.Mod, r.Path])) r.Content
        with ⟨fs3, e3⟩
      rw [hw] at h
      cases e3 with
      | some e4 =>
        dsimp only at h
        rw [Prod.mk.injEq] at h
        exact Option.noConfusion h.2
      | none =>
        dsimp only at h
        rw [Prod.mk.injEq] at h
        constructor
        · rw [← h.1]
          dsimp only
          have := writeFile_lwi fs2 r.Content hne hl2
          rw [hw] at this
          exact this
        · rw [← h.1]
    · rename_i hcond
      rw [Prod.mk.injEq] at h
      exact absurd (Or.inl h.2) hcond

theorem runItems_lwi (env : Env) (work rmd : String) (dst0 : SPath) (c : String) :
    ∀ (items : List ReplaceItem) (st st' : LoopSt),
    runItems env work rmd st items = (st', none) →
    (∀ r ∈ items, st.visited.contains r.Mod = true) →
    (∀ r ∈ items, dst0 ≠ strToPath (filepathJoin [rmd, r.Mod, r.Path])) →
    lastWinInv dst0 c st.fs → lastWinInv dst0 c st'.fs := by
  intro items
  induction items with
  | nil =>
    intro st st' h _ _ hl
    unfold runItems at h
    rw [Prod.mk.injEq] at h
    rw [← h.1]
    exact hl
  | cons r rest ih =>
    intro st st' h hvis hne hl
    unfold runItems at h
    rcases ha : applyItem env work rmd st r with ⟨st1, e⟩
    rw [ha] at h
    cases e with
    | some e2 =>
      rw [Prod.mk.injEq] at h
      exact Option.noConfusion h.2
    | none =>
      obtain ⟨hl1, hv1⟩ := applyItem_lwi ha (hvis r (List.mem_cons_self r rest))
        (hne r (List.mem_cons_self r rest)) hl
      exact ih st1 st' h
        (fun r' hr' => by rw [hv1]; exact hvis r' (List.mem_cons_of_mem r hr'))
        (fun r' hr' => hne r' (List.mem_cons_of_mem r hr')) hl1

theorem runItems_append (env : Env) (work rmd : String) :
    ∀ (l1 l2 : List ReplaceItem) (st st' : LoopSt),
    runItems env work rmd st (l1 ++ l2) = (st', none) →
    ∃ stm, runItems env work rmd st l1 = (stm, none) ∧
      runItems env work rmd stm l2 = (st', none) := by
  intro l1
  induction l1 with
  | nil =>
    intro l2 st st' h
    exact ⟨st, rfl, h⟩
  | cons r l1' ih =>
    intro l2 st st' h
    rw [List.cons_append] at h
    unfold runItems at h
    rcases ha : applyItem env work rmd st r with ⟨st1, e⟩
    rw [ha] at h
    cases e with
    | some e2 =>
      rw [Prod.mk.injEq] at h
      exact Option.noConfusion h.2
    | none =>
      obtain ⟨stm, hh1, hh2⟩ := ih l2 st1 st' h
      refine ⟨stm, ?_, hh2⟩
      unfold runItems
      rw [ha]
      exact hh1

theorem writeGoMod_bounded {work : String} {m : Modfile} {fs fs' : FS}
    {eo : Option FsErr} (h : writeGoMod work m fs = (fs', eo))
    (hb : boundedCells fs) : boundedCells fs' := by
  unfold writeGoMod at h
  have := writeFile_bounded fs (strToPath (filepathJoin [work, "go.mod"]))
    (formatModfile m) hb
  rw [h] at this
  exact this

theorem phaseManifest_bounded {env : Env} {work : String} {fs fs1 : FS} {m : Modfile}
    {omp : String} {eo : Option FsErr}
    (h : phaseManifest env work fs = (fs1, m, omp, eo)) (hb : boundedCells fs) :
    boundedCells fs1 := by
  unfold phaseManifest at h
  by_cases hcg : env.currentGoMod ≠ ""
  · rw [if_pos hcg] at h
    cases hom : env.origMod with
    | none =>
      rw [hom] at h
      dsimp only at h
      simp only [Prod.mk.injEq] at h
      rw [← h.1]
      exact hb
    | some om =>
      rw [hom] at h
      dsimp only at h
      split at h
      · rename_i fsw e hwg
        simp only [Prod.mk.injEq] at h
        rw [← h.1]
        exact writeGoMod_bounded hwg hb
      · rename_i fsw hwg
        have hbw : boundedCells fsw := writeGoMod_bounded hwg hb
        split at h
        · rename_i sum hgs
          split at h
          · rename_i fs2 e hws
            simp only [Prod.mk.injEq] at h
            rw [← h.1]
            have := writeFile_bounded fsw (strToPath (filepathJoin [work, "go.sum"]))
              sum hbw
            rw [hws] at this
            exact this
          · rename_i fs2 hws
            simp only [Prod.mk.injEq] at h
            rw [← h.1]
            have := writeFile_bounded fsw (strToPath (filepathJoin [work, "go.sum"]))
              sum hbw
            rw [hws] at this
            exact this
        · simp only [Prod.mk.injEq] at h
          rw [← h.1]
          exact hbw
  · rw [if_neg hcg] at h
    split at h
    · dsimp only at h
      split at h
      · rename_i fsw e hwg
        simp only [Prod.mk.injEq] at h
        rw [← h.1]
        exact writeGoMod_bounded hwg hb
      · rename_i fsw hwg
        simp only [Prod.mk.injEq] at h
        rw [← h.1]
        exact writeGoMod_bounded hwg hb
    · simp only [Prod.mk.injEq] at h
      rw [← h.1]
      exact hb

theorem phaseOrig_bounded {env : Env} {work omp : String} {fs fs2 : FS} {m m2 : Modfile}
    {eo : Option FsErr} (h : phaseOrig env work omp fs m = (fs2, m2, eo))
    (hb : boundedCells fs) : boundedCells fs2 := by
  unfold phaseOrig at h
  split at h
  · simp only [Prod.mk.injEq] at h
    rw [← h.1]
    exact hb
  · dsimp only at h
    split at h
    · rename_i fsw e hwg
      simp only [Prod.mk.injEq] at h
      rw [← h.1]
      exact writeGoMod_bounded hwg hb
    · rename_i fsw hwg
      have hbw := writeGoMod_bounded hwg hb
      split at h
      · rename_i fs2b e hw2
        simp only [Prod.mk.injEq] at h
        rw [← h.1]
        exact writeGoMod_bounded hw2 hbw
      · rename_i fs2b hw2
        simp only [Prod.mk.injEq] at h
        rw [← h.1]
        exact writeGoMod_bounded hw2 hbw

/-- C10 (amended): items are applied in list order, and the last item
    writing a given destination wins: after a successful run the file at
    `<work>/mod/<Mod>/<Path>` holds exactly that item's content, each later
    write of the loop first removing the existing entry and then writing
    fresh bytes.  The hypotheses pin down "last": no later item's
    destination cleans to the same path (distinct (Mod, Path) pairs can
    alias lexically — see the counterexample) and later items target
    already-materialized modules. -/
theorem C10_last_write_wins (env : Env) (fs0 : FS) (paths : List String)
    (l1 l2 : List ReplaceItem) (r0 : ReplaceItem)
    (hok : (createEnvironment env fs0 paths (l1 ++ r0 :: l2)).err = none)
    (hb : boundedCells fs0)
    (hvis : ∀ r ∈ l2, r.Mod ∈ (l1 ++ [r0]).map (fun x => x.Mod))
    (hne : ∀ r ∈ l2,
      strToPath (filepathJoin [filepathJoin [env.workRoot, "mod"], r0.Mod, r0.Path])
        ≠ strToPath (filepathJoin [filepathJoin [env.workRoot, "mod"], r.Mod, r.Path])) :
    (createEnvironment env fs0 paths (l1 ++ r0 :: l2)).fs.read
      (strToPath (filepathJoin [filepathJoin [env.workRoot, "mod"], r0.Mod, r0.Path]))
      = some r0.Content := by
  obtain ⟨hmk, fsW, fs1, m1, omp, fs2, m2, st, nps, h1, h2, h3, h4, h5, h6, hfin⟩ :=
    createEnvironment_ok_decomp env fs0 paths (l1 ++ r0 :: l2) hok
  rw [show l1 ++ r0 :: l2 = (l1 ++ [r0]) ++ l2 from by simp] at h5
  obtain ⟨stm, hA, hB⟩ := runItems_append env env.workRoot
    (filepathJoin [env.workRoot, "mod"]) (l1 ++ [r0]) l2 _ st h5
  obtain ⟨stm1, hA1, hA2⟩ := runItems_append env env.workRoot
    (filepathJoin [env.workRoot, "mod"]) l1 [r0] _ stm hA
  have ha0 : applyItem env env.workRoot (filepathJoin [env.workRoot, "mod"]) stm1 r0
      = (stm, none) := by
    unfold runItems at hA2
    rcases ha : applyItem env env.workRoot (filepathJoin [env.workRoot, "mod"]) stm1 r0
      with ⟨sta, ea⟩
    rw [ha] at hA2
    cases ea with
    | some e2 =>
      rw [Prod.mk.injEq] at hA2
      exact Option.noConfusion hA2.2
    | none =>
      unfold runItems at hA2
      rw [Prod.mk.injEq] at hA2
      rw [hA2.1]
  have hbW : boundedCells fsW := by
    have := mkdirAll_bounded fs0 (strToPath env.workRoot) hb
    rw [h1] at this
    exact this
  have hbf1 : boundedCells fs1 := phaseManifest_bounded h2 hbW
  have hbf2 : boundedCells fs2 := phaseOrig_bounded h4 hbf1
  have hbm1 : boundedCells stm1.fs := runItems_bounded env env.workRoot
    (filepathJoin [env.workRoot, "mod"]) l1 ⟨fs2, m2, [], []⟩ stm1 none hA1 hbf2
  have hlwim : lastWinInv
      (strToPath (filepathJoin [filepathJoin [env.workRoot, "mod"], r0.Mod, r0.Path]))
      r0.Content stm.fs := by
    unfold applyItem at ha0
    rcases hv : applyItemVisit env env.workRoot (filepathJoin [env.workRoot, "mod"])
      stm1 r0 with ⟨stv, ev⟩
    rw [hv] at ha0
    cases ev with
    | some e =>
      rw [Prod.mk.injEq] at ha0
      exact Option.noConfusion ha0.2
    | none =>
      dsimp only at ha0
      have hbv : boundedCells stv.fs := applyItemVisit_bounded hv hbm1
      exact applyItemWrite_lwi ha0 hbv
  have hedges := runItems_edges env env.workRoot (filepathJoin [env.workRoot, "mod"])
    (l1 ++ [r0]) ⟨fs2, m2, [], []⟩ stm hA
  have hvisl2 : ∀ r ∈ l2, stm.visited.contains r.Mod = true := by
    intro r hr
    have hmem := hvis r hr
    rw [List.mem_map] at hmem
    obtain ⟨x, hx, hxm⟩ := hmem
    have hxv := hedges.2.2.1 x hx
    rw [hxm] at hxv
    exact mem_contains_true hxv
  have hlwi := runItems_lwi env env.workRoot (filepathJoin [env.workRoot, "mod"])
    (strToPath (filepathJoin [filepathJoin [env.workRoot, "mod"], r0.Mod, r0.Path]))
    r0.Content l2 stm st hB hvisl2 (fun r hr => hne r hr) hlwim
  rw [hfin]
  dsimp only
  obtain ⟨i, hI1, hI2, _, _, _⟩ := hlwi
  unfold FS.read
  rw [show List.lookup
      (strToPath (filepathJoin [filepathJoin [env.workRoot, "mod"], r0.Mod, r0.Path]))
      st.fs.files = some i from hI1]
  exact hI2

/-- Witness for C10: with two items for (example.com/m, a.go) and a later
    item for a different file, the destination holds the second item's
    bytes. -/
theorem C10_last_write_wins_witness :
    ((createEnvironment envA fsA [] ([itemA] ++ itemA2 :: [itemB])).err = none ∧
     boundedCells fsA ∧
     (∀ r ∈ [itemB], r.Mod ∈ ([itemA] ++ [itemA2]).map (fun x => x.Mod)) ∧
     (∀ r ∈ [itemB],
       strToPath (filepathJoin [filepathJoin [envA.workRoot, "mod"], itemA2.Mod,
           itemA2.Path])
         ≠ strToPath (filepathJoin [filepathJoin [envA.workRoot, "mod"], r.Mod,
           r.Path]))) ∧
    (createEnvironment envA fsA [] ([itemA] ++ itemA2 :: [itemB])).fs.read
      (strToPath (filepathJoin [filepathJoin [envA.workRoot, "mod"], itemA2.Mod,
        itemA2.Path]))
      = some itemA2.Content :=
  ⟨⟨by decide, by unfold boundedCells; decide, by decide, by decide⟩,
   C10_last_write_wins envA fsA [] [itemA] [itemB] itemA2 (by decide)
     (by unfold boundedCells; decide) (by decide) (by decide)⟩

/-- C10 counterexample: "the same (module path, file path) pair" does not
    capture destination identity — a later item with a lexically different
    path cleaning to the same destination silently overwrites, so the file
    does not hold the content of the last item of that pair. -/
theorem C10_counterexample :
    (createEnvironment envA fsA [] [itemA, itemAlias]).err = none ∧
    itemAlias.Path ≠ itemA.Path ∧
    filepathJoin [filepathJoin [envA.workRoot, "mod"], itemAlias.Mod, itemAlias.Path]
      = filepathJoin [filepathJoin [envA.workRoot, "mod"], itemA.Mod, itemA.Path] ∧
    (createEnvironment envA fsA [] [itemA, itemAlias]).fs.read
      ["w", "mod", "example.com", "m", "a.go"] = some "sneaky" := by
  decide

theorem beq_false_of_ne {α : Type} [BEq α] [LawfulBEq α] {a b : α} (h : a ≠ b) :
    (a == b) = false := by
  cases hb : a == b with
  | false => rfl
  | true => exact absurd (by simpa using hb) h

theorem strictUnderB_append {w p : SPath} (h : strictUnderB w p = true)
    (rel : List String) : strictUnderB w (p ++ rel) = true := by
  unfold strictUnderB at h ⊢
  rw [Bool.and_eq_true] at h
  obtain ⟨h1, h2⟩ := h
  rw [Bool.and_eq_true]
  constructor
  · rw [List.isPrefixOf_iff_prefix] at h1 ⊢
    exact h1.trans (List.prefix_append p rel)
  · cases hbe : w == p ++ rel with
    | false => rfl
    | true =>
      have hw : w = p ++ rel := by simpa using hbe
      have hpre : w <+: p := List.isPrefixOf_iff_prefix.mp h1
      have hlen : w.length ≤ p.length := hpre.length_le
      have hlen2 : w.length = p.length + rel.length := by
        rw [hw, List.length_append]
      have hrel : rel = [] := List.length_eq_zero.mp (by omega)
      rw [hrel, List.append_nil] at hw
      rw [hw] at h2
      simp at h2

theorem mkdirAll_sep_frame {W : SPath} (fs : FS) (p : SPath) (hs : sepCells W fs) :
    sepCells W (fs.mkdirAll p).1 ∧
    ∀ q, ((fs.mkdirAll p).1).lookupFile q = fs.lookupFile q ∧
      ((fs.mkdirAll p).1).read q = fs.read q := by
  obtain ⟨hf, hst, hn⟩ := mkdirAll_files fs p
  constructor
  · intro e1 he1 e2 he2 h1 h2
    rw [hf] at he1 he2
    exact hs e1 he1 e2 he2 h1 h2
  · intro q
    unfold FS.read FS.lookupFile
    rw [hf, hst]
    exact ⟨rfl, rfl⟩

theorem removeOp_sep_frame {W : SPath} {fs : FS} {p : SPath}
    (hp : strictUnderB W p = true) (hs : sepCells W fs) :
    sepCells W (fs.removeOp p).1 ∧
    ∀ q, strictUnderB W q = false →
      ((fs.removeOp p).1).lookupFile q = fs.lookupFile q ∧
      ((fs.removeOp p).1).read q = fs.read q := by
  obtain ⟨hsst, hn, hsub⟩ := removeOp_parts fs p
  constructor
  · intro e1 he1 e2 he2 h1in h2out
    exact hs e1 (hsub e1 he1) e2 (hsub e2 he2) h1in h2out
  · intro q hq
    have hqp : q ≠ p := fun hcon => by
      rw [hcon, hp] at hq
      exact Bool.noConfusion hq
    have hlk := removeOp_lookup_other fs hqp
    refine ⟨hlk, ?_⟩
    unfold FS.read
    unfold FS.lookupFile at hlk
    rw [hlk, hsst]

theorem writeFile_sep_frame {W : SPath} {fs : FS} {p : SPath} (c : String)
    (hp : strictUnderB W p = true) (hb : boundedCells fs) (hs : sepCells W fs) :
    sepCells W (fs.writeFile p c).1 ∧
    ∀ q, strictUnderB W q = false →
      ((fs.writeFile p c).1).lookupFile q = fs.lookupFile q ∧
      ((fs.writeFile p c).1).read q = fs.read q := by
  unfold FS.writeFile
  split
  · exact ⟨hs, fun q hq => ⟨rfl, rfl⟩⟩
  · split
    · exact ⟨hs, fun q hq => ⟨rfl, rfl⟩⟩
    · rcases hlp : fs.lookupFile p with _ | j
      · dsimp only
        constructor
        · intro e1 he1 e2 he2 h1in h2out
          rcases List.mem_cons.mp he1 with hh1 | hh1 <;>
            rcases List.mem_cons.mp he2 with hh2 | hh2
          · rw [hh2] at h2out
            dsimp only at h2out
            rw [hp] at h2out
            exact Bool.noConfusion h2out
          · rw [hh1]
            exact (Nat.ne_of_lt (hb e2 hh2)).symm
          · rw [hh2] at h2out
            dsimp only at h2out
            rw [hp] at h2out
            exact Bool.noConfusion h2out
          · exact hs e1 hh1 e2 hh2 h1in h2out
        · intro q hq
          have hqp : q ≠ p := fun hcon => by
            rw [hcon, hp] at hq
            exact Bool.noConfusion hq
          constructor
          · show List.lookup q ((p, fs.next) :: fs.files) = fs.lookupFile q
            rw [List.lookup_cons, beq_false_of_ne hqp]
            rfl
          · show (List.lookup q ((p, fs.next) :: fs.files)).bind
                (fun i => List.lookup i (setAssoc fs.store fs.next c)) = fs.read q
            rw [List.lookup_cons, beq_false_of_ne hqp]
            dsimp only
            rcases hql : List.lookup q fs.files with _ | j2
            · unfold FS.read
              rw [hql]
              rfl
            · unfold FS.read
              rw [hql]
              dsimp only [Option.bind]
              have hmem := lookup_mem_pair hql
              exact lookup_setAssoc_other fs.store c (Nat.ne_of_lt (hb (q, j2) hmem))
      · dsimp only
        constructor
        · exact hs
        · intro q hq
          have hqp : q ≠ p := fun hcon => by
            rw [hcon, hp] at hq
            exact Bool.noConfusion hq
          refine ⟨rfl, ?_⟩
          show (List.lookup q fs.files).bind
              (fun i2 => List.lookup i2 (setAssoc fs.store j c)) = fs.read q
          rcases hql : List.lookup q fs.files with _ | j2
          · unfold FS.read
            rw [hql]
            rfl
          · unfold FS.read
            rw [hql]
            dsimp only [Option.bind]
            have hmem := lookup_mem_pair hql
            have hpmem := lookup_mem_pair hlp
            have hne2 : j2 ≠ j :=
              Ne.symm (hs (p, j) hpmem (q, j2) hmem hp hq)
            exact lookup_setAssoc_other fs.store c hne2

theorem copyEntries_frame {W : SPath} (dst : SPath) (n : Nat)
    (hdst : strictUnderB W dst = true) :
    ∀ (l : List (SPath × Nat)) (fs : FS), boundedCells fs → sepCells W fs →
    boundedCells (copyEntries dst n fs l).1 ∧ sepCells W (copyEntries dst n fs l).1 ∧
    ∀ q, strictUnderB W q = false →
      ((copyEntries dst n fs l).1).lookupFile q = fs.lookupFile q ∧
      ((copyEntries dst n fs l).1).read q = fs.read q := by
  intro l
  induction l with
  | nil =>
    intro fs hb hs
    exact ⟨hb, hs, fun q hq => ⟨rfl, rfl⟩⟩
  | cons e l' ih =>
    intro fs hb hs
    rcases e with ⟨qe, i⟩
    unfold copyEntries
    dsimp only
    split
    · exact ih fs hb hs
    · rcases hm : fs.mkdirAll (dst ++ qe.drop n).dropLast with ⟨fs1, e1⟩
      have hm1 := mkdirAll_sep_frame fs ((dst ++ qe.drop n).dropLast) hs
      rw [hm] at hm1
      dsimp only at hm1
      have hb1 : boundedCells fs1 := by
        have := mkdirAll_bounded fs ((dst ++ qe.drop n).dropLast) hb
        rw [hm] at this
        exact this
      cases e1 with
      | some e2 => exact ⟨hb1, hm1.1, fun q hq => hm1.2 q⟩
      | none =>
        dsimp only
        rcases hsl : fs1.store.lookup i with _ | c
        · exact ⟨hb1, hm1.1, fun q hq => hm1.2 q⟩
        · dsimp only
          rcases hw : fs1.writeFile (dst ++ qe.drop n) c with ⟨fs2, e3⟩
          have hin : strictUnderB W (dst ++ qe.drop n) = true :=
            strictUnderB_append hdst (qe.drop n)
          have hw1 := writeFile_sep_frame c hin hb1 hm1.1
          rw [hw] at hw1
          dsimp only at hw1
          have hb2 : boundedCells fs2 := by
            have := writeFile_bounded fs1 (dst ++ qe.drop n) c hb1
            rw [hw] at this
            exact this
          cases e3 with
          | some e4 =>
            refine ⟨hb2, hw1.1, fun q hq => ?_⟩
            obtain ⟨hq1, hq2⟩ := hw1.2 q hq
            obtain ⟨hq3, hq4⟩ := hm1.2 q
            exact ⟨hq1.trans hq3, hq2.trans hq4⟩
          | none =>
            obtain ⟨hb3, hs3, hout⟩ := ih fs2 hb2 hw1.1
            refine ⟨hb3, hs3, fun q hq => ?_⟩
            obtain ⟨ha1, ha2⟩ := hout q hq
            obtain ⟨hq1, hq2⟩ := hw1.2 q hq
            obtain ⟨hq3, hq4⟩ := hm1.2 q
            exact ⟨(ha1.trans hq1).trans hq3, (ha2.trans hq2).trans hq4⟩

theorem copyTree_frame {W : SPath} {fs : FS} (src : SPath) {dst : SPath}
    (hdst : strictUnderB W dst = true) (hb : boundedCells fs) (hs : sepCells W fs) :
    boundedCells (copyTree fs src dst).1 ∧ sepCells W (copyTree fs src dst).1 ∧
    ∀ q, strictUnderB W q = false →
      ((copyTree fs src dst).1).lookupFile q = fs.lookupFile q ∧
      ((copyTree fs src dst).1).read q = fs.read q := by
  unfold copyTree
  split
  · exact copyEntries_frame dst src.length hdst _ fs hb hs
  · exact ⟨hb, hs, fun q hq => ⟨rfl, rfl⟩⟩

theorem writeGoMod_frame {W : SPath} {work : String} (m : Modfile) {fs : FS}
    (hgm : strictUnderB W (strToPath (filepathJoin [work, "go.mod"])) = true)
    (hb : boundedCells fs) (hs : sepCells W fs) :
    boundedCells (writeGoMod work m fs).1 ∧ sepCells W (writeGoMod work m fs).1 ∧
    ∀ q, strictUnderB W q = false →
      ((writeGoMod work m fs).1).lookupFile q = fs.lookupFile q ∧
      ((writeGoMod work m fs).1).read q = fs.read q := by
  unfold writeGoMod
  refine ⟨writeFile_bounded fs _ _ hb, ?_, ?_⟩
  · exact (writeFile_sep_frame (formatModfile m) hgm hb hs).1
  · exact (writeFile_sep_frame (formatModfile m) hgm hb hs).2

theorem goModEditReplace_frame {W : SPath} {work : String} {m : Modfile}
    {mp dstRel : String} {fs : FS}
    (hgm : strictUnderB W (strToPath (filepathJoin [work, "go.mod"])) = true)
    (hb : boundedCells fs) (hs : sepCells W fs) :
    boundedCells (goModEditReplace work m mp dstRel fs).1 ∧
    sepCells W (goModEditReplace work m mp dstRel fs).1 ∧
    ∀ q, strictUnderB W q = false →
      ((goModEditReplace work m mp dstRel fs).1).lookupFile q = fs.lookupFile q ∧
      ((goModEditReplace work m mp dstRel fs).1).read q = fs.read q :=
  writeGoMod_frame { m with replaces := (addReplace m.replaces mp "" dstRel "") }
    hgm hb hs

theorem replaceFn_frame {W : SPath} {work rmd mp sd : String} {fs : FS} {m : Modfile}
    (hgm : strictUnderB W (strToPath (filepathJoin [work, "go.mod"])) = true)
    (hdst : strictUnderB W (strToPath (filepathJoin [rmd, mp])) = true)
    (hb : boundedCells fs) (hs : sepCells W fs) :
    boundedCells (replaceFn work rmd mp sd fs m).1 ∧
    sepCells W (replaceFn work rmd mp sd fs m).1 ∧
    ∀ q, strictUnderB W q = false →
      ((replaceFn work rmd mp sd fs m).1).lookupFile q = fs.lookupFile q ∧
      ((replaceFn work rmd mp sd fs m).1).read q = fs.read q := by
  unfold replaceFn
  dsimp only
  split
  · exact ⟨hb, hs, fun q hq => ⟨rfl, rfl⟩⟩
  · exact goModEditReplace_frame hgm hb hs
  · rcases hc : copyTree fs (strToPath sd) (strToPath (filepathJoin [rmd, mp]))
      with ⟨fs1, e1⟩
    have hct := copyTree_frame (strToPath sd) hdst hb hs
    rw [hc] at hct
    dsimp only at hct
    cases e1 with
    | some e2 => exact hct
    | none =>
      dsimp only
      obtain ⟨hb1, hs1, hout1⟩ := hct
      obtain ⟨hb2, hs2, hout2⟩ := @goModEditReplace_frame W work m mp
        ("./" ++ filepathJoin ["mod", mp]) fs1 hgm hb1 hs1
      refine ⟨hb2, hs2, fun q hq => ?_⟩
      obtain ⟨hx1, hx2⟩ := hout2 q hq
      obtain ⟨hy1, hy2⟩ := hout1 q hq
      exact ⟨hx1.trans hy1, hx2.trans hy2⟩

theorem applyItemWrite_frame {W : SPath} {rmd : String} {st : LoopSt} {r : ReplaceItem}
    {st' : LoopSt} {eo : Option FsErr} (h : applyItemWrite rmd st r = (st', eo))
    (hdst : strictUnderB W (strToPath (filepathJoin [rmd, r.Mod, r.Path])) = true)
    (hb : boundedCells st.fs) (hs : sepCells W st.fs) :
    sepCells W st'.fs ∧
    ∀ q, strictUnderB W q = false →
      st'.fs.lookupFile q = st.fs.lookupFile q ∧ st'.fs.read q = st.fs.read q := by
  unfold applyItemWrite at h
  dsimp only at h
  rcases hm : st.fs.mkdirAll (strToPath (filepathDir (filepathJoin [rmd, r.Mod, r.Path])))
    with ⟨fs1, e1⟩
  rw [hm] at h
  have hm1 := mkdirAll_sep_frame st.fs
    (strToPath (filepathDir (filepathJoin [rmd, r.Mod, r.Path]))) hs
  rw [hm] at hm1
  dsimp only at hm1
  have hb1 : boundedCells fs1 := by
    have := mkdirAll_bounded st.fs
      (strToPath (filepathDir (filepathJoin [rmd, r.Mod, r.Path]))) hb
    rw [hm] at this
    exact this
  cases e1 with
  | some e2 =>
    dsimp only at h
    rw [Prod.mk.injEq] at h
    rw [← h.1]
    exact ⟨hm1.1, fun q hq => hm1.2 q⟩
  | none =>
    dsimp only at h
    rcases hr : fs1.removeOp (strToPath (filepathJoin [rmd, r.Mod, r.Path]))
      with ⟨fs2, eR⟩
    rw [hr] at h
    dsimp only at h
    have hr1 := removeOp_sep_frame hdst hm1.1
    rw [hr] at hr1
    dsimp only at hr1
    have hb2 : boundedCells fs2 := by
      have := removeOp_bounded fs1 (strToPath (filepathJoin [rmd, r.Mod, r.Path])) hb1
      rw [hr] at this
      exact this
    split at h
    · rcases hw : fs2.writeFile (strToPath (filepathJoin [rmd, r.Mod, r.Path])) r.Content
        with ⟨fs3, e3⟩
      rw [hw] at h
      have hw1 := writeFile_sep_frame r.Content hdst hb2 hr1.1
      rw [hw] at hw1
      dsimp only at hw1
      have hcompose : ∀ q, strictUnderB W q = false →
          fs3.lookupFile q = st.fs.lookupFile q ∧ fs3.read q = st.fs.read q := by
        intro q hq
        obtain ⟨hx1, hx2⟩ := hw1.2 q hq
        obtain ⟨hy1, hy2⟩ := hr1.2 q hq
        obtain ⟨hz1, hz2⟩ := hm1.2 q
        exact ⟨(hx1.trans hy1).trans hz1, (hx2.trans hy2).trans hz2⟩
      cases e3 with
      | some e4 =>
        dsimp only at h
        rw [Prod.mk.injEq] at h
        rw [← h.1]
        exact ⟨hw1.1, hcompose⟩
      | none =>
        dsimp only at h
        rw [Prod.mk.injEq] at h
        rw [← h.1]
        exact ⟨hw1.1, hcompose⟩
    · rw [Prod.mk.injEq] at h
      rw [← h.1]
      refine ⟨hr1.1, fun q hq => ?_⟩
      obtain ⟨hy1, hy2⟩ := hr1.2 q hq
      obtain ⟨hz1, hz2⟩ := hm1.2 q
      exact ⟨hy1.trans hz1, hy2.trans hz2⟩

theorem applyItemVisit_frame {W : SPath} {env : Env} {work rmd : String} {st : LoopSt}
    {r : ReplaceItem} {st' : LoopSt} {eo : Option FsErr}
    (h : applyItemVisit env work rmd st r = (st', eo))
    (hgm : strictUnderB W (strToPath (filepathJoin [work, "go.mod"])) = true)
    (hmod : strictUnderB W (strToPath (filepathJoin [rmd, r.Mod])) = true)
    (hb : boundedCells st.fs) (hs : sepCells W st.fs) :
    sepCells W st'.fs ∧
    ∀ q, strictUnderB W q = false →
      st'.fs.lookupFile q = st.fs.lookupFile q ∧ st'.fs.read q = st.fs.read q := by
  unfold applyItemVisit at h
  split at h
  · rw [Prod.mk.injEq] at h
    rw [← h.1]
    exact ⟨hs, fun q hq => ⟨rfl, rfl⟩⟩
  · split at h
    · rw [Prod.mk.injEq] at h
      rw [← h.1]
      exact ⟨hs, fun q hq => ⟨rfl, rfl⟩⟩
    · split at h
      · rw [Prod.mk.injEq] at h
        rw [← h.1]
        exact ⟨hs, fun q hq => ⟨rfl, rfl⟩⟩
      · rename_i srcDir hsd
        have hrf := @replaceFn_frame W work rmd r.Mod srcDir st.fs st.mod
          hgm hmod hb hs
        split at h
        · rename_i fs' m' evs e2 hrfe
          rw [hrfe] at hrf
          dsimp only at hrf
          rw [Prod.mk.injEq] at h
          rw [← h.1]
          exact ⟨hrf.2.1, fun q hq => hrf.2.2 q hq⟩
        · rename_i fs' m' evs hrfe
          rw [hrfe] at hrf
          dsimp only at hrf
          rw [Prod.mk.injEq] at h
          rw [← h.1]
          exact ⟨hrf.2.1, fun q hq => hrf.2.2 q hq⟩

theorem applyItem_frame {W : SPath} {env : Env} {work rmd : String} {st : LoopSt}
    {r : ReplaceItem} {st' : LoopSt} {eo : Option FsErr}
    (h : applyItem env work rmd st r = (st', eo))
    (hgm : strictUnderB W (strToPath (filepathJoin [work, "go.mod"])) = true)
    (hmod : strictUnderB W (strToPath (filepathJoin [rmd, r.Mod])) = true)
    (hdst : strictUnderB W (strToPath (filepathJoin [rmd, r.Mod, r.Path])) = true)
    (hb : boundedCells st.fs) (hs : sepCells W st.fs) :
    sepCells W st'.fs ∧
    ∀ q, strictUnderB W q = false →
      st'.fs.lookupFile q = st.fs.lookupFile q ∧ st'.fs.read q = st.fs.read q := by
  unfold applyItem at h
  rcases hv : applyItemVisit env work rmd st r with ⟨stv, ev⟩
  rw [hv] at h
  have hV := applyItemVisit_frame hv hgm hmod hb hs
  have hbv : boundedCells stv.fs := applyItemVisit_bounded hv hb
  cases ev with
  | some e =>
    dsimp only at h
    rw [Prod.mk.injEq] at h
    rw [← h.1]
    exact hV
  | none =>
    dsimp only at h
    have hW := applyItemWrite_frame h hdst hbv hV.1
    refine ⟨hW.1, fun q hq => ?_⟩
    obtain ⟨hx1, hx2⟩ := hW.2 q hq
    obtain ⟨hy1, hy2⟩ := hV.2 q hq
    exact ⟨hx1.trans hy1, hx2.trans hy2⟩

theorem runItems_frame {W : SPath} (env : Env) (work rmd : String)
    (hgm : strictUnderB W (strToPath (filepathJoin [work, "go.mod"])) = true) :
    ∀ (items : List ReplaceItem) (st st' : LoopSt) (eo : Option FsErr),
    runItems env work rmd st items = (st', eo) →
    (∀ r ∈ items, strictUnderB W (strToPath (filepathJoin [rmd, r.Mod])) = true) →
    (∀ r ∈ items,
      strictUnderB W (strToPath (filepathJoin [rmd, r.Mod, r.Path])) = true) →
    boundedCells st.fs → sepCells W st.fs →
    sepCells W st'.fs ∧
    ∀ q, strictUnderB W q = false →
      st'.fs.lookupFile q = st.fs.lookupFile q ∧ st'.fs.read q = st.fs.read q := by
  intro items
  induction items with
  | nil =>
    intro st st' eo h _ _ hb hs
    unfold runItems at h
    rw [Prod.mk.injEq] at h
    rw [← h.1]
    exact ⟨hs, fun q hq => ⟨rfl, rfl⟩⟩
  | cons r rest ih =>
    intro st st' eo h hmods hdsts hb hs
    unfold runItems at h
    rcases ha : applyItem env work rmd st r with ⟨st1, e⟩
    rw [ha] at h
    have hA := applyItem_frame ha hgm (hmods r (List.mem_cons_self r rest))
      (hdsts r (List.mem_cons_self r rest)) hb hs
    have hb1 := applyItem_bounded ha hb
    cases e with
    | some e2 =>
      rw [Prod.mk.injEq] at h
      rw [← h.1]
      exact hA
    | none =>
      have hrest := ih st1 st' eo h
        (fun r' hr' => hmods r' (List.mem_cons_of_mem r hr'))
        (fun r' hr' => hdsts r' (List.mem_cons_of_mem r hr')) hb1 hA.1
      refine ⟨hrest.1, fun q hq => ?_⟩
      obtain ⟨hx1, hx2⟩ := hrest.2 q hq
      obtain ⟨hy1, hy2⟩ := hA.2 q hq
      exact ⟨hx1.trans hy1, hx2.trans hy2⟩

theorem writeGoMod_frameE {W : SPath} {work : String} {m : Modfile} {fs fs' : FS}
    {eo : Option FsErr} (h : writeGoMod work m fs = (fs', eo))
    (hgm : strictUnderB W (strToPath (filepathJoin [work, "go.mod"])) = true)
    (hb : boundedCells fs) (hs : sepCells W fs) :
    sepCells W fs' ∧
    ∀ q, strictUnderB W q = false →
      fs'.lookupFile q = fs.lookupFile q ∧ fs'.read q = fs.read q := by
  have := writeGoMod_frame m hgm hb hs
  rw [h] at this
  exact ⟨this.2.1, this.2.2⟩

theorem writeFile_frameE {W : SPath} {fs fs' : FS} {p : SPath} {c : String}
    {eo : Option FsErr} (h : fs.writeFile p c = (fs', eo))
    (hp : strictUnderB W p = true) (hb : boundedCells fs) (hs : sepCells W fs) :
    sepCells W fs' ∧
    ∀ q, strictUnderB W q = false →
      fs'.lookupFile q = fs.lookupFile q ∧ fs'.read q = fs.read q := by
  have := writeFile_sep_frame c hp hb hs
  rw [h] at this
  exact this

theorem phaseManifest_frame {W : SPath} {env : Env} {work : String} {fs fs1 : FS}
    {m : Modfile} {omp : String} {eo : Option FsErr}
    (h : phaseManifest env work fs = (fs1, m, omp, eo))
    (hgm : strictUnderB W (strToPath (filepathJoin [work, "go.mod"])) = true)
    (hgs : strictUnderB W (strToPath (filepathJoin [work, "go.sum"])) = true)
    (hb : boundedCells fs) (hs : sepCells W fs) :
    sepCells W fs1 ∧
    ∀ q, strictUnderB W q = false →
      fs1.lookupFile q = fs.lookupFile q ∧ fs1.read q = fs.read q := by
  unfold phaseManifest at h
  by_cases hcg : env.currentGoMod ≠ ""
  · rw [if_pos hcg] at h
    cases hom : env.origMod with
    | none =>
      rw [hom] at h
      dsimp only at h
      simp only [Prod.mk.injEq] at h
      rw [← h.1]
      exact ⟨hs, fun q hq => ⟨rfl, rfl⟩⟩
    | some om =>
      rw [hom] at h
      dsimp only at h
      split at h
      · rename_i fsw e hwg
        simp only [Prod.mk.injEq] at h
        rw [← h.1]
        exact writeGoMod_frameE hwg hgm hb hs
      · rename_i fsw hwg
        have hF1 := writeGoMod_frameE hwg hgm hb hs
        have hbw : boundedCells fsw := writeGoMod_bounded hwg hb
        split at h
        · rename_i sum hgsum
          split at h
          · rename_i fs2 e hws
            simp only [Prod.mk.injEq] at h
            rw [← h.1]
            have hF2 := writeFile_frameE hws hgs hbw hF1.1
            refine ⟨hF2.1, fun q hq => ?_⟩
            obtain ⟨hx1, hx2⟩ := hF2.2 q hq
            obtain ⟨hy1, hy2⟩ := hF1.2 q hq
            exact ⟨hx1.trans hy1, hx2.trans hy2⟩
          · rename_i fs2 hws
            simp only [Prod.mk.injEq] at h
            rw [← h.1]
            have hF2 := writeFile_frameE hws hgs hbw hF1.1
            refine ⟨hF2.1, fun q hq => ?_⟩
            obtain ⟨hx1, hx2⟩ := hF2.2 q hq
            obtain ⟨hy1, hy2⟩ := hF1.2 q hq
            exact ⟨hx1.trans hy1, hx2.trans hy2⟩
        · simp only [Prod.mk.injEq] at h
          rw [← h.1]
          exact hF1
  · rw [if_neg hcg] at h
    split at h
    · dsimp only at h
      split at h
      · rename_i fsw e hwg
        simp only [Prod.mk.injEq] at h
        rw [← h.1]
        exact writeGoMod_frameE hwg hgm hb hs
      · rename_i fsw hwg
        simp only [Prod.mk.injEq] at h
        rw [← h.1]
        exact writeGoMod_frameE hwg hgm hb hs
    · simp only [Prod.mk.injEq] at h
      rw [← h.1]
      exact ⟨hs, fun q hq => ⟨rfl, rfl⟩⟩

theorem phaseOrig_frame {W : SPath} {env : Env} {work omp : String} {fs fs2 : FS}
    {m m2 : Modfile} {eo : Option FsErr}
    (h : phaseOrig env work omp fs m = (fs2, m2, eo))
    (hgm : strictUnderB W (strToPath (filepathJoin [work, "go.mod"])) = true)
    (hb : boundedCells fs) (hs : sepCells W fs) :
    sepCells W fs2 ∧
    ∀ q, strictUnderB W q = false →
      fs2.lookupFile q = fs.lookupFile q ∧ fs2.read q = fs.read q := by
  unfold phaseOrig at h
  split at h
  · simp only [Prod.mk.injEq] at h
    rw [← h.1]
    exact ⟨hs, fun q hq => ⟨rfl, rfl⟩⟩
  · dsimp only at h
    split at h
    · rename_i fsw e hwg
      simp only [Prod.mk.injEq] at h
      rw [← h.1]
      exact writeGoMod_frameE hwg hgm hb hs
    · rename_i fsw hwg
      have hF1 := writeGoMod_frameE hwg hgm hb hs
      have hbw : boundedCells fsw := writeGoMod_bounded hwg hb
      split at h
      · rename_i fs2b e hw2
        simp only [Prod.mk.injEq] at h
        rw [← h.1]
        have hF2 := writeGoMod_frameE hw2 hgm hbw hF1.1
        refine ⟨hF2.1, fun q hq => ?_⟩
        obtain ⟨hx1, hx2⟩ := hF2.2 q hq
        obtain ⟨hy1, hy2⟩ := hF1.2 q hq
        exact ⟨hx1.trans hy1, hx2.trans hy2⟩
      · rename_i fs2b hw2
        simp only [Prod.mk.injEq] at h
        rw [← h.1]
        have hF2 := writeGoMod_frameE hw2 hgm hbw hF1.1
        refine ⟨hF2.1, fun q hq => ?_⟩
        obtain ⟨hx1, hx2⟩ := hF2.2 q hq
        obtain ⟨hy1, hy2⟩ := hF1.2 q hq
        exact ⟨hx1.trans hy1, hx2.trans hy2⟩

/-- C1 (amended): when the workspace's own files (go.mod, go.sum, every
    module destination and every item destination) lie strictly inside the
    temporary root, and the pre-state shares no storage cell across that
    boundary, a successful run leaves every path outside the root
    byte-identical: each override write first removes the destination entry
    and recreates it in a fresh storage cell, so no write reaches storage
    visible outside.  The universally-quantified form of the claim is
    false: a `..`-climbing item path moves its destination outside the
    root and mutates the original tree (see the counterexample). -/
theorem C1_frame (env : Env) (fs0 : FS) (paths : List String)
    (replaces : List ReplaceItem)
    (hok : (createEnvironment env fs0 paths replaces).err = none)
    (hgm : strictUnderB (strToPath env.workRoot)
      (strToPath (filepathJoin [env.workRoot, "go.mod"])) = true)
    (hgs : strictUnderB (strToPath env.workRoot)
      (strToPath (filepathJoin [env.workRoot, "go.sum"])) = true)
    (hmods : ∀ r ∈ replaces, strictUnderB (strToPath env.workRoot)
      (strToPath (filepathJoin [filepathJoin [env.workRoot, "mod"], r.Mod])) = true)
    (hdsts : ∀ r ∈ replaces, strictUnderB (strToPath env.workRoot)
      (strToPath (filepathJoin [filepathJoin [env.workRoot, "mod"], r.Mod, r.Path]))
        = true)
    (hb : boundedCells fs0) (hs : sepCells (strToPath env.workRoot) fs0) :
    ∀ q, strictUnderB (strToPath env.workRoot) q = false →
      (createEnvironment env fs0 paths replaces).fs.read q = fs0.read q ∧
      (createEnvironment env fs0 paths replaces).fs.lookupFile q
        = fs0.lookupFile q := by
  obtain ⟨hmk, fsW, fs1, m1, omp, fs2, m2, st, nps, h1, h2, h3, h4, h5, h6, hfin⟩ :=
    createEnvironment_ok_decomp env fs0 paths replaces hok
  have hF0 := mkdirAll_sep_frame fs0 (strToPath env.workRoot) hs
  rw [h1] at hF0
  dsimp only at hF0
  have hbW : boundedCells fsW := by
    have := mkdirAll_bounded fs0 (strToPath env.workRoot) hb
    rw [h1] at this
    exact this
  have hF1 := phaseManifest_frame h2 hgm hgs hbW hF0.1
  have hbf1 : boundedCells fs1 := phaseManifest_bounded h2 hbW
  have hF2 := phaseOrig_frame h4 hgm hbf1 hF1.1
  have hbf2 : boundedCells fs2 := phaseOrig_bounded h4 hbf1
  have hF3 := runItems_frame env env.workRoot (filepathJoin [env.workRoot, "mod"])
    hgm replaces ⟨fs2, m2, [], []⟩ st none h5 hmods hdsts hbf2 hF2.1
  rw [hfin]
  dsimp only
  intro q hq
  obtain ⟨ha1, ha2⟩ := hF3.2 q hq
  obtain ⟨hb1, hb2⟩ := hF2.2 q hq
  obtain ⟨hc1, hc2⟩ := hF1.2 q hq
  obtain ⟨hd1, hd2⟩ := hF0.2 q
  exact ⟨((ha2.trans hb2).trans hc2).trans hd2,
         ((ha1.trans hb1).trans hc1).trans hd1⟩

/-- Witness for C1: a run overriding one file of example.com/m leaves the
    module cache and the unrelated original file untouched. -/
theorem C1_frame_witness :
    ((createEnvironment envA fsA ["example.com/m/pkg"] [itemA]).err = none ∧
     strictUnderB (strToPath envA.workRoot)
       (strToPath (filepathJoin [envA.workRoot, "go.mod"])) = true ∧
     strictUnderB (strToPath envA.workRoot)
       (strToPath (filepathJoin [envA.workRoot, "go.sum"])) = true ∧
     (∀ r ∈ [itemA], strictUnderB (strToPath envA.workRoot)
       (strToPath (filepathJoin [filepathJoin [envA.workRoot, "mod"], r.Mod]))
         = true) ∧
     (∀ r ∈ [itemA], strictUnderB (strToPath envA.workRoot)
       (strToPath (filepathJoin [filepathJoin [envA.workRoot, "mod"], r.Mod, r.Path]))
         = true) ∧
     boundedCells fsA ∧ sepCells (strToPath envA.workRoot) fsA) ∧
    ∀ q, strictUnderB (strToPath envA.workRoot) q = false →
      (createEnvironment envA fsA ["example.com/m/pkg"] [itemA]).fs.read q
        = fsA.read q ∧
      (createEnvironment envA fsA ["example.com/m/pkg"] [itemA]).fs.lookupFile q
        = fsA.lookupFile q :=
  ⟨⟨by decide, by decide, by decide, by decide, by decide,
    by unfold boundedCells; decide, by unfold sepCells; decide⟩,
   C1_frame envA fsA ["example.com/m/pkg"] [itemA] (by decide) (by decide) (by decide)
     (by decide) (by decide) (by unfold boundedCells; decide)
     (by unfold sepCells; decide)⟩

/-- C1 counterexample: an item whose path climbs out with `..` and back
    into the overridden module's own on-disk source directory makes a
    successful run overwrite a file of the original dependency source tree
    (`/cache/example.com/m`, the directory `go list -m -f Dir` reported),
    so the tree is not byte-identical after the call and the unconditional
    frame property of the claim fails. -/
theorem C1_counterexample :
    (createEnvironment envA fsA ["example.com/m/pkg"] [itemEscCache]).err = none ∧
    envA.modDir "example.com/m" = some "/cache/example.com/m" ∧
    strictUnderB (strToPath envA.workRoot) ["cache", "example.com", "m", "a.go"]
      = false ∧
    fsA.read ["cache", "example.com", "m", "a.go"] = some "package m" ∧
    (createEnvironment envA fsA ["example.com/m/pkg"] [itemEscCache]).fs.read
      ["cache", "example.com", "m", "a.go"] = some "evil" := by
  decide

end Uwagaki
